import Mathlib

/-! A file-backed static hash table with overflow chaining (`p2.cpp`).

Shallow embedding of `Entry`, `HashFile::Bucket`, `HashFile::BucketView` and
`HashFile` (constructor, `add`, `find`).

Modelling conventions.

* The backing `std::fstream` is a byte list together with the joint get/put
  position of the underlying `filebuf` (`FStream`).  Bytes are naturals below
  256.
* Platform constants are those of an LP64 little-endian target:
  `sizeof(int) = 4`, `sizeof(bool) = 1`, `sizeof(size_t) = 8`.  `size_t`
  arithmetic is taken modulo `2 ^ 64`; stream positions and seek offsets are
  naturals.
* A `read` that would run past the end of the file yields `none`: the source
  never checks the stream state, so nothing is said about what follows such a
  failure.  The two chain-walking loops take a fuel argument and yield `none`
  when it runs out.
* `std::hash<int>` belongs to the standard library; the definitions take it as
  the parameter `hashInt`.  `stdHashInt` is the libstdc++ instance (the value
  converted to `size_t`).
-/

namespace P2

/-! ## The stream -/

/-- Contents and joint position of the `std::fstream`. -/
structure FStream where
  data : List Nat
  pos : Nat
deriving DecidableEq, Repr

/-- The bytes `off .. off + n` of `d` (fewer when `d` is too short). -/
def slice (d : List Nat) (off n : Nat) : List Nat :=
  (d.drop off).take n

/-- Overwrite `d` from offset `off` with `bs`, extending the file when needed
(a gap is zero-filled, as a POSIX file is). -/
def writeAt (d : List Nat) (off : Nat) (bs : List Nat) : List Nat :=
  (d ++ List.replicate (off - d.length) 0).take off ++ bs ++ d.drop (off + bs.length)

namespace FStream

/-- Positioning relative to the start: `seekg(off, std::ios::beg)`. -/
def seekBeg (s : FStream) (off : Nat) : FStream :=
  { s with pos := off }

/-- Positioning relative to the current position:
`seekg(off, std::ios::cur)` and `seekp(off, std::ios::cur)`. -/
def seekCur (s : FStream) (off : Nat) : FStream :=
  { s with pos := s.pos + off }

/-- Positioning at the end: `seekg(0, std::ios::end)`, `seekp(0, std::ios::end)`. -/
def seekEnd (s : FStream) : FStream :=
  { s with pos := s.data.length }

/-- Current position: `tellg()`, `tellp()`. -/
def tell (s : FStream) : Nat :=
  s.pos

/-- Stream `read` of `n` bytes; `none` when fewer than `n` bytes remain. -/
def read (s : FStream) (n : Nat) : Option (List Nat × FStream) :=
  if s.pos + n ≤ s.data.length then
    some (slice s.data s.pos n, { s with pos := s.pos + n })
  else
    none

/-- Stream `write` of the bytes `bs` at the current position. -/
def write (s : FStream) (bs : List Nat) : FStream :=
  { data := writeAt s.data s.pos bs, pos := s.pos + bs.length }

end FStream

/-! ## Fixed-width integers -/

/-- The `n` low-order bytes of `v`, least significant first. -/
def leBytes : Nat → Nat → List Nat
  | 0, _ => []
  | n + 1, v => v % 256 :: leBytes n (v / 256)

/-- Value of a little-endian byte string. -/
def leVal : List Nat → Nat
  | [] => 0
  | b :: bs => b + 256 * leVal bs

/-- Object representation of an `int`: four bytes, two's complement. -/
def intBytes (k : Int) : List Nat :=
  leBytes 4 (k % 2 ^ 32).toNat

/-- The `int` whose object representation is `bs`. -/
def intOfBytes (bs : List Nat) : Int :=
  let u : Nat := leVal bs % 2 ^ 32
  if u < 2 ^ 31 then (u : Int) else (u : Int) - 2 ^ 32

/-- Object representation of a `size_t`: eight bytes. -/
def sizeBytes (v : Nat) : List Nat :=
  leBytes 8 (v % 2 ^ 64)

/-- Object representation of a `bool`. -/
def boolByte (b : Bool) : Nat :=
  if b then 1 else 0

/-- A `bool` read back from one byte of storage. -/
def boolOfBytes (bs : List Nat) : Bool :=
  leVal bs != 0

/-! ## `Entry` -/

/-- `struct Entry`: `int key; char nombre[30]; char carrera[20];`. -/
structure Entry where
  key : Int
  nombre : List Nat
  carrera : List Nat
deriving DecidableEq, Repr

namespace Entry

/-- `Entry::entry_size = sizeof(int) + 30 + 20`. -/
def entry_size : Nat := 4 + 30 + 20

/-- The values an `Entry` object can take: a 32-bit signed key, thirty name
bytes and twenty field bytes. -/
def WF (e : Entry) : Prop :=
  (-(2 : Int) ^ 31 ≤ e.key ∧ e.key < 2 ^ 31) ∧
  (e.nombre.length = 30 ∧ ∀ b ∈ e.nombre, b < 256) ∧
  (e.carrera.length = 20 ∧ ∀ b ∈ e.carrera, b < 256)

instance (e : Entry) : Decidable e.WF := by
  unfold WF; infer_instance

/-- The default constructor `Entry()`: key `0`, both buffers zeroed. -/
def default : Entry :=
  { key := 0, nombre := List.replicate 30 0, carrera := List.replicate 20 0 }

/-- Filling one buffer in the constructor.  The buffer of `cap` bytes starts
zeroed (`char nombre[30]{}`); `std::copy` stores the first
`n_copied = min(src.size(), cap)` characters of `src` from index `0` and
returns the position `n_copied`; `std::fill` stores `'\0'` from there up to
`std::end` of the buffer. -/
def copyFill (src : List Nat) (cap : Nat) : List Nat :=
  let buf := List.replicate cap 0
  let n_copied := min src.length cap
  let buf := writeAt buf 0 (src.take n_copied)
  writeAt buf n_copied (List.replicate (cap - n_copied) 0)

/-- The constructor `Entry(int, std::string const&, std::string const&)`. -/
def new (_key : Int) (_nombre _carrera : List Nat) : Entry :=
  { key := _key, nombre := copyFill _nombre 30, carrera := copyFill _carrera 20 }

/-- `Entry::serialize`. -/
def serialize (e : Entry) (os : FStream) : FStream :=
  let os := os.write (intBytes e.key)
  let os := os.write e.nombre
  os.write e.carrera

/-- `Entry::deserialize`. -/
def deserialize (s : FStream) : Option (Entry × FStream) :=
  match s.read 4 with
  | none => none
  | some (kb, s) =>
    match s.read 30 with
    | none => none
    | some (nb, s) =>
      match s.read 20 with
      | none => none
      | some (cb, s) => some ({ key := intOfBytes kb, nombre := nb, carrera := cb }, s)

end Entry

/-- `std::hash<int>` of libstdc++: the value converted to `size_t`. -/
def stdHashInt (k : Int) : Nat :=
  (k % 2 ^ 64).toNat

/-- `std::hash<Entry>::operator()`. -/
def hashEntry (hashInt : Int → Nat) (e : Entry) : Nat :=
  hashInt e.key

/-! ## `HashFile` -/

namespace HashFile

/-- `HashFile::n_buckets`. -/
def n_buckets : Nat := 5

/-- `struct HashFile::Bucket`. -/
structure Bucket where
  entries_mask : List Bool
  entries : List Entry
  overflow_pointer : Nat
deriving DecidableEq, Repr

namespace Bucket

/-- `Bucket::fb`. -/
def fb : Nat := 4

/-- `Bucket::overflow_no_overflow = std::numeric_limits<size_t>::max()`. -/
def overflow_no_overflow : Nat := 2 ^ 64 - 1

/-- `Bucket::bucket_size`. -/
def bucket_size : Nat := fb * (1 + Entry.entry_size) + 8

/-- The value-initialised `Bucket{}`. -/
def default : Bucket :=
  { entries_mask := List.replicate fb false
    entries := List.replicate fb Entry.default
    overflow_pointer := overflow_no_overflow }

/-- `Bucket::serialize`. -/
def serialize (b : Bucket) (os : FStream) : FStream :=
  let os := b.entries_mask.foldl (fun os m => os.write [boolByte m]) os
  let os := b.entries.foldl (fun os e => e.serialize os) os
  os.write (sizeBytes b.overflow_pointer)

/-- The values a `Bucket` object can take: four flags, four `Entry` values and
a `size_t`. -/
def WF (b : Bucket) : Prop :=
  b.entries_mask.length = fb ∧
  (b.entries.length = fb ∧ ∀ e ∈ b.entries, e.WF) ∧
  b.overflow_pointer < 2 ^ 64

instance (b : Bucket) : Decidable b.WF := by
  unfold WF; infer_instance

end Bucket

/-- `struct HashFile::BucketView`; the `file` pointer is the stream that is
passed to and returned by each operation. -/
structure BucketView where
  bucket_offset : Nat
deriving DecidableEq, Repr

namespace BucketView

/-- `BucketView::to_offset`. -/
def to_offset (bv : BucketView) (file : FStream) : FStream :=
  file.seekBeg bv.bucket_offset

/-- The loop of `read_entries_mask`: `n` successive one-byte reads. -/
def readMaskLoop : Nat → FStream → Option (List Bool × FStream)
  | 0, file => some ([], file)
  | n + 1, file =>
    match file.read 1 with
    | none => none
    | some (b, file) =>
      match readMaskLoop n file with
      | none => none
      | some (ret, file) => some (boolOfBytes b :: ret, file)

/-- `BucketView::read_entries_mask`. -/
def read_entries_mask (bv : BucketView) (file : FStream) : Option (List Bool × FStream) :=
  readMaskLoop Bucket.fb (bv.to_offset file)

/-- `BucketView::read_entry_mask`. -/
def read_entry_mask (bv : BucketView) (pos : Nat) (file : FStream) : Option (Bool × FStream) :=
  let file := bv.to_offset file
  let file := file.seekCur (pos * 1)
  match file.read 1 with
  | none => none
  | some (b, file) => some (boolOfBytes b, file)

/-- `BucketView::set_entry_mask`. -/
def set_entry_mask (bv : BucketView) (pos : Nat) (entry_mask : Bool) (file : FStream) : FStream :=
  let file := bv.to_offset file
  let file := file.seekCur (pos * 1)
  file.write [boolByte entry_mask]

/-- The loop of `read_entries`: `n` successive `deserialize` calls. -/
def readEntriesLoop : Nat → FStream → Option (List Entry × FStream)
  | 0, file => some ([], file)
  | n + 1, file =>
    match Entry.deserialize file with
    | none => none
    | some (temp, file) =>
      match readEntriesLoop n file with
      | none => none
      | some (ret, file) => some (temp :: ret, file)

/-- `BucketView::read_entries`. -/
def read_entries (bv : BucketView) (file : FStream) : Option (List Entry × FStream) :=
  let file := bv.to_offset file
  let file := file.seekCur (Bucket.fb * 1)
  readEntriesLoop Bucket.fb file

/-- `BucketView::read_entry`. -/
def read_entry (bv : BucketView) (pos : Nat) (file : FStream) : Option (Entry × FStream) :=
  let file := bv.to_offset file
  let file := file.seekCur (Bucket.fb * 1 + pos * Entry.entry_size)
  Entry.deserialize file

/-- `BucketView::set_entry`. -/
def set_entry (bv : BucketView) (pos : Nat) (entry : Entry) (file : FStream) : FStream :=
  let file := bv.to_offset file
  let file := file.seekCur (Bucket.fb * 1 + pos * Entry.entry_size)
  entry.serialize file

/-- `BucketView::read_overflow_pointer`. -/
def read_overflow_pointer (bv : BucketView) (file : FStream) : Option (Nat × FStream) :=
  let file := bv.to_offset file
  let file := file.seekCur (Bucket.fb * 1 + Bucket.fb * Entry.entry_size)
  match file.read 8 with
  | none => none
  | some (b, file) => some (leVal b, file)

/-- `BucketView::set_overflow_pointer`. -/
def set_overflow_pointer (bv : BucketView) (overflow_pointer : Nat) (file : FStream) : FStream :=
  let file := bv.to_offset file
  let file := file.seekCur (Bucket.fb * 1 + Bucket.fb * Entry.entry_size)
  file.write (sizeBytes overflow_pointer)

end BucketView

/-- The constructor `HashFile(file_name)`, run on a file whose contents are
`contents` (`[]` for a file that is absent or empty). -/
def new (contents : List Nat) : FStream :=
  let file : FStream := { data := contents, pos := 0 }
  let file := file.seekEnd
  if file.tell = 0 then
    (List.range n_buckets).foldl (fun file _ => Bucket.default.serialize file) file
  else
    file

/-- The bucket index `hash_pos` computed by `add`. -/
def add_hash_pos (hashInt : Int → Nat) (e : Entry) : Nat :=
  hashEntry hashInt e % n_buckets

/-- The first loop of `add`: follow overflow pointers to the last bucket of
the chain. -/
def addWalk : Nat → BucketView → FStream → Option (BucketView × FStream)
  | 0, _, _ => none
  | fuel + 1, bv, file =>
    match bv.read_overflow_pointer file with
    | none => none
    | some (op, file) =>
      if op = Bucket.overflow_no_overflow then
        some (bv, file)
      else
        addWalk fuel { bucket_offset := (op * Bucket.bucket_size) % 2 ^ 64 } file

/-- Position of the first `false` in the mask, as `std::find` followed by
`std::distance` computes it (`none` for `ems.end()`). -/
def findFalse : List Bool → Option Nat
  | [] => none
  | b :: bs => if b = false then some 0 else (findFalse bs).map (· + 1)

/-- `HashFile::add`. -/
def add (hashInt : Int → Nat) (fuel : Nat) (e : Entry) (file : FStream) : Option FStream :=
  let hash_pos := add_hash_pos hashInt e
  let bucket_pos := hash_pos * Bucket.bucket_size
  match addWalk fuel { bucket_offset := bucket_pos } file with
  | none => none
  | some (bv, file) =>
    match bv.read_entries_mask file with
    | none => none
    | some (ems, file) =>
      match findFalse ems with
      | none =>
        let file := file.seekEnd
        let last_pos := file.tell
        let new_bucket_index := last_pos / Bucket.bucket_size
        let file := bv.set_overflow_pointer new_bucket_index file
        let file := file.seekEnd
        let file := Bucket.default.serialize file
        let new_bv : BucketView := { bucket_offset := last_pos }
        let file := new_bv.set_entry_mask 0 true file
        some (new_bv.set_entry 0 e file)
      | some index =>
        let file := bv.set_entry_mask index true file
        some (bv.set_entry index e file)

/-- The bucket index computed by `find` before its loop. -/
def find_index (hashInt : Int → Nat) (key : Int) : Nat :=
  hashInt key % n_buckets

/-- The inner `for` loop of `find` over the slots `i, i + 1, ...` of one
bucket, `ems` being the part of the mask not yet looked at. -/
def findScan (key : Int) (bv : BucketView) :
    List Bool → Nat → List Entry → FStream → Option (List Entry × FStream)
  | [], _, ret, file => some (ret, file)
  | m :: ems, i, ret, file =>
    if m then
      match bv.read_entry i file with
      | none => none
      | some (temp, file) =>
        if temp.key = key then
          findScan key bv ems (i + 1) (ret ++ [temp]) file
        else
          findScan key bv ems (i + 1) ret file
    else
      findScan key bv ems (i + 1) ret file

/-- The `while` loop of `find`. -/
def findLoop (key : Int) : Nat → Nat → List Entry → FStream → Option (List Entry × FStream)
  | 0, _, _, _ => none
  | fuel + 1, index, ret, file =>
    if index ≠ Bucket.overflow_no_overflow then
      let bv : BucketView := { bucket_offset := (index * Bucket.bucket_size) % 2 ^ 64 }
      match bv.read_entries_mask file with
      | none => none
      | some (entries_mask, file) =>
        match findScan key bv entries_mask 0 ret file with
        | none => none
        | some (ret, file) =>
          match bv.read_overflow_pointer file with
          | none => none
          | some (index, file) => findLoop key fuel index ret file
    else
      some (ret, file)

/-- `HashFile::find`. -/
def find (hashInt : Int → Nat) (fuel : Nat) (key : Int) (file : FStream) :
    Option (List Entry × FStream) :=
  findLoop key fuel (find_index hashInt key) [] file

/-- Successive `add` calls, in list order. -/
def addAll (hashInt : Int → Nat) (fuel : Nat) : List Entry → FStream → Option FStream
  | [], file => some file
  | e :: es, file =>
    match add hashInt fuel e file with
    | none => none
    | some file => addAll hashInt fuel es file

end HashFile

/-- Characters of an ASCII string literal as bytes. -/
def str (s : String) : List Nat :=
  s.toList.map Char.toNat

/-- The eleven records that `main` adds, in order. -/
def mainEntries : List Entry :=
  [ Entry.new 1 (str "Alvaro") (str "A1"),
    Entry.new 1 (str "Alfredo") (str "A2"),
    Entry.new 1 (str "Alejandro") (str "A3"),
    Entry.new 1 (str "Alberto") (str "A4"),
    Entry.new 1 (str "Alex") (str "A5"),
    Entry.new 2 (str "Brazil") (str "B1"),
    Entry.new 3 (str "Carlos") (str "C1"),
    Entry.new 4 (str "Diego") (str "D1"),
    Entry.new 4 (str "Don") (str "D2"),
    Entry.new 5 (str "Enrique") (str "E1"),
    Entry.new 6 (str "Federico") (str "F1") ]


/-! ## Specification-level views of the file -/

/-- The 54 bytes that `Entry::serialize` emits for `e`. -/
def Entry.bytes (e : Entry) : List Nat :=
  intBytes e.key ++ e.nombre ++ e.carrera

/-- The entry that `Entry::deserialize` builds from 54 bytes. -/
def Entry.ofBytes (bs : List Nat) : Entry :=
  { key := intOfBytes (slice bs 0 4), nombre := slice bs 4 30, carrera := slice bs 34 20 }

/-- The flag of slot `j` of the bucket stored at byte offset `o`. -/
def maskAt (d : List Nat) (o j : Nat) : Bool :=
  boolOfBytes (slice d (o + j) 1)

/-- The record of slot `j` of the bucket stored at byte offset `o`. -/
def entryAt (d : List Nat) (o j : Nat) : Entry :=
  Entry.ofBytes (slice d (o + 4 + j * 54) 54)

/-- The overflow pointer of the bucket stored at byte offset `o`. -/
def nextAt (d : List Nat) (o : Nat) : Nat :=
  leVal (slice d (o + 220) 8)

/-- The 228 bytes that `Bucket::serialize` emits for `Bucket{}`. -/
def defaultBucketBytes : List Nat :=
  List.replicate 220 0 ++ List.replicate 8 255

/-! ## The file seen as an array of buckets

`ABucket` records what a bucket holds when its active slots form a prefix:
the records of the active slots, in slot order, and the overflow pointer.
`Abs.add` and `Abs.find` are `HashFile::add` and `HashFile::find` replayed on
such an array; they are related to the byte-level functions by the
simulation lemmas below and serve only to reason about the latter. -/

/-- Contents of one bucket: active records in slot order, overflow pointer. -/
structure ABucket where
  recs : List Entry
  next : Nat
deriving DecidableEq, Repr

/-- Bucket number `i` of the file `d` holds `b`. -/
def RepB (d : List Nat) (i : Nat) (b : ABucket) : Prop :=
  b.recs.length ≤ 4 ∧
  (∀ j, j < 4 → maskAt d (i * 228) j = decide (j < b.recs.length)) ∧
  (∀ j r, b.recs[j]? = some r → entryAt d (i * 228) j = r) ∧
  nextAt d (i * 228) = b.next

/-- The file `d` consists of exactly the buckets `bs`. -/
def Rep (d : List Nat) (bs : List ABucket) : Prop :=
  d.length = bs.length * 228 ∧ ∀ i b, bs[i]? = some b → RepB d i b

namespace Abs

/-- The array that the constructor writes into an empty file. -/
def init : List ABucket :=
  List.replicate 5 { recs := [], next := HashFile.Bucket.overflow_no_overflow }

/-- The chain walk of `add` on a bucket array. -/
def walk : Nat → Nat → List ABucket → Option Nat
  | 0, _, _ => none
  | fuel + 1, i, bs =>
    match bs[i]? with
    | none => none
    | some b =>
      if b.next = HashFile.Bucket.overflow_no_overflow then some i
      else walk fuel b.next bs

/-- `add` on a bucket array. -/
def add (hashInt : Int → Nat) (fuel : Nat) (e : Entry) (bs : List ABucket) :
    Option (List ABucket) :=
  match walk fuel (HashFile.add_hash_pos hashInt e) bs with
  | none => none
  | some t =>
    match bs[t]? with
    | none => none
    | some b =>
      if b.recs.length < 4 then
        some (bs.set t { b with recs := b.recs ++ [e] })
      else
        some (bs.set t { b with next := bs.length } ++
          [{ recs := [e], next := HashFile.Bucket.overflow_no_overflow }])

/-- Successive `add` calls on a bucket array. -/
def addAll (hashInt : Int → Nat) (fuel : Nat) : List Entry → List ABucket → Option (List ABucket)
  | [], bs => some bs
  | e :: es, bs =>
    match add hashInt fuel e bs with
    | none => none
    | some bs => addAll hashInt fuel es bs

/-- The loop of `find` on a bucket array. -/
def findLoop (key : Int) : Nat → Nat → List Entry → List ABucket → Option (List Entry)
  | 0, _, _, _ => none
  | fuel + 1, index, ret, bs =>
    if index ≠ HashFile.Bucket.overflow_no_overflow then
      match bs[index]? with
      | none => none
      | some b => findLoop key fuel b.next (ret ++ b.recs.filter (fun r => r.key = key)) bs
    else
      some ret

/-- `find` on a bucket array. -/
def find (hashInt : Int → Nat) (fuel : Nat) (key : Int) (bs : List ABucket) :
    Option (List Entry) :=
  findLoop key fuel (HashFile.find_index hashInt key) [] bs

end Abs

/-! ## Chains of buckets -/

/-- Last element of the non-empty list `i :: js`. -/
def chainLast : Nat → List Nat → Nat
  | i, [] => i
  | _, j :: js => chainLast j js

/-- The buckets `i :: js`, linked in this order by their overflow pointers, end
the chain that starts at `i`, and hold the records `recs` in order: four in
each bucket but the last. -/
def IsChain (bs : List ABucket) : Nat → List Nat → List Entry → Prop
  | i, [], recs =>
    ∃ b, bs[i]? = some b ∧ b.recs = recs ∧ recs.length ≤ 4 ∧
      b.next = HashFile.Bucket.overflow_no_overflow
  | i, j :: js, recs =>
    ∃ b, bs[i]? = some b ∧ b.recs = recs.take 4 ∧ b.recs.length = 4 ∧ b.next = j ∧ i < j ∧
      j ≠ HashFile.Bucket.overflow_no_overflow ∧ IsChain bs j js (recs.drop 4)

/-- The records of `rs` whose home bucket is `h`. -/
def homeRecs (hashInt : Int → Nat) (rs : List Entry) (h : Nat) : List Entry :=
  rs.filter (fun r => HashFile.add_hash_pos hashInt r = h)

/-- The bucket array `bs` is made of five disjoint chains, one from each
primary bucket, and the chain from `h` holds the records of `rs` with home
`h` in the order of `rs`. -/
def Inv (hashInt : Int → Nat) (bs : List ABucket) (rs : List Entry) : Prop :=
  ∃ ch : Nat → List Nat,
    (∀ h, h < 5 → IsChain bs h (ch h) (homeRecs hashInt rs h)) ∧
    (∀ h h', h < 5 → h' < 5 → h ≠ h' → ∀ x, x ∈ h :: ch h → x ∉ h' :: ch h') ∧
    (∀ x, x < bs.length → ∃ h, h < 5 ∧ x ∈ h :: ch h)

/-- The bucket indices met when following overflow pointers from bucket
`index` until a bucket without overflow is read: the walk made by the first
loop of `add` and by the loop of `find`. -/
def chainTrace : Nat → Nat → FStream → Option (List Nat)
  | 0, _, _ => none
  | fuel + 1, index, file =>
    let bv : HashFile.BucketView :=
      { bucket_offset := (index * HashFile.Bucket.bucket_size) % 2 ^ 64 }
    match bv.read_overflow_pointer file with
    | none => none
    | some (op, file) =>
      if op = HashFile.Bucket.overflow_no_overflow then some [index]
      else (chainTrace fuel op file).map (fun l => index :: l)

/-- The bucket array that the eleven adds of `main` produce. -/
def mainBuckets : List ABucket :=
  [ { recs := [Entry.new 5 (str "Enrique") (str "E1")],
      next := HashFile.Bucket.overflow_no_overflow },
    { recs := [Entry.new 1 (str "Alvaro") (str "A1"), Entry.new 1 (str "Alfredo") (str "A2"),
               Entry.new 1 (str "Alejandro") (str "A3"), Entry.new 1 (str "Alberto") (str "A4")],
      next := 5 },
    { recs := [Entry.new 2 (str "Brazil") (str "B1")],
      next := HashFile.Bucket.overflow_no_overflow },
    { recs := [Entry.new 3 (str "Carlos") (str "C1")],
      next := HashFile.Bucket.overflow_no_overflow },
    { recs := [Entry.new 4 (str "Diego") (str "D1"), Entry.new 4 (str "Don") (str "D2")],
      next := HashFile.Bucket.overflow_no_overflow },
    { recs := [Entry.new 1 (str "Alex") (str "A5"), Entry.new 6 (str "Federico") (str "F1")],
      next := HashFile.Bucket.overflow_no_overflow } ]

/-- The bytes that `Bucket::serialize` emits. -/
def HashFile.Bucket.bytes (b : HashFile.Bucket) : List Nat :=
  b.entries_mask.map boolByte ++ (b.entries.map Entry.bytes).flatten ++
    sizeBytes b.overflow_pointer

/-- Every overflow bucket of the array holds a record. -/
def OverflowFilled (bs : List ABucket) : Prop :=
  ∀ x b, bs[x]? = some b → 5 ≤ x → b.recs ≠ []

/-- The file after the eleven adds of `main`. -/
def mainFile : FStream :=
  (HashFile.addAll stdHashInt 16 mainEntries (HashFile.new [])).getD (HashFile.new [])

/-- The file after the first four adds of `main`. -/
def mainFour : FStream :=
  (HashFile.addAll stdHashInt 16 (mainEntries.take 4) (HashFile.new [])).getD (HashFile.new [])

/-- The bucket array that the first four adds of `main` produce. -/
def fourBuckets : List ABucket :=
  Abs.init.set 1 { recs := mainEntries.take 4, next := HashFile.Bucket.overflow_no_overflow }

/-- The records of `main` followed by two more whose home bucket is 1. -/
def fullEntries : List Entry :=
  mainEntries ++ [Entry.new 6 (str "Fabio") (str "F2"), Entry.new 1 (str "Ana") (str "A6")]

/-- The file after the adds of `fullEntries`. -/
def mainFull : FStream :=
  (HashFile.addAll stdHashInt 20 fullEntries (HashFile.new [])).getD (HashFile.new [])

/-- The bucket array that the adds of `fullEntries` produce: bucket 5, the end
of the chain from bucket 1, is full. -/
def fullBuckets : List ABucket :=
  mainBuckets.set 5
    { recs := [Entry.new 1 (str "Alex") (str "A5"), Entry.new 6 (str "Federico") (str "F1"),
               Entry.new 6 (str "Fabio") (str "F2"), Entry.new 1 (str "Ana") (str "A6")],
      next := HashFile.Bucket.overflow_no_overflow }

/-! ## Byte-level lemmas -/

theorem slice_length (d : List Nat) (off n : Nat) (h : off + n ≤ d.length) :
    (slice d off n).length = n := by
  simp [slice]; omega

theorem writeAt_length (d : List Nat) (off : Nat) (bs : List Nat) :
    (writeAt d off bs).length = max d.length (off + bs.length) := by
  simp [writeAt]; omega

theorem writeAt_pre_length (d : List Nat) (off : Nat) :
    ((d ++ List.replicate (off - d.length) 0).take off).length = off := by
  simp; omega

theorem slice_writeAt_same (d : List Nat) (off : Nat) (bs : List Nat) :
    slice (writeAt d off bs) off bs.length = bs := by
  unfold slice writeAt
  rw [List.append_assoc, List.drop_append_eq_append_drop, writeAt_pre_length]
  rw [List.drop_eq_nil_of_le (by rw [writeAt_pre_length])]
  simp

theorem slice_writeAt_after (d : List Nat) (off : Nat) (bs : List Nat) (off2 n : Nat)
    (h : off + bs.length ≤ off2) : slice (writeAt d off bs) off2 n = slice d off2 n := by
  unfold slice writeAt
  rw [List.drop_append_eq_append_drop, List.drop_append_eq_append_drop, writeAt_pre_length]
  rw [List.drop_eq_nil_of_le (by rw [writeAt_pre_length]; omega)]
  rw [List.drop_eq_nil_of_le (by omega)]
  simp only [List.length_append, writeAt_pre_length, List.nil_append, List.drop_drop]
  congr 2
  omega

theorem slice_writeAt_before (d : List Nat) (off : Nat) (bs : List Nat) (off2 n : Nat)
    (h1 : off ≤ d.length) (h : off2 + n ≤ off) :
    slice (writeAt d off bs) off2 n = slice d off2 n := by
  unfold slice writeAt
  have h0 : off - d.length = 0 := by omega
  rw [h0]
  simp only [List.replicate_zero, List.append_nil, List.append_assoc]
  rw [List.drop_append_eq_append_drop, List.take_append_eq_append_take]
  have h2 : n - (List.drop off2 (List.take off d)).length = 0 := by
    simp; omega
  rw [h2]
  simp only [List.take_zero, List.append_nil]
  rw [List.drop_take, List.take_take]
  congr 1
  omega

theorem writeAt_end (d bs : List Nat) : writeAt d d.length bs = d ++ bs := by
  simp [writeAt]

theorem slice_append_left (d e : List Nat) (off n : Nat) (h : off + n ≤ d.length) :
    slice (d ++ e) off n = slice d off n := by
  unfold slice
  rw [List.drop_append_eq_append_drop, List.take_append_eq_append_take]
  have : n - (List.drop off d).length = 0 := by simp; omega
  rw [this]; simp

theorem slice_append_right (d e : List Nat) (off n : Nat) :
    slice (d ++ e) (d.length + off) n = slice e off n := by
  unfold slice
  rw [List.drop_append_eq_append_drop]
  rw [List.drop_eq_nil_of_le (by omega)]
  simp

theorem slice_slice (d : List Nat) (off n off2 m : Nat) (h : off2 + m ≤ n) :
    slice (slice d off n) off2 m = slice d (off + off2) m := by
  unfold slice
  rw [List.drop_take, List.take_take, List.drop_drop]
  congr 1
  · omega

theorem slice_append_slice (d : List Nat) (off n m : Nat) :
    slice d off n ++ slice d (off + n) m = slice d off (n + m) := by
  unfold slice
  rw [← List.drop_drop, List.take_add]
  
theorem writeAt_writeAt_append (d : List Nat) (off : Nat) (a b : List Nat) :
    writeAt (writeAt d off a) (off + a.length) b = writeAt d off (a ++ b) := by
  have hl : (writeAt d off a).length = max d.length (off + a.length) := writeAt_length d off a
  have h0 : off + a.length - (writeAt d off a).length = 0 := by omega
  have hA := writeAt_pre_length d off
  unfold writeAt at hl h0 ⊢
  rw [h0]
  generalize List.take off (d ++ List.replicate (off - d.length) 0) = A at *
  simp only [List.replicate_zero, List.append_nil]
  rw [List.take_append_eq_append_take, List.drop_append_eq_append_drop]
  have h1 : (A ++ a).length = off + a.length := by rw [List.length_append, hA]
  have h2 : List.take (off + a.length) (A ++ a) = A ++ a :=
    List.take_of_length_le (by omega)
  have h3 : List.drop (off + a.length + b.length) (A ++ a) = [] :=
    List.drop_eq_nil_of_le (by omega)
  rw [h2, h3, h1]
  simp only [Nat.sub_self, List.take_zero, List.append_nil, List.nil_append, List.drop_drop,
    List.length_append, List.append_assoc]
  congr 4
  omega

/-! ## Fixed-width codecs -/

theorem leBytes_length (n v : Nat) : (leBytes n v).length = n := by
  induction n generalizing v with
  | zero => rfl
  | succ n ih => simp [leBytes, ih]

theorem leVal_leBytes (n v : Nat) : leVal (leBytes n v) = v % 256 ^ n := by
  induction n generalizing v with
  | zero => simp [leBytes, leVal, Nat.mod_one]
  | succ n ih =>
    simp only [leBytes, leVal, ih]
    rw [pow_succ, Nat.mul_comm (256 ^ n) 256, Nat.mod_mul]

theorem leBytes_lt (n v : Nat) : ∀ b ∈ leBytes n v, b < 256 := by
  induction n generalizing v with
  | zero => simp [leBytes]
  | succ n ih =>
    intro b hb
    simp only [leBytes, List.mem_cons] at hb
    rcases hb with rfl | hb
    · exact Nat.mod_lt _ (by decide)
    · exact ih _ b hb

theorem intBytes_length (k : Int) : (intBytes k).length = 4 := leBytes_length _ _

theorem sizeBytes_length (v : Nat) : (sizeBytes v).length = 8 := leBytes_length _ _

theorem intOfBytes_intBytes (k : Int) (h1 : -(2 : Int) ^ 31 ≤ k) (h2 : k < 2 ^ 31) :
    intOfBytes (intBytes k) = k := by
  unfold intOfBytes intBytes
  rw [leVal_leBytes]
  simp only
  norm_num at h1 h2 ⊢
  split <;> omega

theorem leVal_sizeBytes (v : Nat) : leVal (sizeBytes v) = v % 2 ^ 64 := by
  unfold sizeBytes
  rw [leVal_leBytes]
  norm_num

theorem boolOfBytes_boolByte (b : Bool) : boolOfBytes [boolByte b] = b := by
  cases b <;> rfl

/-! ## `Entry` codec -/

theorem Entry.bytes_length (e : Entry) (h : e.WF) : e.bytes.length = 54 := by
  obtain ⟨_, ⟨hn, _⟩, ⟨hc, _⟩⟩ := h
  simp [Entry.bytes, intBytes_length, hn, hc]

theorem Entry.slice_bytes_key (e : Entry) : slice e.bytes 0 4 = intBytes e.key := by
  have h4 := intBytes_length e.key
  unfold Entry.bytes slice
  rw [List.append_assoc, List.drop_zero, List.take_append_eq_append_take, h4]
  simp [List.take_of_length_le (Nat.le_of_eq h4)]

theorem Entry.slice_bytes_nombre (e : Entry) (hn : e.nombre.length = 30) :
    slice e.bytes 4 30 = e.nombre := by
  have h4 := intBytes_length e.key
  unfold Entry.bytes
  rw [List.append_assoc]
  have := slice_append_right (intBytes e.key) (e.nombre ++ e.carrera) 0 30
  rw [h4] at this
  rw [this, slice_append_left _ _ _ _ (by omega)]
  simp [slice, List.take_of_length_le (Nat.le_of_eq hn)]

theorem Entry.slice_bytes_carrera (e : Entry) (hn : e.nombre.length = 30)
    (hc : e.carrera.length = 20) : slice e.bytes 34 20 = e.carrera := by
  have h4 := intBytes_length e.key
  unfold Entry.bytes
  have := slice_append_right (intBytes e.key ++ e.nombre) e.carrera 0 20
  rw [List.length_append, h4, hn] at this
  rw [this]
  simp [slice, List.take_of_length_le (Nat.le_of_eq hc)]

theorem Entry.ofBytes_bytes (e : Entry) (h : e.WF) : Entry.ofBytes e.bytes = e := by
  obtain ⟨⟨hk1, hk2⟩, ⟨hn, _⟩, ⟨hc, _⟩⟩ := h
  unfold Entry.ofBytes
  rw [Entry.slice_bytes_key, Entry.slice_bytes_nombre e hn, Entry.slice_bytes_carrera e hn hc,
    intOfBytes_intBytes _ hk1 hk2]

theorem FStream.write_write (s : FStream) (a b : List Nat) :
    (s.write a).write b = s.write (a ++ b) := by
  simp only [FStream.write, writeAt_writeAt_append, List.length_append, Nat.add_assoc]

theorem Entry.serialize_eq (e : Entry) (s : FStream) : e.serialize s = s.write e.bytes := by
  simp only [Entry.serialize, FStream.write_write, Entry.bytes]

theorem Entry.deserialize_eq (s : FStream) :
    Entry.deserialize s =
      if s.pos + 54 ≤ s.data.length then
        some (Entry.ofBytes (slice s.data s.pos 54), { data := s.data, pos := s.pos + 54 })
      else none := by
  unfold Entry.deserialize FStream.read
  by_cases h : s.pos + 54 ≤ s.data.length
  · have h1 : s.pos + 4 ≤ s.data.length := by omega
    have h2 : s.pos + 4 + 30 ≤ s.data.length := by omega
    have h3 : s.pos + 4 + 30 + 20 ≤ s.data.length := by omega
    simp only [h, h1, h2, h3, if_true, Entry.ofBytes]
    rw [slice_slice _ _ _ _ _ (by omega), slice_slice _ _ _ _ _ (by omega),
      slice_slice _ _ _ _ _ (by omega)]
    simp only [Nat.add_zero, Nat.add_assoc, Nat.reduceAdd]
  · have h3 : ¬ (s.pos + 4 + 30 + 20 ≤ s.data.length) := by omega
    by_cases h1 : s.pos + 4 ≤ s.data.length <;>
      by_cases h2 : s.pos + 4 + 30 ≤ s.data.length <;> simp [h, h1, h2, h3]

theorem Entry.copyFill_eq (src : List Nat) (cap : Nat) :
    Entry.copyFill src cap =
      src.take (min src.length cap) ++ List.replicate (cap - min src.length cap) 0 := by
  unfold Entry.copyFill
  simp only
  generalize hn : min src.length cap = n
  have hl : (src.take n).length = n := by
    rw [List.length_take, ← hn]; omega
  have h1 : writeAt (List.replicate cap 0) 0 (src.take n) =
      src.take n ++ List.replicate (cap - n) 0 := by
    simp [writeAt, hl]
  rw [h1]
  unfold writeAt
  have h0 : n - (List.take n src ++ List.replicate (cap - n) 0).length = 0 := by
    rw [List.length_append, hl]; omega
  rw [h0, List.replicate_zero, List.append_nil, List.take_append_eq_append_take,
    List.drop_append_eq_append_drop, hl, List.take_of_length_le (Nat.le_of_eq hl),
    List.drop_eq_nil_of_le (by rw [hl]; omega)]
  simp


/-! ## `BucketView` operations as positioned reads and writes -/

namespace HashFile

theorem BucketView.read_overflow_pointer_eq (bv : BucketView) (s : FStream) :
    bv.read_overflow_pointer s =
      if bv.bucket_offset + 228 ≤ s.data.length then
        some (nextAt s.data bv.bucket_offset, { data := s.data, pos := bv.bucket_offset + 228 })
      else none := by
  unfold BucketView.read_overflow_pointer BucketView.to_offset FStream.seekBeg FStream.seekCur
    FStream.read nextAt
  simp only [Bucket.fb, Entry.entry_size, Nat.reduceAdd, Nat.reduceMul, Nat.add_assoc]
  by_cases h : bv.bucket_offset + 228 ≤ s.data.length <;> simp [h]

theorem BucketView.read_entries_mask_eq (bv : BucketView) (s : FStream) :
    bv.read_entries_mask s =
      if bv.bucket_offset + 4 ≤ s.data.length then
        some ([maskAt s.data bv.bucket_offset 0, maskAt s.data bv.bucket_offset 1,
               maskAt s.data bv.bucket_offset 2, maskAt s.data bv.bucket_offset 3],
              { data := s.data, pos := bv.bucket_offset + 4 })
      else none := by
  unfold BucketView.read_entries_mask BucketView.to_offset FStream.seekBeg
  simp only [Bucket.fb, BucketView.readMaskLoop, FStream.read, maskAt]
  by_cases h : bv.bucket_offset + 4 ≤ s.data.length
  · have h1 : bv.bucket_offset + 1 ≤ s.data.length := by omega
    have h2 : bv.bucket_offset + 1 + 1 ≤ s.data.length := by omega
    have h3 : bv.bucket_offset + 1 + 1 + 1 ≤ s.data.length := by omega
    have h4 : bv.bucket_offset + 1 + 1 + 1 + 1 ≤ s.data.length := by omega
    simp only [h, h1, h2, h3, h4, if_true, Nat.add_zero, Nat.add_assoc, Nat.reduceAdd]
  · have h4 : ¬ (bv.bucket_offset + 1 + 1 + 1 + 1 ≤ s.data.length) := by omega
    by_cases h1 : bv.bucket_offset + 1 ≤ s.data.length <;>
      by_cases h2 : bv.bucket_offset + 1 + 1 ≤ s.data.length <;>
      by_cases h3 : bv.bucket_offset + 1 + 1 + 1 ≤ s.data.length <;>
      simp [h, h1, h2, h3, h4]

theorem BucketView.read_entry_mask_eq (bv : BucketView) (j : Nat) (s : FStream) :
    bv.read_entry_mask j s =
      if bv.bucket_offset + j + 1 ≤ s.data.length then
        some (maskAt s.data bv.bucket_offset j, { data := s.data, pos := bv.bucket_offset + j + 1 })
      else none := by
  unfold BucketView.read_entry_mask BucketView.to_offset FStream.seekBeg FStream.seekCur
    FStream.read maskAt
  simp only [Nat.mul_one]
  by_cases h : bv.bucket_offset + j + 1 ≤ s.data.length <;> simp [h]

theorem BucketView.read_entry_eq (bv : BucketView) (j : Nat) (s : FStream) :
    bv.read_entry j s =
      if bv.bucket_offset + 4 + j * 54 + 54 ≤ s.data.length then
        some (entryAt s.data bv.bucket_offset j,
              { data := s.data, pos := bv.bucket_offset + 4 + j * 54 + 54 })
      else none := by
  unfold BucketView.read_entry BucketView.to_offset FStream.seekBeg FStream.seekCur entryAt
  rw [Entry.deserialize_eq]
  simp only [Bucket.fb, Entry.entry_size, Nat.reduceAdd, Nat.reduceMul, Nat.add_assoc]

theorem BucketView.set_entry_mask_eq (bv : BucketView) (j : Nat) (v : Bool) (s : FStream) :
    bv.set_entry_mask j v s =
      { data := writeAt s.data (bv.bucket_offset + j) [boolByte v],
        pos := bv.bucket_offset + j + 1 } := by
  simp [BucketView.set_entry_mask, BucketView.to_offset, FStream.seekBeg, FStream.seekCur,
    FStream.write]

theorem BucketView.set_entry_eq (bv : BucketView) (j : Nat) (e : Entry) (s : FStream) :
    bv.set_entry j e s =
      { data := writeAt s.data (bv.bucket_offset + 4 + j * 54) e.bytes,
        pos := bv.bucket_offset + 4 + j * 54 + e.bytes.length } := by
  simp [BucketView.set_entry, BucketView.to_offset, FStream.seekBeg, FStream.seekCur,
    FStream.write, Entry.serialize_eq, Bucket.fb, Entry.entry_size, Nat.add_assoc]

theorem BucketView.set_overflow_pointer_eq (bv : BucketView) (p : Nat) (s : FStream) :
    bv.set_overflow_pointer p s =
      { data := writeAt s.data (bv.bucket_offset + 220) (sizeBytes p),
        pos := bv.bucket_offset + 228 } := by
  simp [BucketView.set_overflow_pointer, BucketView.to_offset, FStream.seekBeg, FStream.seekCur,
    FStream.write, Bucket.fb, Entry.entry_size, Nat.add_assoc, sizeBytes_length]

theorem FStream.write_at_end (d bs : List Nat) :
    FStream.write { data := d, pos := d.length } bs =
      { data := d ++ bs, pos := (d ++ bs).length } := by
  simp [FStream.write, writeAt_end]

theorem Bucket.default_serialize_at_end (d : List Nat) :
    Bucket.default.serialize { data := d, pos := d.length } =
      { data := d ++ defaultBucketBytes, pos := (d ++ defaultBucketBytes).length } := by
  simp only [Bucket.serialize, Bucket.default, Bucket.fb, List.replicate, List.foldl,
    Entry.serialize_eq, FStream.write_at_end, List.append_assoc]
  rfl

end HashFile

/-! ## Reads after writes -/

theorem slice_writeAt_disj (d : List Nat) (off : Nat) (bs : List Nat) (off2 n : Nat)
    (h1 : off ≤ d.length) (h : off2 + n ≤ off ∨ off + bs.length ≤ off2) :
    slice (writeAt d off bs) off2 n = slice d off2 n := by
  rcases h with h | h
  · exact slice_writeAt_before d off bs off2 n h1 h
  · exact slice_writeAt_after d off bs off2 n h

theorem slice_full (d : List Nat) : slice d 0 d.length = d := by
  simp [slice]

/-- What a bucket holds depends on its own 228 bytes only. -/
theorem RepB_of_slices_eq (d d' : List Nat) (i : Nat) (b : ABucket)
    (h : ∀ off n, i * 228 ≤ off → off + n ≤ i * 228 + 228 → slice d' off n = slice d off n)
    (hb : RepB d i b) : RepB d' i b := by
  obtain ⟨hl, hm, he, hn⟩ := hb
  refine ⟨hl, ?_, ?_, ?_⟩
  · intro j hj
    rw [← hm j hj]
    unfold maskAt
    rw [h _ _ (by omega) (by omega)]
  · intro j r hr
    rw [← he j r hr]
    have hj : j < b.recs.length := by
      rcases List.getElem?_eq_some.mp hr with ⟨hj, _⟩
      exact hj
    unfold entryAt
    rw [h _ _ (by omega) (by omega)]
  · rw [← hn]
    unfold nextAt
    rw [h _ _ (by omega) (by omega)]

theorem RepB_writeAt_other (d : List Nat) (off : Nat) (bs : List Nat) (i : Nat) (b : ABucket)
    (h1 : off ≤ d.length) (h : off + bs.length ≤ i * 228 ∨ i * 228 + 228 ≤ off)
    (hb : RepB d i b) : RepB (writeAt d off bs) i b := by
  apply RepB_of_slices_eq d _ i b _ hb
  intro off2 n h2 h3
  apply slice_writeAt_disj _ _ _ _ _ h1
  omega

theorem RepB_append (d ext : List Nat) (i : Nat) (b : ABucket)
    (h : i * 228 + 228 ≤ d.length) (hb : RepB d i b) : RepB (d ++ ext) i b := by
  apply RepB_of_slices_eq d _ i b _ hb
  intro off2 n h2 h3
  apply slice_append_left
  omega

theorem Rep.bucket_in_file {d : List Nat} {bs : List ABucket} (h : Rep d bs) {i : Nat} {b : ABucket}
    (hi : bs[i]? = some b) : i * 228 + 228 ≤ d.length := by
  have hlt : i < bs.length := by
    rcases List.getElem?_eq_some.mp hi with ⟨hj, _⟩
    exact hj
  rw [h.1]
  have : (i + 1) * 228 ≤ bs.length * 228 := Nat.mul_le_mul_right _ hlt
  omega

namespace HashFile

theorem bucket_size_eq : Bucket.bucket_size = 228 := rfl

theorem overflow_no_overflow_eq : Bucket.overflow_no_overflow = 18446744073709551615 := rfl

/-- The chain walk of `add` reaches the bucket that the walk on the bucket array reaches. -/
theorem addWalk_sim (d : List Nat) (bs : List ABucket) (hrep : Rep d bs)
    (hsz : bs.length * 228 < 2 ^ 64) :
    ∀ (fuel i t p : Nat), Abs.walk fuel i bs = some t →
      addWalk fuel { bucket_offset := (i * Bucket.bucket_size) % 2 ^ 64 } { data := d, pos := p }
        = some ({ bucket_offset := t * 228 }, { data := d, pos := t * 228 + 228 }) ∧
      ∃ b, bs[t]? = some b ∧ b.next = Bucket.overflow_no_overflow := by
  intro fuel
  induction fuel with
  | zero => intro i t p h; simp [Abs.walk] at h
  | succ fuel ih =>
    intro i t p h
    unfold Abs.walk at h
    cases hb : bs[i]? with
    | none => simp [hb] at h
    | some b =>
      simp only [hb] at h
      have hin := hrep.bucket_in_file hb
      have hmod : (i * Bucket.bucket_size) % 2 ^ 64 = i * 228 := by
        rw [bucket_size_eq]
        apply Nat.mod_eq_of_lt
        have := hrep.1
        omega
      have hnext : nextAt d (i * 228) = b.next := (hrep.2 i b hb).2.2.2
      unfold addWalk
      rw [hmod, BucketView.read_overflow_pointer_eq]
      simp only [hin, if_true, hnext]
      by_cases hn : b.next = Bucket.overflow_no_overflow
      · simp only [hn, if_true] at h ⊢
        cases h
        exact ⟨rfl, b, hb, hn⟩
      · simp only [hn, if_false] at h ⊢
        exact ih b.next t _ h

end HashFile

/-! ## `add` on the file and on the bucket array -/

theorem Rep_add_free (d : List Nat) (bs : List ABucket) (hrep : Rep d bs) (t : Nat) (b : ABucket)
    (hb : bs[t]? = some b) (hlen : b.recs.length < 4) (e : Entry) (he : e.WF) :
    Rep (writeAt (writeAt d (t * 228 + b.recs.length) [boolByte true])
          (t * 228 + 4 + b.recs.length * 54) e.bytes)
        (bs.set t { b with recs := b.recs ++ [e] }) := by
  have hin := hrep.bucket_in_file hb
  have hbl := Entry.bytes_length e he
  obtain ⟨hl, hm, hent, hn⟩ := hrep.2 t b hb
  have hl1 : (writeAt d (t * 228 + b.recs.length) [boolByte true]).length = d.length := by
    rw [writeAt_length]; simp; omega
  constructor
  · rw [writeAt_length, hl1, hbl, List.length_set, ← hrep.1]; omega
  · intro i b' hi
    by_cases hit : i = t
    · subst hit
      have hlt : i < bs.length := by
        rcases List.getElem?_eq_some.mp hb with ⟨hj, _⟩
        exact hj
      rw [List.getElem?_set_self hlt] at hi
      cases hi
      refine ⟨by simp; omega, ?_, ?_, ?_⟩
      · intro j hj
        unfold maskAt
        rw [slice_writeAt_disj _ _ _ _ _ (by omega) (by omega)]
        by_cases hjl : j = b.recs.length
        · subst hjl
          have := slice_writeAt_same d (i * 228 + b.recs.length) [boolByte true]
          simp only [List.length_singleton] at this
          rw [this]
          simp [boolOfBytes_boolByte]
        · rw [slice_writeAt_disj _ _ _ _ _ (by omega) (by simp; omega)]
          have := hm j hj
          unfold maskAt at this
          rw [this]
          simp only [List.length_append, List.length_singleton, decide_eq_decide]
          omega
      · intro j r hr
        unfold entryAt
        by_cases hjl : j < b.recs.length
        · rw [List.getElem?_append_left hjl] at hr
          rw [slice_writeAt_disj _ _ _ _ _ (by omega) (by omega),
            slice_writeAt_disj _ _ _ _ _ (by omega) (by simp; omega)]
          exact hent j r hr
        · have hj : j = b.recs.length := by
            rcases List.getElem?_eq_some.mp hr with ⟨hj, _⟩
            simp at hj
            omega
          subst hj
          rw [List.getElem?_concat_length] at hr
          cases hr
          have := slice_writeAt_same (writeAt d (i * 228 + b.recs.length) [boolByte true])
            (i * 228 + 4 + b.recs.length * 54) e.bytes
          rw [hbl] at this
          rw [this, Entry.ofBytes_bytes e he]
      · unfold nextAt
        rw [slice_writeAt_disj _ _ _ _ _ (by omega) (by omega),
          slice_writeAt_disj _ _ _ _ _ (by omega) (by simp; omega)]
        exact hn
    · rw [List.getElem?_set_ne (Ne.symm hit)] at hi
      have hin' := hrep.bucket_in_file hi
      apply RepB_writeAt_other _ _ _ _ _ (by omega) (by omega)
      apply RepB_writeAt_other _ _ _ _ _ (by omega) (by simp; omega)
      exact hrep.2 i b' hi

theorem slice_defaultBucketBytes_mask (j : Nat) (h : j < 4) :
    slice defaultBucketBytes j 1 = [0] := by
  interval_cases j <;> rfl

theorem slice_defaultBucketBytes_next : slice defaultBucketBytes 220 8 = List.replicate 8 255 := by
  rfl

/-- The bytes below `d1.length` are not touched by appending a default bucket
and filling its first slot. -/
theorem slice_append_fill (d1 : List Nat) (e : Entry) (off n : Nat) (h : off + n ≤ d1.length) :
    slice (writeAt (writeAt (d1 ++ defaultBucketBytes) d1.length [boolByte true])
      (d1.length + 4) e.bytes) off n = slice d1 off n := by
  have hd : defaultBucketBytes.length = 228 := rfl
  have h3 : (writeAt (d1 ++ defaultBucketBytes) d1.length [boolByte true]).length
      = d1.length + 228 := by
    rw [writeAt_length, List.length_append, hd]; simp
  rw [slice_writeAt_disj _ _ _ _ _ (by omega) (by omega),
    slice_writeAt_disj _ _ _ _ _ (by simp) (by omega),
    slice_append_left _ _ _ _ h]

theorem Rep_add_full (d : List Nat) (bs : List ABucket) (hrep : Rep d bs) (t : Nat) (b : ABucket)
    (hb : bs[t]? = some b) (hlen : ¬ b.recs.length < 4) (e : Entry) (he : e.WF)
    (hsz : bs.length < 2 ^ 64) :
    Rep (writeAt (writeAt (writeAt d (t * 228 + 220) (sizeBytes bs.length) ++ defaultBucketBytes)
          d.length [boolByte true]) (d.length + 4) e.bytes)
        (bs.set t { b with next := bs.length } ++
          [{ recs := [e], next := HashFile.Bucket.overflow_no_overflow }]) := by
  have hin := hrep.bucket_in_file hb
  have hbl := Entry.bytes_length e he
  have hd : defaultBucketBytes.length = 228 := rfl
  obtain ⟨hl, hm, hent, hn⟩ := hrep.2 t b hb
  have hl1 : (writeAt d (t * 228 + 220) (sizeBytes bs.length)).length = d.length := by
    rw [writeAt_length, sizeBytes_length]; omega
  generalize hd1 : writeAt d (t * 228 + 220) (sizeBytes bs.length) = d1 at hl1 ⊢
  have hfr := slice_append_fill d1 e
  rw [hl1] at hfr
  have h3 : (writeAt (d1 ++ defaultBucketBytes) d.length [boolByte true]).length
      = d.length + 228 := by
    rw [writeAt_length, List.length_append, hd, hl1]; simp
  have hlt : t < bs.length := by
    rcases List.getElem?_eq_some.mp hb with ⟨hj, _⟩
    exact hj
  constructor
  · rw [writeAt_length, h3, hbl, List.length_append, List.length_set, List.length_singleton,
      hrep.1]
    omega
  · intro i b' hi
    by_cases hiN : i < bs.length
    · rw [List.getElem?_append_left (by simpa using hiN)] at hi
      have hiin : i * 228 + 228 ≤ d.length := by
        rw [hrep.1]
        have : (i + 1) * 228 ≤ bs.length * 228 := Nat.mul_le_mul_right _ hiN
        omega
      apply RepB_of_slices_eq d1 _ i b' (fun off n h1 h2 => hfr off n (by omega))
      by_cases hit : i = t
      · subst hit
        rw [List.getElem?_set_self hlt] at hi
        cases hi
        subst hd1
        refine ⟨hl, ?_, ?_, ?_⟩
        · intro j hj
          unfold maskAt
          rw [slice_writeAt_disj _ _ _ _ _ (by omega) (by omega)]
          exact hm j hj
        · intro j r hr
          have hjl : j < b.recs.length := by
            rcases List.getElem?_eq_some.mp hr with ⟨hj, _⟩
            exact hj
          unfold entryAt
          rw [slice_writeAt_disj _ _ _ _ _ (by omega) (by omega)]
          exact hent j r hr
        · unfold nextAt
          have := slice_writeAt_same d (i * 228 + 220) (sizeBytes bs.length)
          rw [sizeBytes_length] at this
          rw [this, leVal_sizeBytes]
          exact Nat.mod_eq_of_lt hsz
      · rw [List.getElem?_set_ne (Ne.symm hit)] at hi
        subst hd1
        apply RepB_writeAt_other _ _ _ _ _ (by omega) (by rw [sizeBytes_length]; omega)
        exact hrep.2 i b' hi
    · have hiN' : i = bs.length := by
        rcases List.getElem?_eq_some.mp hi with ⟨hj, _⟩
        simp at hj
        omega
      subst hiN'
      have hset : (bs.set t { b with next := bs.length }).length = bs.length := by simp
      have hi2 := List.getElem?_concat_length (bs.set t { b with next := bs.length })
        { recs := [e], next := HashFile.Bucket.overflow_no_overflow }
      rw [hset] at hi2
      rw [hi2] at hi
      cases hi
      unfold RepB
      rw [← hrep.1]
      refine ⟨by simp, ?_, ?_, ?_⟩
      · intro j hj
        unfold maskAt
        rw [slice_writeAt_disj _ _ _ _ _ (by omega) (by omega)]
        by_cases hj0 : j = 0
        · subst hj0
          have := slice_writeAt_same (d1 ++ defaultBucketBytes) d.length [boolByte true]
          simp only [List.length_singleton] at this
          rw [Nat.add_zero, this]
          simp [boolOfBytes_boolByte]
        · rw [slice_writeAt_disj _ _ _ _ _ (by simp; omega) (by simp; omega)]
          have := slice_append_right d1 defaultBucketBytes j 1
          rw [hl1] at this
          rw [this, slice_defaultBucketBytes_mask j hj]
          simp [boolOfBytes, leVal]
          omega
      · intro j r hr
        have hj : j = 0 := by
          rcases List.getElem?_eq_some.mp hr with ⟨hj, _⟩
          simp at hj
          omega
        subst hj
        simp only [List.getElem?_cons_zero, Option.some.injEq] at hr
        subst hr
        unfold entryAt
        have := slice_writeAt_same (writeAt (d1 ++ defaultBucketBytes) d.length [boolByte true])
          (d.length + 4) e.bytes
        rw [hbl] at this
        rw [Nat.zero_mul, Nat.add_zero, this, Entry.ofBytes_bytes e he]
      · unfold nextAt
        rw [slice_writeAt_disj _ _ _ _ _ (by omega) (by omega),
          slice_writeAt_disj _ _ _ _ _ (by simp; omega) (by simp)]
        have := slice_append_right d1 defaultBucketBytes 220 8
        rw [hl1] at this
        rw [this, slice_defaultBucketBytes_next]
        rfl

namespace HashFile

theorem findFalse_mask (n : Nat) :
    findFalse [decide (0 < n), decide (1 < n), decide (2 < n), decide (3 < n)] =
      if n < 4 then some n else none := by
  rcases n with _ | _ | _ | _ | n <;> simp [findFalse]
  rw [if_neg (by omega)]

theorem add_hash_pos_lt (hashInt : Int → Nat) (e : Entry) : add_hash_pos hashInt e < 5 :=
  Nat.mod_lt _ (by decide)

/-- One `add` on the file does what `Abs.add` does on the bucket array. -/
theorem add_sim (hashInt : Int → Nat) (d : List Nat) (bs : List ABucket) (hrep : Rep d bs)
    (hsz : (bs.length + 1) * 228 < 2 ^ 64) (e : Entry) (he : e.WF) (fuel p : Nat)
    (bs' : List ABucket) (h : Abs.add hashInt fuel e bs = some bs') :
    ∃ f', add hashInt fuel e { data := d, pos := p } = some f' ∧ Rep f'.data bs' := by
  unfold Abs.add at h
  cases hw : Abs.walk fuel (add_hash_pos hashInt e) bs with
  | none => simp [hw] at h
  | some t =>
    simp only [hw] at h
    obtain ⟨hwalk, b, hb, hbn⟩ := addWalk_sim d bs hrep (by omega) fuel _ t p hw
    have hhp : add_hash_pos hashInt e * Bucket.bucket_size % 2 ^ 64
        = add_hash_pos hashInt e * Bucket.bucket_size := by
      apply Nat.mod_eq_of_lt
      have := add_hash_pos_lt hashInt e
      rw [bucket_size_eq]
      omega
    rw [hhp] at hwalk
    simp only [hb] at h
    have hin := hrep.bucket_in_file hb
    obtain ⟨hl, hm, hent, hn⟩ := hrep.2 t b hb
    have hin4 : t * 228 + 4 ≤ d.length := by omega
    unfold add
    simp only [hwalk, BucketView.read_entries_mask_eq, hin4, if_true]
    rw [hm 0 (by omega), hm 1 (by omega), hm 2 (by omega), hm 3 (by omega), findFalse_mask]
    by_cases hlen : b.recs.length < 4
    · simp only [hlen, if_true] at h ⊢
      cases h
      refine ⟨_, rfl, ?_⟩
      simp only [BucketView.set_entry_mask_eq, BucketView.set_entry_eq]
      exact Rep_add_free d bs hrep t b hb hlen e he
    · simp only [hlen, if_false] at h ⊢
      cases h
      refine ⟨_, rfl, ?_⟩
      simp only [BucketView.set_entry_mask_eq, BucketView.set_entry_eq,
        BucketView.set_overflow_pointer_eq, FStream.seekEnd, FStream.tell]
      have hl1 : (writeAt d (t * 228 + 220) (sizeBytes (d.length / Bucket.bucket_size))).length
          = d.length := by
        rw [writeAt_length, sizeBytes_length]; omega
      rw [← hl1, Bucket.default_serialize_at_end, hl1]
      have hdiv : d.length / Bucket.bucket_size = bs.length := by
        rw [hrep.1, bucket_size_eq]
        exact Nat.mul_div_cancel _ (by decide)
      rw [hdiv]
      simp only [Nat.add_zero, Nat.zero_mul]
      exact Rep_add_full d bs hrep t b hb hlen e he (by omega)

end HashFile

/-! ## The constructor and `find` on the file and on the bucket array -/

theorem Rep_nil : Rep [] [] := by
  constructor
  · rfl
  · intro i b hi
    simp at hi

theorem Rep_append_default (d : List Nat) (bs : List ABucket) (hrep : Rep d bs) :
    Rep (d ++ defaultBucketBytes)
      (bs ++ [{ recs := [], next := HashFile.Bucket.overflow_no_overflow }]) := by
  have hd : defaultBucketBytes.length = 228 := rfl
  constructor
  · rw [List.length_append, List.length_append, hd, hrep.1, List.length_singleton]
    omega
  · intro i b hi
    by_cases hiN : i < bs.length
    · rw [List.getElem?_append_left hiN] at hi
      exact RepB_append d _ i b (hrep.bucket_in_file hi) (hrep.2 i b hi)
    · have hiN' : i = bs.length := by
        rcases List.getElem?_eq_some.mp hi with ⟨hj, _⟩
        simp at hj
        omega
      subst hiN'
      rw [List.getElem?_concat_length] at hi
      cases hi
      unfold RepB
      rw [← hrep.1]
      refine ⟨by simp, ?_, ?_, ?_⟩
      · intro j hj
        unfold maskAt
        rw [slice_append_right, slice_defaultBucketBytes_mask j hj]
        simp [boolOfBytes, leVal]
      · intro j r hr
        simp at hr
      · unfold nextAt
        rw [slice_append_right, slice_defaultBucketBytes_next]
        rfl

namespace HashFile

theorem new_nil :
    HashFile.new [] =
      { data := defaultBucketBytes ++ defaultBucketBytes ++ defaultBucketBytes ++
          defaultBucketBytes ++ defaultBucketBytes,
        pos := 1140 } := by
  have h0 := Bucket.default_serialize_at_end []
  have h1 := Bucket.default_serialize_at_end defaultBucketBytes
  have h2 := Bucket.default_serialize_at_end (defaultBucketBytes ++ defaultBucketBytes)
  have h3 := Bucket.default_serialize_at_end
    (defaultBucketBytes ++ defaultBucketBytes ++ defaultBucketBytes)
  have h4 := Bucket.default_serialize_at_end
    (defaultBucketBytes ++ defaultBucketBytes ++ defaultBucketBytes ++ defaultBucketBytes)
  have hd : defaultBucketBytes.length = 228 := rfl
  simp only [List.length_append, hd, List.length_nil, List.nil_append, Nat.reduceAdd]
    at h0 h1 h2 h3 h4
  have hr : List.range n_buckets = [0, 1, 2, 3, 4] := rfl
  unfold HashFile.new
  simp only [FStream.seekEnd, FStream.tell, List.length_nil, if_true, hr, List.foldl,
    h0, h1, h2, h3, h4]

theorem new_nil_rep : Rep (HashFile.new []).data Abs.init := by
  rw [new_nil]
  exact Rep_append_default _ _ (Rep_append_default _ _ (Rep_append_default _ _
    (Rep_append_default _ _ (Rep_append_default _ _ Rep_nil))))

/-- The slot scan of `find` collects the matching records of the bucket. -/
theorem findScan_sim (key : Int) (d : List Nat) (i : Nat) (b : ABucket) (hb : RepB d i b)
    (hin : i * 228 + 228 ≤ d.length) :
    ∀ (ms : List Bool) (k : Nat) (ret : List Entry) (p : Nat), k + ms.length = 4 →
      (∀ x (hx : x < ms.length), ms[x] = decide (k + x < b.recs.length)) →
      ∃ p', findScan key { bucket_offset := i * 228 } ms k ret { data := d, pos := p } =
        some (ret ++ (b.recs.drop k).filter (fun r => r.key = key), { data := d, pos := p' }) := by
  obtain ⟨hl, hm, hent, hn⟩ := hb
  intro ms
  induction ms with
  | nil =>
    intro k ret p hk _
    simp only [List.length_nil, Nat.add_zero] at hk
    subst hk
    refine ⟨p, ?_⟩
    rw [List.drop_eq_nil_of_le hl]
    simp [findScan]
  | cons m ms ih =>
    intro k ret p hk hms
    have hm0 := hms 0 (by simp)
    simp only [List.getElem_cons_zero, Nat.add_zero] at hm0
    have hms' : ∀ x (hx : x < ms.length), ms[x] = decide (k + 1 + x < b.recs.length) := by
      intro x hx
      have := hms (x + 1) (by simpa using hx)
      simp only [List.getElem_cons_succ] at this
      rw [this]
      congr 1
      rw [Nat.add_assoc, Nat.add_comm 1 x]
    simp only [List.length_cons] at hk
    by_cases hkl : k < b.recs.length
    · have hr : b.recs[k]? = some b.recs[k] := List.getElem?_eq_getElem hkl
      have hdrop : b.recs.drop k = b.recs[k] :: b.recs.drop (k + 1) :=
        List.drop_eq_getElem_cons hkl
      have hread : k * 54 + 54 ≤ 216 := by omega
      unfold findScan
      simp only [hm0, hkl, decide_True, if_true, BucketView.read_entry_eq]
      rw [if_pos (by omega), hent k _ hr, hdrop, List.filter_cons]
      by_cases hkey : b.recs[k].key = key
      · simp only [hkey, if_true, decide_True]
        obtain ⟨p', hp'⟩ := ih (k + 1) (ret ++ [b.recs[k]]) (i * 228 + 4 + k * 54 + 54)
          (by omega) hms'
        exact ⟨p', by rw [hp']; simp⟩
      · simp only [hkey, if_false, decide_False]
        obtain ⟨p', hp'⟩ := ih (k + 1) ret (i * 228 + 4 + k * 54 + 54) (by omega) hms'
        exact ⟨p', by rw [hp']; simp⟩
    · unfold findScan
      simp only [hm0, hkl, decide_False, if_false]
      obtain ⟨p', hp'⟩ := ih (k + 1) ret p (by omega) hms'
      refine ⟨p', ?_⟩
      rw [List.drop_eq_nil_of_le (by omega)] at hp' ⊢
      simpa using hp'

/-- `find` on the file returns what `Abs.find` returns on the bucket array. -/
theorem findLoop_sim (key : Int) (d : List Nat) (bs : List ABucket) (hrep : Rep d bs)
    (hsz : bs.length * 228 < 2 ^ 64) :
    ∀ (fuel i : Nat) (ret : List Entry) (p : Nat) (r : List Entry),
      Abs.findLoop key fuel i ret bs = some r →
      ∃ p', findLoop key fuel i ret { data := d, pos := p } = some (r, { data := d, pos := p' }) := by
  intro fuel
  induction fuel with
  | zero => intro i ret p r h; simp [Abs.findLoop] at h
  | succ fuel ih =>
    intro i ret p r h
    unfold Abs.findLoop at h
    unfold findLoop
    by_cases hi : i = Bucket.overflow_no_overflow
    · simp only [hi, ne_eq, not_true_eq_false, if_false] at h ⊢
      cases h
      exact ⟨p, rfl⟩
    · simp only [hi, ne_eq, not_false_eq_true, if_true] at h ⊢
      cases hb : bs[i]? with
      | none => simp [hb] at h
      | some b =>
        simp only [hb] at h
        have hin := hrep.bucket_in_file hb
        have hmod : (i * Bucket.bucket_size) % 2 ^ 64 = i * 228 := by
          rw [bucket_size_eq]
          apply Nat.mod_eq_of_lt
          have := hrep.1
          omega
        have hB := hrep.2 i b hb
        obtain ⟨hl, hm, hent, hn⟩ := hB
        have hin4 : i * 228 + 4 ≤ d.length := by omega
        rw [hmod]
        simp only [BucketView.read_entries_mask_eq, hin4, if_true]
        obtain ⟨p1, hp1⟩ := findScan_sim key d i b (hrep.2 i b hb) hin
          [maskAt d (i * 228) 0, maskAt d (i * 228) 1, maskAt d (i * 228) 2, maskAt d (i * 228) 3]
          0 ret (i * 228 + 4) (by simp) (by
            intro x hx
            simp only [List.length_cons, List.length_nil] at hx
            rw [Nat.zero_add]
            rcases x with _ | _ | _ | _ | x
            · exact hm 0 (by omega)
            · exact hm 1 (by omega)
            · exact hm 2 (by omega)
            · exact hm 3 (by omega)
            · omega)
        rw [hp1]
        simp only [BucketView.read_overflow_pointer_eq, hin, if_true, hn, List.drop_zero]
        exact ih b.next _ _ r h

theorem find_sim (hashInt : Int → Nat) (key : Int) (d : List Nat) (bs : List ABucket)
    (hrep : Rep d bs) (hsz : bs.length * 228 < 2 ^ 64) (fuel p : Nat) (r : List Entry)
    (h : Abs.find hashInt fuel key bs = some r) :
    ∃ p', find hashInt fuel key { data := d, pos := p } = some (r, { data := d, pos := p' }) :=
  findLoop_sim key d bs hrep hsz fuel _ [] p r h

end HashFile

/-! ## Chains in the bucket array -/

theorem chainLast_mem (i : Nat) (js : List Nat) : chainLast i js ∈ i :: js := by
  induction js generalizing i with
  | nil => simp [chainLast]
  | cons j js ih =>
    simp only [chainLast]
    exact List.mem_cons_of_mem _ (ih j)

theorem chainLast_append (i : Nat) (js : List Nat) (n : Nat) :
    chainLast i (js ++ [n]) = n := by
  induction js generalizing i with
  | nil => simp [chainLast]
  | cons j js ih => simp only [List.cons_append, chainLast]; exact ih j

theorem IsChain.lt_of_mem {bs : List ABucket} {i : Nat} {js : List Nat} {recs : List Entry}
    (h : IsChain bs i js recs) : ∀ x ∈ js, i < x := by
  induction js generalizing i recs with
  | nil => intro x hx; simp at hx
  | cons j js ih =>
    obtain ⟨b, _, _, _, _, hij, _, hrest⟩ := h
    intro x hx
    rcases List.mem_cons.mp hx with rfl | hx
    · exact hij
    · exact Nat.lt_trans hij (ih hrest x hx)

theorem IsChain.mem_lt_length {bs : List ABucket} {i : Nat} {js : List Nat} {recs : List Entry}
    (h : IsChain bs i js recs) : ∀ x ∈ i :: js, x < bs.length := by
  induction js generalizing i recs with
  | nil =>
    obtain ⟨b, hb, _⟩ := h
    intro x hx
    simp only [List.mem_singleton] at hx
    subst hx
    rcases List.getElem?_eq_some.mp hb with ⟨hj, _⟩
    exact hj
  | cons j js ih =>
    obtain ⟨b, hb, _, _, _, _, _, hrest⟩ := h
    intro x hx
    rcases List.mem_cons.mp hx with rfl | hx
    · rcases List.getElem?_eq_some.mp hb with ⟨hj, _⟩
      exact hj
    · exact ih hrest x hx

theorem IsChain.add_length_lt {bs : List ABucket} {i : Nat} {js : List Nat} {recs : List Entry}
    (h : IsChain bs i js recs) : i + js.length < bs.length := by
  induction js generalizing i recs with
  | nil => simpa using h.mem_lt_length i (by simp)
  | cons j js ih =>
    obtain ⟨b, _, _, _, _, hij, _, hrest⟩ := h
    have := ih hrest
    simp only [List.length_cons]
    omega

theorem IsChain.nodup {bs : List ABucket} {i : Nat} {js : List Nat} {recs : List Entry}
    (h : IsChain bs i js recs) : (i :: js).Nodup := by
  induction js generalizing i recs with
  | nil => simp
  | cons j js ih =>
    have hlt := h.lt_of_mem
    obtain ⟨b, _, _, _, _, hij, _, hrest⟩ := h
    rw [List.nodup_cons]
    refine ⟨?_, ih hrest⟩
    intro hmem
    have := hlt i hmem
    omega

theorem IsChain.frame {bs bs' : List ABucket} {i : Nat} {js : List Nat} {recs : List Entry}
    (h : IsChain bs i js recs) (hsame : ∀ x ∈ i :: js, bs'[x]? = bs[x]?) :
    IsChain bs' i js recs := by
  induction js generalizing i recs with
  | nil =>
    obtain ⟨b, hb, h1, h2, h3⟩ := h
    exact ⟨b, by rw [hsame i (by simp)]; exact hb, h1, h2, h3⟩
  | cons j js ih =>
    obtain ⟨b, hb, h1, h2, h3, h4, h5, hrest⟩ := h
    refine ⟨b, by rw [hsame i (by simp)]; exact hb, h1, h2, h3, h4, h5, ?_⟩
    exact ih hrest (fun x hx => hsame x (List.mem_cons_of_mem _ hx))

theorem IsChain.walk {bs : List ABucket} {i : Nat} {js : List Nat} {recs : List Entry}
    (h : IsChain bs i js recs) (fuel : Nat) (hf : js.length < fuel) :
    Abs.walk fuel i bs = some (chainLast i js) := by
  induction js generalizing i recs fuel with
  | nil =>
    obtain ⟨b, hb, _, _, hn⟩ := h
    cases fuel with
    | zero => simp at hf
    | succ fuel => simp [Abs.walk, hb, hn, chainLast]
  | cons j js ih =>
    obtain ⟨b, hb, _, _, hn, _, hj, hrest⟩ := h
    cases fuel with
    | zero => simp at hf
    | succ fuel =>
      simp only [List.length_cons, Nat.add_lt_add_iff_right] at hf
      simp only [Abs.walk, hb, hn, hj, if_false, chainLast]
      exact ih hrest fuel hf

theorem IsChain.findLoop {bs : List ABucket} {i : Nat} {js : List Nat} {recs : List Entry}
    (h : IsChain bs i js recs) (hi : i ≠ HashFile.Bucket.overflow_no_overflow) (key : Int)
    (fuel : Nat) (hf : js.length + 1 < fuel) (ret : List Entry) :
    Abs.findLoop key fuel i ret bs = some (ret ++ recs.filter (fun r => r.key = key)) := by
  induction js generalizing i recs fuel ret with
  | nil =>
    obtain ⟨b, hb, hr, _, hn⟩ := h
    cases fuel with
    | zero => simp at hf
    | succ fuel =>
      cases fuel with
      | zero => simp at hf
      | succ fuel => simp [Abs.findLoop, hb, hn, hi, hr]
  | cons j js ih =>
    obtain ⟨b, hb, hr, _, hn, _, hj, hrest⟩ := h
    cases fuel with
    | zero => simp at hf
    | succ fuel =>
      simp only [List.length_cons, Nat.add_lt_add_iff_right] at hf
      simp only [Abs.findLoop, hb, hn, hi, ne_eq, not_false_eq_true, if_true]
      rw [ih hrest hj fuel hf, hr, List.append_assoc, ← List.filter_append, List.take_append_drop]

theorem IsChain.add_free {bs : List ABucket} {i : Nat} {js : List Nat} {recs : List Entry}
    (h : IsChain bs i js recs) (b : ABucket) (hb : bs[chainLast i js]? = some b)
    (hlen : b.recs.length < 4) (e : Entry) :
    IsChain (bs.set (chainLast i js) { b with recs := b.recs ++ [e] }) i js (recs ++ [e]) := by
  induction js generalizing i recs with
  | nil =>
    obtain ⟨b0, hb0, hr, _, hn⟩ := h
    simp only [chainLast] at hb ⊢
    have hbe : b0 = b := by rw [hb0] at hb; exact Option.some.inj hb
    subst hbe
    have hlt : i < bs.length := by
      rcases List.getElem?_eq_some.mp hb0 with ⟨hj, _⟩
      exact hj
    refine ⟨{ b0 with recs := b0.recs ++ [e] }, List.getElem?_set_self hlt, ?_, ?_, hn⟩
    · simp [hr]
    · rw [← hr]; simp; omega
  | cons j js ih =>
    have hlt := h.lt_of_mem
    obtain ⟨b0, hb0, hr, hl0, hn, hij, hj, hrest⟩ := h
    simp only [chainLast] at hb ⊢
    have hne : chainLast j js ≠ i := by
      have := hlt _ (chainLast_mem j js)
      omega
    have hrl : 4 ≤ recs.length := by
      rw [hr, List.length_take] at hl0
      omega
    refine ⟨b0, by rw [List.getElem?_set_ne hne]; exact hb0, ?_, hl0, hn, hij, hj, ?_⟩
    · rw [hr, List.take_append_of_le_length hrl]
    · rw [List.drop_append_of_le_length hrl]
      exact ih hrest hb

theorem IsChain.add_full {bs : List ABucket} {i : Nat} {js : List Nat} {recs : List Entry}
    (h : IsChain bs i js recs) (b : ABucket) (hb : bs[chainLast i js]? = some b)
    (hlen : ¬ b.recs.length < 4) (e : Entry)
    (hN : bs.length ≠ HashFile.Bucket.overflow_no_overflow) :
    IsChain (bs.set (chainLast i js) { b with next := bs.length } ++
        [{ recs := [e], next := HashFile.Bucket.overflow_no_overflow }])
      i (js ++ [bs.length]) (recs ++ [e]) := by
  induction js generalizing i recs with
  | nil =>
    obtain ⟨b0, hb0, hr, hl4, hn⟩ := h
    simp only [chainLast] at hb ⊢
    have hbe : b0 = b := by rw [hb0] at hb; exact Option.some.inj hb
    subst hbe
    have hlt : i < bs.length := by
      rcases List.getElem?_eq_some.mp hb0 with ⟨hj, _⟩
      exact hj
    have hl : recs.length = 4 := by rw [← hr]; rw [← hr] at hl4; omega
    have hset : (bs.set i { b0 with next := bs.length }).length = bs.length := by simp
    refine ⟨{ b0 with next := bs.length }, ?_, ?_, ?_, rfl, hlt, hN, ?_⟩
    · rw [List.getElem?_append_left (by rw [hset]; exact hlt), List.getElem?_set_self hlt]
    · simp only [hr]
      rw [List.take_append_of_le_length (Nat.le_of_eq hl.symm), List.take_of_length_le
        (Nat.le_of_eq hl)]
    · simp only [hr, hl]
    · refine ⟨{ recs := [e], next := HashFile.Bucket.overflow_no_overflow }, ?_, ?_, ?_, rfl⟩
      · have := List.getElem?_concat_length (bs.set i { b0 with next := bs.length })
          { recs := [e], next := HashFile.Bucket.overflow_no_overflow }
        rw [hset] at this
        exact this
      · rw [List.drop_append_of_le_length (Nat.le_of_eq hl.symm),
          List.drop_eq_nil_of_le (Nat.le_of_eq hl)]
        rfl
      · rw [List.drop_append_of_le_length (Nat.le_of_eq hl.symm),
          List.drop_eq_nil_of_le (Nat.le_of_eq hl)]
        simp
  | cons j js ih =>
    have hlt := h.lt_of_mem
    have hlen' := h.mem_lt_length
    obtain ⟨b0, hb0, hr, hl0, hn, hij, hj, hrest⟩ := h
    simp only [chainLast, List.cons_append] at hb ⊢
    have hne : chainLast j js ≠ i := by
      have := hlt _ (chainLast_mem j js)
      omega
    have hrl : 4 ≤ recs.length := by
      rw [hr, List.length_take] at hl0
      omega
    have hiN : i < bs.length := hlen' i (by simp)
    refine ⟨b0, ?_, ?_, hl0, hn, hij, hj, ?_⟩
    · rw [List.getElem?_append_left (by simpa using hiN), List.getElem?_set_ne hne]
      exact hb0
    · rw [hr, List.take_append_of_le_length hrl]
    · rw [List.drop_append_of_le_length hrl]
      exact ih hrest hb

theorem homeRecs_append_self (hashInt : Int → Nat) (rs : List Entry) (e : Entry) :
    homeRecs hashInt (rs ++ [e]) (HashFile.add_hash_pos hashInt e) =
      homeRecs hashInt rs (HashFile.add_hash_pos hashInt e) ++ [e] := by
  simp [homeRecs, List.filter_append, List.filter_cons]

theorem homeRecs_append_other (hashInt : Int → Nat) (rs : List Entry) (e : Entry) (h : Nat)
    (hne : h ≠ HashFile.add_hash_pos hashInt e) :
    homeRecs hashInt (rs ++ [e]) h = homeRecs hashInt rs h := by
  simp [homeRecs, List.filter_append, List.filter_cons, Ne.symm hne]

theorem Inv_init (hashInt : Int → Nat) : Inv hashInt Abs.init [] := by
  refine ⟨fun _ => [], ?_, ?_, ?_⟩
  · intro h hh
    refine ⟨{ recs := [], next := HashFile.Bucket.overflow_no_overflow }, ?_, rfl,
      by simp [homeRecs], rfl⟩
    simp only [Abs.init]
    rw [List.getElem?_replicate_of_lt hh]
  · intro h h' _ _ hne x hx hx'
    simp only [List.mem_singleton] at hx hx'
    omega
  · intro x hx
    exact ⟨x, by simpa [Abs.init] using hx, by simp⟩

/-- One `add` on the bucket array keeps the chain structure and appends the
record to the chain of its home bucket. -/
theorem Inv_add (hashInt : Int → Nat) (bs : List ABucket) (rs : List Entry)
    (hinv : Inv hashInt bs rs) (e : Entry) (fuel : Nat) (hf : bs.length ≤ fuel)
    (hN : bs.length ≠ HashFile.Bucket.overflow_no_overflow) :
    ∃ bs', Abs.add hashInt fuel e bs = some bs' ∧ Inv hashInt bs' (rs ++ [e]) ∧
      bs.length ≤ bs'.length ∧ bs'.length ≤ bs.length + 1 := by
  obtain ⟨ch, hch, hdisj, hcov⟩ := hinv
  have hh := HashFile.add_hash_pos_lt hashInt e
  generalize hhe : HashFile.add_hash_pos hashInt e = h at hh
  have hc := hch h hh
  have hwalk := hc.walk fuel (by have := hc.add_length_lt; omega)
  have htmem := chainLast_mem h (ch h)
  have htlt := hc.mem_lt_length _ htmem
  obtain ⟨b, hb⟩ : ∃ b, bs[chainLast h (ch h)]? = some b :=
    ⟨_, List.getElem?_eq_getElem htlt⟩
  unfold Abs.add
  simp only [hhe, hwalk, hb]
  by_cases hlen : b.recs.length < 4
  · simp only [hlen, if_true]
    refine ⟨_, rfl, ⟨ch, ?_, hdisj, ?_⟩, by simp, by simp⟩
    · intro h' hh'
      by_cases heq : h' = h
      · subst heq
        rw [← hhe, homeRecs_append_self, hhe]
        exact hc.add_free b hb hlen e
      · rw [homeRecs_append_other _ _ _ _ (by rw [hhe]; exact heq)]
        apply (hch h' hh').frame
        intro x hx
        apply List.getElem?_set_ne
        intro hxe
        exact hdisj h h' hh hh' (Ne.symm heq) _ htmem (hxe ▸ hx)
    · intro x hx
      rw [List.length_set] at hx
      exact hcov x hx
  · simp only [hlen, if_false]
    have hset : (bs.set (chainLast h (ch h)) { b with next := bs.length }).length = bs.length := by
      simp
    refine ⟨_, rfl, ⟨fun x => if x = h then ch h ++ [bs.length] else ch x, ?_, ?_, ?_⟩,
      by simp, by simp⟩
    · intro h' hh'
      by_cases heq : h' = h
      · subst heq
        simp only [if_true]
        rw [← hhe, homeRecs_append_self, hhe]
        exact hc.add_full b hb hlen e hN
      · simp only [heq, if_false]
        rw [homeRecs_append_other _ _ _ _ (by rw [hhe]; exact heq)]
        apply (hch h' hh').frame
        intro x hx
        have hxlt := (hch h' hh').mem_lt_length x hx
        rw [List.getElem?_append_left (by rw [hset]; exact hxlt)]
        apply List.getElem?_set_ne
        intro hxe
        exact hdisj h h' hh hh' (Ne.symm heq) _ htmem (hxe ▸ hx)
    · intro h1 h2 hh1 hh2 hne x hx1 hx2
      by_cases e1 : h1 = h
      · subst e1
        have e2 : ¬ h2 = h1 := fun e => hne e.symm
        simp only [if_true] at hx1
        simp only [e2, if_false] at hx2
        have hx2lt := (hch h2 hh2).mem_lt_length x hx2
        rw [← List.cons_append, List.mem_append, List.mem_singleton] at hx1
        rcases hx1 with hx1 | hx1
        · exact hdisj h1 h2 hh1 hh2 hne x hx1 hx2
        · omega
      · simp only [e1, if_false] at hx1
        have hx1lt := (hch h1 hh1).mem_lt_length x hx1
        by_cases e2 : h2 = h
        · subst e2
          simp only [if_true] at hx2
          rw [← List.cons_append, List.mem_append, List.mem_singleton] at hx2
          rcases hx2 with hx2 | hx2
          · exact hdisj h1 h2 hh1 hh2 hne x hx1 hx2
          · omega
        · simp only [e2, if_false] at hx2
          exact hdisj h1 h2 hh1 hh2 hne x hx1 hx2
    · intro x hx
      simp only [List.length_append, hset, List.length_singleton] at hx
      by_cases hxN : x < bs.length
      · obtain ⟨h', hh', hx'⟩ := hcov x hxN
        refine ⟨h', hh', ?_⟩
        by_cases heq : h' = h
        · subst heq
          simp only [if_true]
          rw [← List.cons_append]
          exact List.mem_append_left _ hx'
        · simp only [heq, if_false]
          exact hx'
      · have : x = bs.length := by omega
        subst this
        refine ⟨h, hh, ?_⟩
        simp

/-! ## Files reachable from the constructor by `add` -/

theorem Abs.add_length (hashInt : Int → Nat) (fuel : Nat) (e : Entry) (bs bs' : List ABucket)
    (h : Abs.add hashInt fuel e bs = some bs') :
    bs.length ≤ bs'.length ∧ bs'.length ≤ bs.length + 1 := by
  unfold Abs.add at h
  split at h
  · cases h
  · split at h
    · cases h
    · split at h <;> cases h <;> simp

theorem Abs.addAll_inv (hashInt : Int → Nat) (fuel : Nat) :
    ∀ (rest : List Entry) (bs : List ABucket) (done : List Entry), Inv hashInt bs done →
      bs.length + rest.length ≤ fuel →
      bs.length + rest.length ≤ HashFile.Bucket.overflow_no_overflow →
      ∃ bs', Abs.addAll hashInt fuel rest bs = some bs' ∧ Inv hashInt bs' (done ++ rest) ∧
        bs.length ≤ bs'.length ∧ bs'.length ≤ bs.length + rest.length := by
  intro rest
  induction rest with
  | nil =>
    intro bs done hinv _ _
    exact ⟨bs, rfl, by simpa using hinv, by simp, by simp⟩
  | cons e es ih =>
    intro bs done hinv hf hN
    simp only [List.length_cons] at hf hN
    obtain ⟨bs1, hadd, hinv1, hl1, hl2⟩ :=
      Inv_add hashInt bs done hinv e fuel (by omega) (by omega)
    obtain ⟨bs', hall, hinv', hl3, hl4⟩ := ih bs1 (done ++ [e]) hinv1 (by omega) (by omega)
    refine ⟨bs', ?_, ?_, by omega, by simp only [List.length_cons]; omega⟩
    · simp only [Abs.addAll, hadd, hall]
    · simpa using hinv'

namespace HashFile

theorem addAll_sim (hashInt : Int → Nat) (fuel : Nat) :
    ∀ (rest : List Entry) (d : List Nat) (bs : List ABucket) (p : Nat), Rep d bs →
      (∀ r ∈ rest, r.WF) → (bs.length + rest.length) * 228 < 2 ^ 64 →
      ∀ bs', Abs.addAll hashInt fuel rest bs = some bs' →
      ∃ f', addAll hashInt fuel rest { data := d, pos := p } = some f' ∧ Rep f'.data bs' := by
  intro rest
  induction rest with
  | nil =>
    intro d bs p hrep _ _ bs' h
    simp only [Abs.addAll, Option.some.injEq] at h
    subst h
    exact ⟨_, rfl, hrep⟩
  | cons e es ih =>
    intro d bs p hrep hwf hsz bs' h
    simp only [List.length_cons] at hsz
    unfold Abs.addAll at h
    cases hadd : Abs.add hashInt fuel e bs with
    | none => simp [hadd] at h
    | some bs1 =>
      simp only [hadd] at h
      obtain ⟨f1, hf1, hrep1⟩ := add_sim hashInt d bs hrep (by omega) e
        (hwf e (by simp)) fuel p bs1 hadd
      have hlen := Abs.add_length hashInt fuel e bs bs1 hadd
      obtain ⟨f', hf', hrep'⟩ := ih f1.data bs1 f1.pos hrep1
        (fun r hr => hwf r (List.mem_cons_of_mem _ hr))
        (by
          have : (bs1.length + es.length) * 228 ≤ (bs.length + (es.length + 1)) * 228 :=
            Nat.mul_le_mul_right _ (by omega)
          omega) bs' h
      refine ⟨f', ?_, hrep'⟩
      simp only [addAll, hf1]
      exact hf'

/-- Every file produced by the constructor on an empty file followed by `add`
calls is a bucket array made of five disjoint chains holding the records
added, each in the chain of its home bucket and in insertion order. -/
theorem reach (hashInt : Int → Nat) (rs : List Entry) (hwf : ∀ r ∈ rs, r.WF)
    (hsz : (n_buckets + rs.length) * Bucket.bucket_size < 2 ^ 64) (fuel : Nat)
    (hfuel : n_buckets + rs.length ≤ fuel) :
    ∃ f bs, addAll hashInt fuel rs (HashFile.new []) = some f ∧ Rep f.data bs ∧
      Inv hashInt bs rs ∧ 5 ≤ bs.length ∧ bs.length ≤ 5 + rs.length := by
  have hn : n_buckets = 5 := rfl
  rw [hn, bucket_size_eq] at hsz
  rw [hn] at hfuel
  have hil : Abs.init.length = 5 := rfl
  obtain ⟨bs, hall, hinv, hl1, hl2⟩ := Abs.addAll_inv hashInt fuel rs Abs.init []
    (Inv_init hashInt) (by rw [hil]; exact hfuel)
    (by rw [hil, overflow_no_overflow_eq]; omega)
  rw [hil] at hl1 hl2
  obtain ⟨f, hf, hrep⟩ := addAll_sim hashInt fuel rs (HashFile.new []).data Abs.init
    (HashFile.new []).pos new_nil_rep hwf (by rw [hil]; exact hsz) bs hall
  exact ⟨f, bs, hf, hrep, by simpa using hinv, hl1, hl2⟩

theorem filter_key_homeRecs (hashInt : Int → Nat) (rs : List Entry) (k : Int) :
    (homeRecs hashInt rs (find_index hashInt k)).filter (fun r => r.key = k) =
      rs.filter (fun r => r.key = k) := by
  unfold homeRecs
  rw [List.filter_filter]
  apply List.filter_congr
  intro r _
  by_cases h : r.key = k
  · simp [h, add_hash_pos, hashEntry, find_index]
  · simp [h]

/-- After the adds `rs`, `find k` returns the records of `rs` with key `k`. -/
theorem find_reach (hashInt : Int → Nat) (rs : List Entry) (f : FStream) (bs : List ABucket)
    (hrep : Rep f.data bs) (hinv : Inv hashInt bs rs) (hsz : bs.length * 228 < 2 ^ 64)
    (fuel : Nat) (hfuel : bs.length < fuel) (k : Int) :
    ∃ p', find hashInt fuel k f =
      some (rs.filter (fun r => r.key = k), { data := f.data, pos := p' }) := by
  obtain ⟨ch, hch, _, _⟩ := hinv
  have hh : find_index hashInt k < 5 := Nat.mod_lt _ (by decide)
  have hc := hch _ hh
  have hlen := hc.add_length_lt
  have habs : Abs.find hashInt fuel k bs = some (rs.filter (fun r => r.key = k)) := by
    unfold Abs.find
    rw [hc.findLoop (by rw [overflow_no_overflow_eq]; omega) k fuel (by omega) [],
      filter_key_homeRecs]
    rfl
  exact find_sim hashInt k f.data bs hrep hsz fuel f.pos _ habs

end HashFile

/-! ## Reading a represented bucket through `BucketView` -/

theorem Rep.read_next {d : List Nat} {bs : List ABucket} (hrep : Rep d bs) {i : Nat}
    {b : ABucket} (hb : bs[i]? = some b) (p : Nat) :
    HashFile.BucketView.read_overflow_pointer { bucket_offset := i * HashFile.Bucket.bucket_size }
      { data := d, pos := p } = some (b.next, { data := d, pos := i * 228 + 228 }) := by
  have hin := hrep.bucket_in_file hb
  rw [HashFile.BucketView.read_overflow_pointer_eq, HashFile.bucket_size_eq]
  simp only [hin, if_true, (hrep.2 i b hb).2.2.2]

theorem Rep.read_mask {d : List Nat} {bs : List ABucket} (hrep : Rep d bs) {i : Nat}
    {b : ABucket} (hb : bs[i]? = some b) (p : Nat) :
    HashFile.BucketView.read_entries_mask { bucket_offset := i * HashFile.Bucket.bucket_size }
      { data := d, pos := p } =
      some ([decide (0 < b.recs.length), decide (1 < b.recs.length), decide (2 < b.recs.length),
        decide (3 < b.recs.length)], { data := d, pos := i * 228 + 4 }) := by
  have hin := hrep.bucket_in_file hb
  have hin4 : i * 228 + 4 ≤ d.length := by omega
  obtain ⟨_, hm, _, _⟩ := hrep.2 i b hb
  rw [HashFile.BucketView.read_entries_mask_eq, HashFile.bucket_size_eq]
  simp only [hin4, if_true, hm 0 (by omega), hm 1 (by omega), hm 2 (by omega), hm 3 (by omega)]

theorem Rep.read_slot {d : List Nat} {bs : List ABucket} (hrep : Rep d bs) {i : Nat}
    {b : ABucket} (hb : bs[i]? = some b) {j : Nat} {r : Entry} (hr : b.recs[j]? = some r)
    (p : Nat) :
    HashFile.BucketView.read_entry { bucket_offset := i * HashFile.Bucket.bucket_size } j
      { data := d, pos := p } = some (r, { data := d, pos := i * 228 + 4 + j * 54 + 54 }) := by
  have hin := hrep.bucket_in_file hb
  obtain ⟨hl, _, hent, _⟩ := hrep.2 i b hb
  have hj : j < b.recs.length := by
    rcases List.getElem?_eq_some.mp hr with ⟨hj, _⟩
    exact hj
  have hin4 : i * 228 + 4 + j * 54 + 54 ≤ d.length := by omega
  rw [HashFile.BucketView.read_entry_eq, HashFile.bucket_size_eq]
  simp only [hin4, if_true, hent j r hr]

/-- Following overflow pointers in the file visits the buckets of the chain. -/
theorem IsChain.trace_eq {bs : List ABucket} {i : Nat} {js : List Nat} {recs : List Entry}
    (h : IsChain bs i js recs) (d : List Nat) (hrep : Rep d bs)
    (hsz : bs.length * 228 < 2 ^ 64) (fuel : Nat) (hf : js.length < fuel) (p : Nat) :
    chainTrace fuel i { data := d, pos := p } = some (i :: js) := by
  induction js generalizing i recs fuel p with
  | nil =>
    obtain ⟨b, hb, _, _, hn⟩ := h
    have hin := hrep.bucket_in_file hb
    have hmod : (i * HashFile.Bucket.bucket_size) % 2 ^ 64 = i * HashFile.Bucket.bucket_size := by
      apply Nat.mod_eq_of_lt
      have := hrep.1
      rw [HashFile.bucket_size_eq]
      omega
    cases fuel with
    | zero => simp at hf
    | succ fuel =>
      unfold chainTrace
      simp only [hmod, hrep.read_next hb, hn, if_true]
  | cons j js ih =>
    obtain ⟨b, hb, _, _, hn, _, hj, hrest⟩ := h
    have hin := hrep.bucket_in_file hb
    have hmod : (i * HashFile.Bucket.bucket_size) % 2 ^ 64 = i * HashFile.Bucket.bucket_size := by
      apply Nat.mod_eq_of_lt
      have := hrep.1
      rw [HashFile.bucket_size_eq]
      omega
    cases fuel with
    | zero => simp at hf
    | succ fuel =>
      simp only [List.length_cons, Nat.add_lt_add_iff_right] at hf
      unfold chainTrace
      simp only [hmod, hrep.read_next hb, hn, hj, if_false]
      rw [ih hrest fuel hf]
      rfl

/-! ## More fuel does not change a result -/

theorem Abs.walk_mono (bs : List ABucket) :
    ∀ (fuel i t : Nat), Abs.walk fuel i bs = some t → ∀ fuel', fuel ≤ fuel' →
      Abs.walk fuel' i bs = some t := by
  intro fuel
  induction fuel with
  | zero => intro i t h; simp [Abs.walk] at h
  | succ fuel ih =>
    intro i t h fuel' hf
    cases fuel' with
    | zero => omega
    | succ fuel' =>
      unfold Abs.walk at h ⊢
      cases hb : bs[i]? with
      | none => simp [hb] at h
      | some b =>
        simp only [hb] at h ⊢
        by_cases hn : b.next = HashFile.Bucket.overflow_no_overflow
        · simp only [hn, if_true] at h ⊢
          exact h
        · simp only [hn, if_false] at h ⊢
          exact ih _ _ h fuel' (by omega)

theorem Abs.add_mono (hashInt : Int → Nat) (e : Entry) (bs bs' : List ABucket) (fuel : Nat)
    (h : Abs.add hashInt fuel e bs = some bs') (fuel' : Nat) (hf : fuel ≤ fuel') :
    Abs.add hashInt fuel' e bs = some bs' := by
  unfold Abs.add at h ⊢
  cases hw : Abs.walk fuel (HashFile.add_hash_pos hashInt e) bs with
  | none => simp [hw] at h
  | some t =>
    rw [Abs.walk_mono bs fuel _ t hw fuel' hf]
    simpa only [hw] using h

theorem Abs.addAll_mono (hashInt : Int → Nat) (fuel fuel' : Nat) (hf : fuel ≤ fuel') :
    ∀ (es : List Entry) (bs bs' : List ABucket), Abs.addAll hashInt fuel es bs = some bs' →
      Abs.addAll hashInt fuel' es bs = some bs' := by
  intro es
  induction es with
  | nil => intro bs bs' h; exact h
  | cons e es ih =>
    intro bs bs' h
    unfold Abs.addAll at h ⊢
    cases ha : Abs.add hashInt fuel e bs with
    | none => simp [ha] at h
    | some bs1 =>
      rw [Abs.add_mono hashInt e bs bs1 fuel ha fuel' hf]
      simp only [ha] at h
      exact ih bs1 bs' h

theorem Abs.findLoop_mono (key : Int) (bs : List ABucket) :
    ∀ (fuel i : Nat) (ret r : List Entry), Abs.findLoop key fuel i ret bs = some r →
      ∀ fuel', fuel ≤ fuel' → Abs.findLoop key fuel' i ret bs = some r := by
  intro fuel
  induction fuel with
  | zero => intro i ret r h; simp [Abs.findLoop] at h
  | succ fuel ih =>
    intro i ret r h fuel' hf
    cases fuel' with
    | zero => omega
    | succ fuel' =>
      unfold Abs.findLoop at h ⊢
      by_cases hi : i = HashFile.Bucket.overflow_no_overflow
      · simp only [hi, ne_eq, not_true_eq_false, if_false] at h ⊢
        exact h
      · simp only [hi, ne_eq, not_false_eq_true, if_true] at h ⊢
        cases hb : bs[i]? with
        | none => simp [hb] at h
        | some b =>
          simp only [hb] at h ⊢
          exact ih _ _ _ h fuel' (by omega)

/-! ## `find` does not depend on the stream position and does not write -/

namespace HashFile

theorem findScan_data (key : Int) (bv : BucketView) :
    ∀ (ms : List Bool) (i : Nat) (ret : List Entry) (s : FStream) (r : List Entry) (s' : FStream),
      findScan key bv ms i ret s = some (r, s') → s'.data = s.data := by
  intro ms
  induction ms with
  | nil =>
    intro i ret s r s' h
    simp only [findScan, Option.some.injEq, Prod.mk.injEq] at h
    rw [← h.2]
  | cons m ms ih =>
    intro i ret s r s' h
    unfold findScan at h
    cases m with
    | false =>
      simp only [Bool.false_eq_true, if_false] at h
      exact ih _ _ _ _ _ h
    | true =>
      simp only [if_true, BucketView.read_entry_eq] at h
      by_cases hin : bv.bucket_offset + 4 + i * 54 + 54 ≤ s.data.length
      · simp only [hin, if_true] at h
        split at h
        · have h2 := ih _ _ _ _ _ h
          exact h2
        · have h2 := ih _ _ _ _ _ h
          exact h2
      · simp [hin] at h

theorem findLoop_data (key : Int) :
    ∀ (fuel index : Nat) (ret : List Entry) (s : FStream) (r : List Entry) (s' : FStream),
      findLoop key fuel index ret s = some (r, s') → s'.data = s.data := by
  intro fuel
  induction fuel with
  | zero => intro index ret s r s' h; simp [findLoop] at h
  | succ fuel ih =>
    intro index ret s r s' h
    unfold findLoop at h
    generalize index * Bucket.bucket_size % 2 ^ 64 = off at h
    by_cases hi : index = Bucket.overflow_no_overflow
    · simp only [hi, ne_eq, not_true_eq_false, if_false, Option.some.injEq, Prod.mk.injEq] at h
      rw [← h.2]
    · simp only [hi, ne_eq, not_false_eq_true, if_true, BucketView.read_entries_mask_eq] at h
      by_cases hin4 : off + 4 ≤ s.data.length
      · simp only [hin4, if_true] at h
        generalize [maskAt s.data off 0, maskAt s.data off 1, maskAt s.data off 2,
          maskAt s.data off 3] = ms at h
        cases hscan : findScan key { bucket_offset := off } ms 0 ret
            { data := s.data, pos := off + 4 } with
        | none => simp [hscan] at h
        | some x =>
          obtain ⟨ret2, s2⟩ := x
          have h2 := findScan_data key _ _ _ _ _ _ _ hscan
          simp only [hscan, BucketView.read_overflow_pointer_eq] at h
          by_cases hin : off + 228 ≤ s2.data.length
          · simp only [hin, if_true] at h
            have h3 := ih _ _ _ _ _ h
            simp only at h3 h2
            rw [h3, h2]
          · simp [hin] at h
      · simp [hin4] at h

/-- The result of the loop of `find` is the same from every stream position. -/
theorem findLoop_pos (key : Int) (fuel index : Nat) (ret : List Entry) (d : List Nat)
    (p1 p2 : Nat) (hi : index ≠ Bucket.overflow_no_overflow) :
    findLoop key fuel index ret { data := d, pos := p1 } =
      findLoop key fuel index ret { data := d, pos := p2 } := by
  cases fuel with
  | zero => rfl
  | succ fuel =>
    unfold findLoop
    simp only [hi, ne_eq, not_false_eq_true, if_true, BucketView.read_entries_mask_eq]

theorem find_index_ne (hashInt : Int → Nat) (k : Int) :
    find_index hashInt k ≠ Bucket.overflow_no_overflow := by
  have : find_index hashInt k < 5 := Nat.mod_lt _ (by decide)
  rw [overflow_no_overflow_eq]
  omega

theorem find_pos (hashInt : Int → Nat) (fuel : Nat) (k : Int) (d : List Nat) (p1 p2 : Nat) :
    find hashInt fuel k { data := d, pos := p1 } = find hashInt fuel k { data := d, pos := p2 } :=
  findLoop_pos k fuel _ [] d p1 p2 (find_index_ne hashInt k)

end HashFile

namespace HashFile

theorem BucketView.read_entries_eq (bv : BucketView) (s : FStream) :
    bv.read_entries s =
      if bv.bucket_offset + 220 ≤ s.data.length then
        some ([entryAt s.data bv.bucket_offset 0, entryAt s.data bv.bucket_offset 1,
               entryAt s.data bv.bucket_offset 2, entryAt s.data bv.bucket_offset 3],
              { data := s.data, pos := bv.bucket_offset + 220 })
      else none := by
  unfold BucketView.read_entries BucketView.to_offset FStream.seekBeg FStream.seekCur
  simp only [Bucket.fb, BucketView.readEntriesLoop, Entry.deserialize_eq, entryAt, Nat.mul_one]
  by_cases h : bv.bucket_offset + 220 ≤ s.data.length
  · have h1 : bv.bucket_offset + 4 + 54 ≤ s.data.length := by omega
    have h2 : bv.bucket_offset + 4 + 54 + 54 ≤ s.data.length := by omega
    have h3 : bv.bucket_offset + 4 + 54 + 54 + 54 ≤ s.data.length := by omega
    have h4 : bv.bucket_offset + 4 + 54 + 54 + 54 + 54 ≤ s.data.length := by omega
    simp only [h, h1, h2, h3, h4, if_true, Nat.add_assoc, Nat.reduceAdd, Nat.reduceMul,
      Nat.zero_mul, Nat.add_zero, Nat.one_mul]
  · have h4 : ¬ (bv.bucket_offset + 4 + 54 + 54 + 54 + 54 ≤ s.data.length) := by omega
    by_cases h1 : bv.bucket_offset + 4 + 54 ≤ s.data.length <;>
      by_cases h2 : bv.bucket_offset + 4 + 54 + 54 ≤ s.data.length <;>
      by_cases h3 : bv.bucket_offset + 4 + 54 + 54 + 54 ≤ s.data.length <;>
      simp [h, h1, h2, h3, h4]

end HashFile

theorem Rep.read_slots {d : List Nat} {bs : List ABucket} (hrep : Rep d bs) {i : Nat}
    {b : ABucket} (hb : bs[i]? = some b) (r1 r2 r3 r4 : Entry) (hr : b.recs = [r1, r2, r3, r4])
    (p : Nat) :
    HashFile.BucketView.read_entries { bucket_offset := i * HashFile.Bucket.bucket_size }
      { data := d, pos := p } = some ([r1, r2, r3, r4], { data := d, pos := i * 228 + 220 }) := by
  have hin := hrep.bucket_in_file hb
  obtain ⟨hl, _, hent, _⟩ := hrep.2 i b hb
  have hin4 : i * 228 + 220 ≤ d.length := by omega
  rw [HashFile.BucketView.read_entries_eq, HashFile.bucket_size_eq]
  simp only [hin4, if_true, hent 0 r1 (by rw [hr]; rfl), hent 1 r2 (by rw [hr]; rfl),
    hent 2 r3 (by rw [hr]; rfl), hent 3 r4 (by rw [hr]; rfl)]

/-! ## The bytes that one `add` writes -/

theorem slice_writeAt_pre (d : List Nat) (off : Nat) (bs : List Nat) (off2 n : Nat)
    (h : off2 + n ≤ off) (hd : off2 + n ≤ d.length) :
    slice (writeAt d off bs) off2 n = slice d off2 n := by
  have hA := writeAt_pre_length d off
  unfold writeAt
  rw [List.append_assoc, slice_append_left _ _ _ _ (by rw [hA]; exact h)]
  have h1 : slice (List.take off (d ++ List.replicate (off - d.length) 0)) off2 n
      = slice (d ++ List.replicate (off - d.length) 0) off2 n := by
    unfold slice
    rw [List.drop_take, List.take_take]
    congr 1
    omega
  rw [h1, slice_append_left _ _ _ _ hd]

/-- Bytes of the file outside the range of a positioned write keep their value. -/
theorem slice_writeAt_outside (d : List Nat) (off : Nat) (bs : List Nat) (off2 n : Nat)
    (h : (off2 + n ≤ off ∧ off2 + n ≤ d.length) ∨ off + bs.length ≤ off2) :
    slice (writeAt d off bs) off2 n = slice d off2 n := by
  rcases h with ⟨h1, h2⟩ | h
  · exact slice_writeAt_pre d off bs off2 n h1 h2
  · exact slice_writeAt_after d off bs off2 n h

theorem Abs.walk_tail (bs : List ABucket) :
    ∀ (fuel i t : Nat), Abs.walk fuel i bs = some t →
      ∃ b, bs[t]? = some b ∧ b.next = HashFile.Bucket.overflow_no_overflow := by
  intro fuel
  induction fuel with
  | zero => intro i t h; simp [Abs.walk] at h
  | succ fuel ih =>
    intro i t h
    unfold Abs.walk at h
    cases hb : bs[i]? with
    | none => simp [hb] at h
    | some b =>
      simp only [hb] at h
      by_cases hn : b.next = HashFile.Bucket.overflow_no_overflow
      · simp only [hn, if_true, Option.some.injEq] at h
        subst h
        exact ⟨b, hb, hn⟩
      · simp only [hn, if_false] at h
        exact ih _ _ h

namespace HashFile

/-- What `add` does on a file that consists of the buckets `bs`: the walk stops
at the bucket `t` reached on the bucket array, and the new contents are the
old ones with the flag and record of the first free slot of `t` written, or,
when `t` is full, with the pointer of `t` written, a default bucket appended
and its first slot filled. -/
theorem add_run (hashInt : Int → Nat) (d : List Nat) (bs : List ABucket) (hrep : Rep d bs)
    (hsz : bs.length * 228 < 2 ^ 64) (e : Entry) (fuel p t : Nat)
    (hw : Abs.walk fuel (add_hash_pos hashInt e) bs = some t) (b : ABucket)
    (hb : bs[t]? = some b) :
    addWalk fuel { bucket_offset := add_hash_pos hashInt e * Bucket.bucket_size }
        { data := d, pos := p } =
      some ({ bucket_offset := t * 228 }, { data := d, pos := t * 228 + 228 }) ∧
    (b.recs.length < 4 →
      add hashInt fuel e { data := d, pos := p } =
        some { data := writeAt (writeAt d (t * 228 + b.recs.length) [boolByte true])
                 (t * 228 + 4 + b.recs.length * 54) e.bytes,
               pos := t * 228 + 4 + b.recs.length * 54 + e.bytes.length }) ∧
    (¬ b.recs.length < 4 →
      add hashInt fuel e { data := d, pos := p } =
        some { data := writeAt (writeAt (writeAt d (t * 228 + 220) (sizeBytes bs.length) ++
                 defaultBucketBytes) d.length [boolByte true]) (d.length + 4) e.bytes,
               pos := d.length + 4 + e.bytes.length }) := by
  obtain ⟨hwalk, _, _, _⟩ := addWalk_sim d bs hrep hsz fuel _ t p hw
  have hhp : add_hash_pos hashInt e * Bucket.bucket_size % 2 ^ 64
      = add_hash_pos hashInt e * Bucket.bucket_size := by
    apply Nat.mod_eq_of_lt
    have := add_hash_pos_lt hashInt e
    rw [bucket_size_eq]
    omega
  rw [hhp] at hwalk
  have hin := hrep.bucket_in_file hb
  obtain ⟨hl, hm, hent, hn⟩ := hrep.2 t b hb
  have hin4 : t * 228 + 4 ≤ d.length := by omega
  refine ⟨hwalk, ?_, ?_⟩
  · intro hlen
    unfold add
    simp only [hwalk, BucketView.read_entries_mask_eq, hin4, if_true]
    rw [hm 0 (by omega), hm 1 (by omega), hm 2 (by omega), hm 3 (by omega), findFalse_mask]
    simp only [hlen, if_true, BucketView.set_entry_mask_eq, BucketView.set_entry_eq]
  · intro hlen
    unfold add
    simp only [hwalk, BucketView.read_entries_mask_eq, hin4, if_true]
    rw [hm 0 (by omega), hm 1 (by omega), hm 2 (by omega), hm 3 (by omega), findFalse_mask]
    simp only [hlen, if_false, BucketView.set_entry_mask_eq, BucketView.set_entry_eq,
      BucketView.set_overflow_pointer_eq, FStream.seekEnd, FStream.tell]
    have hl1 : (writeAt d (t * 228 + 220) (sizeBytes (d.length / Bucket.bucket_size))).length
        = d.length := by
      rw [writeAt_length, sizeBytes_length]; omega
    rw [← hl1, Bucket.default_serialize_at_end, hl1]
    have hdiv : d.length / Bucket.bucket_size = bs.length := by
      rw [hrep.1, bucket_size_eq]
      exact Nat.mul_div_cancel _ (by decide)
    rw [hdiv]
    simp only [Nat.add_zero, Nat.zero_mul]

/-- A file reached from the constructor by the adds `rs` is a bucket array made
of five disjoint chains. -/
theorem reach_of (hashInt : Int → Nat) (rs : List Entry) (hwf : ∀ r ∈ rs, r.WF)
    (hsz : (n_buckets + rs.length) * Bucket.bucket_size < 2 ^ 64) (fuel : Nat)
    (hfuel : n_buckets + rs.length ≤ fuel) (f : FStream)
    (hf : addAll hashInt fuel rs (HashFile.new []) = some f) :
    ∃ bs, Rep f.data bs ∧ Inv hashInt bs rs ∧ 5 ≤ bs.length ∧ bs.length ≤ 5 + rs.length := by
  obtain ⟨f0, bs, hf0, hrep, hinv, h1, h2⟩ := reach hashInt rs hwf hsz fuel hfuel
  rw [hf0] at hf
  cases hf
  exact ⟨bs, hrep, hinv, h1, h2⟩

end HashFile

/-! ## `Bucket` codec -/

theorem slice_mid (a x c : List Nat) : slice (a ++ x ++ c) a.length x.length = x := by
  have h := slice_append_right a (x ++ c) 0 x.length
  rw [Nat.add_zero] at h
  rw [List.append_assoc, h, slice_append_left _ _ _ _ (by omega), slice_full]

namespace HashFile

theorem list_length_four {α : Type} (l : List α) (h : l.length = 4) :
    ∃ a b c d, l = [a, b, c, d] := by
  match l, h with
  | [a, b, c, d], _ => exact ⟨a, b, c, d, rfl⟩

theorem Bucket.serialize_write (b : Bucket) (hb : b.WF) (s : FStream) :
    b.serialize s = s.write b.bytes := by
  obtain ⟨hm, ⟨he, _⟩, _⟩ := hb
  obtain ⟨m0, m1, m2, m3, hms⟩ := list_length_four _ hm
  obtain ⟨e0, e1, e2, e3, hes⟩ := list_length_four _ he
  unfold Bucket.serialize Bucket.bytes
  rw [hms, hes]
  simp only [List.foldl, Entry.serialize_eq, FStream.write_write, List.map, List.flatten,
    List.append_assoc, List.singleton_append, List.cons_append, List.nil_append,
    List.append_nil]

theorem Bucket.bytes_size (b : Bucket) (hb : b.WF) : b.bytes.length = 228 := by
  obtain ⟨hm, ⟨he, hwf⟩, _⟩ := hb
  obtain ⟨m0, m1, m2, m3, hms⟩ := list_length_four _ hm
  obtain ⟨e0, e1, e2, e3, hes⟩ := list_length_four _ he
  rw [hes] at hwf
  unfold Bucket.bytes
  rw [hms, hes]
  simp [Entry.bytes_length _ (hwf e0 (by simp)), Entry.bytes_length _ (hwf e1 (by simp)),
    Entry.bytes_length _ (hwf e2 (by simp)), Entry.bytes_length _ (hwf e3 (by simp)),
    sizeBytes_length]

end HashFile

namespace HashFile

theorem Bucket.slice_bytes (m0 m1 m2 m3 : Bool) (e0 e1 e2 e3 : Entry) (nx : Nat)
    (h0 : e0.WF) (h1 : e1.WF) (h2 : e2.WF) (h3 : e3.WF) :
    slice (Bucket.bytes ⟨[m0, m1, m2, m3], [e0, e1, e2, e3], nx⟩) 0 1 = [boolByte m0] ∧
    slice (Bucket.bytes ⟨[m0, m1, m2, m3], [e0, e1, e2, e3], nx⟩) 1 1 = [boolByte m1] ∧
    slice (Bucket.bytes ⟨[m0, m1, m2, m3], [e0, e1, e2, e3], nx⟩) 2 1 = [boolByte m2] ∧
    slice (Bucket.bytes ⟨[m0, m1, m2, m3], [e0, e1, e2, e3], nx⟩) 3 1 = [boolByte m3] ∧
    slice (Bucket.bytes ⟨[m0, m1, m2, m3], [e0, e1, e2, e3], nx⟩) 4 54 = e0.bytes ∧
    slice (Bucket.bytes ⟨[m0, m1, m2, m3], [e0, e1, e2, e3], nx⟩) 58 54 = e1.bytes ∧
    slice (Bucket.bytes ⟨[m0, m1, m2, m3], [e0, e1, e2, e3], nx⟩) 112 54 = e2.bytes ∧
    slice (Bucket.bytes ⟨[m0, m1, m2, m3], [e0, e1, e2, e3], nx⟩) 166 54 = e3.bytes ∧
    slice (Bucket.bytes ⟨[m0, m1, m2, m3], [e0, e1, e2, e3], nx⟩) 220 8 = sizeBytes nx := by
  have l0 := Entry.bytes_length e0 h0
  have l1 := Entry.bytes_length e1 h1
  have l2 := Entry.bytes_length e2 h2
  have l3 := Entry.bytes_length e3 h3
  have lp := sizeBytes_length nx
  have hB : Bucket.bytes ⟨[m0, m1, m2, m3], [e0, e1, e2, e3], nx⟩ =
      [boolByte m0, boolByte m1, boolByte m2, boolByte m3] ++ e0.bytes ++ e1.bytes ++ e2.bytes ++
        e3.bytes ++ sizeBytes nx := by
    simp [Bucket.bytes, List.flatten, List.append_assoc]
  rw [hB]
  refine ⟨?_, ?_, ?_, ?_, ?_, ?_, ?_, ?_, ?_⟩
  · simp only [List.append_assoc]; rfl
  · simp only [List.append_assoc]; rfl
  · simp only [List.append_assoc]; rfl
  · simp only [List.append_assoc]; rfl
  · have := slice_mid [boolByte m0, boolByte m1, boolByte m2, boolByte m3] e0.bytes
      (e1.bytes ++ e2.bytes ++ e3.bytes ++ sizeBytes nx)
    simp only [l0, List.length_cons, List.length_nil, ← List.append_assoc] at this ⊢
    exact this
  · have := slice_mid ([boolByte m0, boolByte m1, boolByte m2, boolByte m3] ++ e0.bytes) e1.bytes
      (e2.bytes ++ e3.bytes ++ sizeBytes nx)
    simp only [l0, l1, List.length_append, List.length_cons, List.length_nil,
      ← List.append_assoc] at this ⊢
    exact this
  · have := slice_mid ([boolByte m0, boolByte m1, boolByte m2, boolByte m3] ++ e0.bytes ++
      e1.bytes) e2.bytes (e3.bytes ++ sizeBytes nx)
    simp only [l0, l1, l2, List.length_append, List.length_cons, List.length_nil,
      ← List.append_assoc] at this ⊢
    exact this
  · have := slice_mid ([boolByte m0, boolByte m1, boolByte m2, boolByte m3] ++ e0.bytes ++
      e1.bytes ++ e2.bytes) e3.bytes (sizeBytes nx)
    simp only [l0, l1, l2, l3, List.length_append, List.length_cons, List.length_nil] at this ⊢
    exact this
  · have := slice_mid ([boolByte m0, boolByte m1, boolByte m2, boolByte m3] ++ e0.bytes ++
      e1.bytes ++ e2.bytes ++ e3.bytes) (sizeBytes nx) []
    simp only [l0, l1, l2, l3, lp, List.length_append, List.length_cons, List.length_nil,
      List.append_nil] at this ⊢
    exact this

end HashFile

/-! ## More facts about the bucket array of a reachable file -/

theorem Abs.add_cases (hashInt : Int → Nat) (fuel : Nat) (e : Entry) (bs bs' : List ABucket)
    (h : Abs.add hashInt fuel e bs = some bs') :
    ∃ t b, Abs.walk fuel (HashFile.add_hash_pos hashInt e) bs = some t ∧ bs[t]? = some b ∧
      b.next = HashFile.Bucket.overflow_no_overflow ∧
      ((b.recs.length < 4 ∧ bs' = bs.set t { b with recs := b.recs ++ [e] }) ∨
       (¬ b.recs.length < 4 ∧
          bs' = bs.set t { b with next := bs.length } ++
            [{ recs := [e], next := HashFile.Bucket.overflow_no_overflow }])) := by
  unfold Abs.add at h
  cases hw : Abs.walk fuel (HashFile.add_hash_pos hashInt e) bs with
  | none => simp [hw] at h
  | some t =>
    obtain ⟨b, hb, hn⟩ := Abs.walk_tail bs fuel _ t hw
    simp only [hw, hb] at h
    refine ⟨t, b, rfl, hb, hn, ?_⟩
    by_cases hlen : b.recs.length < 4
    · simp only [hlen, if_true, Option.some.injEq] at h
      exact Or.inl ⟨hlen, h.symm⟩
    · simp only [hlen, if_false, Option.some.injEq] at h
      exact Or.inr ⟨hlen, h.symm⟩

theorem OverflowFilled_add (hashInt : Int → Nat) (fuel : Nat) (e : Entry) (bs bs' : List ABucket)
    (h : Abs.add hashInt fuel e bs = some bs') (hof : OverflowFilled bs) :
    OverflowFilled bs' := by
  obtain ⟨t, b, _, hb, _, hcase⟩ := Abs.add_cases hashInt fuel e bs bs' h
  have htlt : t < bs.length := by
    rcases List.getElem?_eq_some.mp hb with ⟨hj, _⟩
    exact hj
  intro x bx hx h5
  rcases hcase with ⟨_, rfl⟩ | ⟨_, rfl⟩
  · by_cases hxt : x = t
    · subst hxt
      rw [List.getElem?_set_self htlt] at hx
      cases hx
      simp
    · rw [List.getElem?_set_ne (Ne.symm hxt)] at hx
      exact hof x bx hx h5
  · by_cases hxN : x < bs.length
    · rw [List.getElem?_append_left (by simpa using hxN)] at hx
      by_cases hxt : x = t
      · subst hxt
        rw [List.getElem?_set_self htlt] at hx
        cases hx
        exact hof x b hb h5
      · rw [List.getElem?_set_ne (Ne.symm hxt)] at hx
        exact hof x bx hx h5
    · have hxe : x = bs.length := by
        rcases List.getElem?_eq_some.mp hx with ⟨hj, _⟩
        simp at hj
        omega
      subst hxe
      have hset : (bs.set t { b with next := bs.length }).length = bs.length := by simp
      have := List.getElem?_concat_length (bs.set t { b with next := bs.length })
        { recs := [e], next := HashFile.Bucket.overflow_no_overflow }
      rw [hset] at this
      rw [this] at hx
      cases hx
      simp

theorem OverflowFilled_addAll (hashInt : Int → Nat) (fuel : Nat) :
    ∀ (es : List Entry) (bs bs' : List ABucket), Abs.addAll hashInt fuel es bs = some bs' →
      OverflowFilled bs → OverflowFilled bs' := by
  intro es
  induction es with
  | nil =>
    intro bs bs' h hof
    simp only [Abs.addAll, Option.some.injEq] at h
    subst h
    exact hof
  | cons e es ih =>
    intro bs bs' h hof
    unfold Abs.addAll at h
    cases ha : Abs.add hashInt fuel e bs with
    | none => simp [ha] at h
    | some bs1 =>
      simp only [ha] at h
      exact ih bs1 bs' h (OverflowFilled_add hashInt fuel e bs bs1 ha hof)

theorem OverflowFilled_init : OverflowFilled Abs.init := by
  intro x b hx h5
  have hlt : x < Abs.init.length := by
    rcases List.getElem?_eq_some.mp hx with ⟨hj, _⟩
    exact hj
  have : Abs.init.length = 5 := rfl
  omega

namespace HashFile

/-- The bucket array of a reachable file, with all that is known about it. -/
theorem reach_all (hashInt : Int → Nat) (rs : List Entry) (hwf : ∀ r ∈ rs, r.WF)
    (hsz : (n_buckets + rs.length) * Bucket.bucket_size < 2 ^ 64) (fuel : Nat)
    (hfuel : n_buckets + rs.length ≤ fuel) (f : FStream)
    (hf : addAll hashInt fuel rs (HashFile.new []) = some f) :
    ∃ bs, Rep f.data bs ∧ Inv hashInt bs rs ∧ OverflowFilled bs ∧ 5 ≤ bs.length ∧
      bs.length ≤ 5 + rs.length ∧ bs.length * 228 < 2 ^ 64 := by
  have hn : n_buckets = 5 := rfl
  rw [hn, bucket_size_eq] at hsz
  rw [hn] at hfuel
  have hil : Abs.init.length = 5 := rfl
  obtain ⟨bs, hall, hinv, hl1, hl2⟩ := Abs.addAll_inv hashInt fuel rs Abs.init []
    (Inv_init hashInt) (by rw [hil]; exact hfuel)
    (by rw [hil, overflow_no_overflow_eq]; omega)
  rw [hil] at hl1 hl2
  obtain ⟨f0, hf0, hrep⟩ := addAll_sim hashInt fuel rs (HashFile.new []).data Abs.init
    (HashFile.new []).pos new_nil_rep hwf (by rw [hil]; exact hsz) bs hall
  have hf0' : addAll hashInt fuel rs (HashFile.new []) = some f0 := hf0
  rw [hf0'] at hf
  cases hf
  refine ⟨bs, hrep, by simpa using hinv,
    OverflowFilled_addAll hashInt fuel rs Abs.init bs hall OverflowFilled_init, hl1, hl2, ?_⟩
  have : bs.length * 228 ≤ (5 + rs.length) * 228 := Nat.mul_le_mul_right _ hl2
  omega

end HashFile

theorem IsChain.bucket_facts {bs : List ABucket} {i : Nat} {js : List Nat} {recs : List Entry}
    (h : IsChain bs i js recs) :
    ∀ x ∈ i :: js, ∃ b, bs[x]? = some b ∧ b.recs.length ≤ 4 ∧
      (b.next = HashFile.Bucket.overflow_no_overflow ∨
        (b.next ≠ HashFile.Bucket.overflow_no_overflow ∧ x < b.next ∧ b.next ∈ js ∧
          b.recs.length = 4)) := by
  induction js generalizing i recs with
  | nil =>
    obtain ⟨b, hb, hr, hl, hn⟩ := h
    intro x hx
    simp only [List.mem_singleton] at hx
    subst hx
    exact ⟨b, hb, by rw [hr]; exact hl, Or.inl hn⟩
  | cons j js ih =>
    obtain ⟨b, hb, hr, hl, hn, hij, hj, hrest⟩ := h
    intro x hx
    rcases List.mem_cons.mp hx with rfl | hx
    · exact ⟨b, hb, by omega, Or.inr ⟨by rw [hn]; exact hj, by rw [hn]; exact hij,
        by rw [hn]; simp, hl⟩⟩
    · obtain ⟨bx, hbx, hlx, hcase⟩ := ih hrest x hx
      refine ⟨bx, hbx, hlx, ?_⟩
      rcases hcase with hc | ⟨h1, h2, h3, h4⟩
      · exact Or.inl hc
      · exact Or.inr ⟨h1, h2, List.mem_cons_of_mem _ h3, h4⟩

/-- In a chain every bucket but the first is the target of the pointer of
exactly one bucket of the chain. -/
theorem IsChain.pred_unique {bs : List ABucket} {i : Nat} {js : List Nat} {recs : List Entry}
    (h : IsChain bs i js recs) :
    ∀ x ∈ js, ∃ y ∈ i :: js, (∃ b, bs[y]? = some b ∧ b.next = x) ∧
      ∀ y' ∈ i :: js, (∃ b, bs[y']? = some b ∧ b.next = x) → y' = y := by
  induction js generalizing i recs with
  | nil => intro x hx; simp at hx
  | cons j js ih =>
    have hfacts := h.bucket_facts
    have hlt := h.lt_of_mem
    obtain ⟨b, hb, hr, hl, hn, hij, hj, hrest⟩ := h
    have hlt' := hrest.lt_of_mem
    intro x hx
    rcases List.mem_cons.mp hx with rfl | hx
    · refine ⟨i, by simp, ⟨b, hb, hn⟩, ?_⟩
      intro y' hy' ⟨b', hb', hn'⟩
      rcases List.mem_cons.mp hy' with rfl | hy'
      · rfl
      · exfalso
        obtain ⟨b2, hb2, _, hcase⟩ := hfacts y' (List.mem_cons_of_mem _ hy')
        rw [hb'] at hb2
        cases hb2
        have hge : x ≤ y' := by
          rcases List.mem_cons.mp hy' with rfl | hy''
          · exact Nat.le_refl _
          · exact Nat.le_of_lt (hlt' y' hy'')
        rcases hcase with hc | ⟨_, h2, _, _⟩
        · rw [hn'] at hc; exact hj hc
        · omega
    · obtain ⟨y, hy, hyp, hyu⟩ := ih hrest x hx
      refine ⟨y, List.mem_cons_of_mem _ hy, hyp, ?_⟩
      intro y' hy' ⟨b', hb', hn'⟩
      rcases List.mem_cons.mp hy' with rfl | hy'
      · exfalso
        rw [hb] at hb'
        cases hb'
        have := hlt' x hx
        omega
      · exact hyu y' hy' ⟨b', hb', hn'⟩

/-! ## Values read through `BucketView`, as functions of the file contents -/

namespace HashFile

theorem BucketView.read_entry_mask_fst (bv : BucketView) (j : Nat) (s : FStream) :
    (bv.read_entry_mask j s).map Prod.fst =
      if bv.bucket_offset + j + 1 ≤ s.data.length then some (maskAt s.data bv.bucket_offset j)
      else none := by
  rw [BucketView.read_entry_mask_eq]
  split <;> rfl

theorem BucketView.read_entry_fst (bv : BucketView) (j : Nat) (s : FStream) :
    (bv.read_entry j s).map Prod.fst =
      if bv.bucket_offset + 4 + j * 54 + 54 ≤ s.data.length then
        some (entryAt s.data bv.bucket_offset j)
      else none := by
  rw [BucketView.read_entry_eq]
  split <;> rfl

theorem BucketView.read_overflow_pointer_fst (bv : BucketView) (s : FStream) :
    (bv.read_overflow_pointer s).map Prod.fst =
      if bv.bucket_offset + 228 ≤ s.data.length then some (nextAt s.data bv.bucket_offset)
      else none := by
  rw [BucketView.read_overflow_pointer_eq]
  split <;> rfl

theorem BucketView.read_entries_mask_fst (bv : BucketView) (s : FStream) :
    (bv.read_entries_mask s).map Prod.fst =
      if bv.bucket_offset + 4 ≤ s.data.length then
        some [maskAt s.data bv.bucket_offset 0, maskAt s.data bv.bucket_offset 1,
          maskAt s.data bv.bucket_offset 2, maskAt s.data bv.bucket_offset 3]
      else none := by
  rw [BucketView.read_entries_mask_eq]
  split <;> rfl

/-- A flag reads the same in two files of the same length that agree on its byte. -/
theorem read_entry_mask_congr (f f' : FStream) (o j : Nat)
    (hl : f'.data.length = f.data.length)
    (hs : o + j + 1 ≤ f.data.length → slice f'.data (o + j) 1 = slice f.data (o + j) 1) :
    (BucketView.read_entry_mask { bucket_offset := o } j f').map Prod.fst =
      (BucketView.read_entry_mask { bucket_offset := o } j f).map Prod.fst := by
  rw [BucketView.read_entry_mask_fst, BucketView.read_entry_mask_fst, hl]
  by_cases h : o + j + 1 ≤ f.data.length
  · simp only [h, if_true, maskAt, hs h]
  · simp only [h, if_false]

theorem read_entry_congr (f f' : FStream) (o j : Nat)
    (hl : f'.data.length = f.data.length)
    (hs : o + 4 + j * 54 + 54 ≤ f.data.length →
      slice f'.data (o + 4 + j * 54) 54 = slice f.data (o + 4 + j * 54) 54) :
    (BucketView.read_entry { bucket_offset := o } j f').map Prod.fst =
      (BucketView.read_entry { bucket_offset := o } j f).map Prod.fst := by
  rw [BucketView.read_entry_fst, BucketView.read_entry_fst, hl]
  by_cases h : o + 4 + j * 54 + 54 ≤ f.data.length
  · simp only [h, if_true, entryAt, hs h]
  · simp only [h, if_false]

theorem read_overflow_pointer_congr (f f' : FStream) (o : Nat)
    (hl : f'.data.length = f.data.length)
    (hs : o + 228 ≤ f.data.length → slice f'.data (o + 220) 8 = slice f.data (o + 220) 8) :
    (BucketView.read_overflow_pointer { bucket_offset := o } f').map Prod.fst =
      (BucketView.read_overflow_pointer { bucket_offset := o } f).map Prod.fst := by
  rw [BucketView.read_overflow_pointer_fst, BucketView.read_overflow_pointer_fst, hl]
  by_cases h : o + 228 ≤ f.data.length
  · simp only [h, if_true, nextAt, hs h]
  · simp only [h, if_false]

/-- The tail bucket that `add` reaches on a reachable file, and the new
contents, in the terms of the bucket array. -/
theorem add_reach (hashInt : Int → Nat) (bs : List ABucket) (rs : List Entry) (f : FStream)
    (hrep : Rep f.data bs) (hinv : Inv hashInt bs rs) (hsz : bs.length * 228 < 2 ^ 64)
    (fuel : Nat) (hfuel : bs.length ≤ fuel) (e : Entry) :
    ∃ t b, bs[t]? = some b ∧ b.next = Bucket.overflow_no_overflow ∧ b.recs.length ≤ 4 ∧
      Abs.walk fuel (add_hash_pos hashInt e) bs = some t ∧
      addWalk fuel { bucket_offset := add_hash_pos hashInt e * Bucket.bucket_size } f =
        some ({ bucket_offset := t * 228 }, { data := f.data, pos := t * 228 + 228 }) ∧
      (b.recs.length < 4 →
        add hashInt fuel e f =
          some { data := writeAt (writeAt f.data (t * 228 + b.recs.length) [boolByte true])
                   (t * 228 + 4 + b.recs.length * 54) e.bytes,
                 pos := t * 228 + 4 + b.recs.length * 54 + e.bytes.length }) ∧
      (¬ b.recs.length < 4 →
        add hashInt fuel e f =
          some { data := writeAt (writeAt (writeAt f.data (t * 228 + 220) (sizeBytes bs.length) ++
                   defaultBucketBytes) f.data.length [boolByte true]) (f.data.length + 4) e.bytes,
                 pos := f.data.length + 4 + e.bytes.length }) := by
  obtain ⟨ch, hch, _, _⟩ := hinv
  have hh := add_hash_pos_lt hashInt e
  have hc := hch _ hh
  have hwalk := hc.walk fuel (by have := hc.add_length_lt; omega)
  obtain ⟨b, hb, hn⟩ := Abs.walk_tail bs fuel _ _ hwalk
  obtain ⟨h1, h2, h3⟩ := add_run hashInt f.data bs hrep hsz e fuel f.pos _ hwalk b hb
  exact ⟨_, b, hb, hn, (hrep.2 _ b hb).1, hwalk, h1, h2, h3⟩

end HashFile

/-! ## The two shapes of the file after `add` -/

/-- Filling a free slot: length kept, the flag byte and the record bytes
written, all other bytes kept. -/
theorem free_data_slices (d : List Nat) (t len : Nat) (e : Entry) (he : e.WF) (hlen : len < 4)
    (hin : t * 228 + 228 ≤ d.length) :
    (writeAt (writeAt d (t * 228 + len) [boolByte true])
      (t * 228 + 4 + len * 54) e.bytes).length = d.length ∧
    slice (writeAt (writeAt d (t * 228 + len) [boolByte true])
      (t * 228 + 4 + len * 54) e.bytes) (t * 228 + len) 1 = [boolByte true] ∧
    slice (writeAt (writeAt d (t * 228 + len) [boolByte true])
      (t * 228 + 4 + len * 54) e.bytes) (t * 228 + 4 + len * 54) 54 = e.bytes ∧
    ∀ off n, off + n ≤ t * 228 + len ∨
        (t * 228 + len + 1 ≤ off ∧ off + n ≤ t * 228 + 4 + len * 54) ∨
        t * 228 + 4 + len * 54 + 54 ≤ off →
      slice (writeAt (writeAt d (t * 228 + len) [boolByte true])
        (t * 228 + 4 + len * 54) e.bytes) off n = slice d off n := by
  have hbl := Entry.bytes_length e he
  have hl1 : (writeAt d (t * 228 + len) [boolByte true]).length = d.length := by
    rw [writeAt_length]; simp; omega
  refine ⟨?_, ?_, ?_, ?_⟩
  · rw [writeAt_length, hl1, hbl]; omega
  · rw [slice_writeAt_disj _ _ _ _ _ (by omega) (by omega)]
    exact slice_writeAt_same d (t * 228 + len) [boolByte true]
  · have := slice_writeAt_same (writeAt d (t * 228 + len) [boolByte true])
      (t * 228 + 4 + len * 54) e.bytes
    rw [hbl] at this
    exact this
  · intro off n h
    rw [slice_writeAt_disj _ _ _ _ _ (by omega) (by rw [hbl]; omega),
      slice_writeAt_disj _ _ _ _ _ (by omega) (by simp; omega)]

/-- Overflowing a full tail: one bucket appended, the pointer of the tail
written, all other bytes of the old file kept. -/
theorem full_data_slices (d : List Nat) (t nb : Nat) (e : Entry) (he : e.WF)
    (hin : t * 228 + 228 ≤ d.length) :
    (writeAt (writeAt (writeAt d (t * 228 + 220) (sizeBytes nb) ++ defaultBucketBytes)
      d.length [boolByte true]) (d.length + 4) e.bytes).length = d.length + 228 ∧
    slice (writeAt (writeAt (writeAt d (t * 228 + 220) (sizeBytes nb) ++ defaultBucketBytes)
      d.length [boolByte true]) (d.length + 4) e.bytes) (t * 228 + 220) 8 = sizeBytes nb ∧
    ∀ off n, off + n ≤ d.length → off + n ≤ t * 228 + 220 ∨ t * 228 + 228 ≤ off →
      slice (writeAt (writeAt (writeAt d (t * 228 + 220) (sizeBytes nb) ++ defaultBucketBytes)
        d.length [boolByte true]) (d.length + 4) e.bytes) off n = slice d off n := by
  have hbl := Entry.bytes_length e he
  have hd : defaultBucketBytes.length = 228 := rfl
  have hl1 : (writeAt d (t * 228 + 220) (sizeBytes nb)).length = d.length := by
    rw [writeAt_length, sizeBytes_length]; omega
  have hfr := slice_append_fill (writeAt d (t * 228 + 220) (sizeBytes nb)) e
  rw [hl1] at hfr
  have h3 : (writeAt (writeAt d (t * 228 + 220) (sizeBytes nb) ++ defaultBucketBytes) d.length
      [boolByte true]).length = d.length + 228 := by
    rw [writeAt_length, List.length_append, hd, hl1]; simp
  refine ⟨?_, ?_, ?_⟩
  · rw [writeAt_length, h3, hbl]; omega
  · rw [hfr _ _ (by omega)]
    have := slice_writeAt_same d (t * 228 + 220) (sizeBytes nb)
    rw [sizeBytes_length] at this
    exact this
  · intro off n h1 h2
    rw [hfr _ _ h1, slice_writeAt_disj _ _ _ _ _ (by omega) (by rw [sizeBytes_length]; omega)]


/-! ## Three files built from the records of the driver -/

namespace HashFile

theorem mainFile_reach :
    addAll stdHashInt 16 mainEntries (HashFile.new []) = some mainFile ∧
      Rep mainFile.data mainBuckets := by
  have habs : Abs.addAll stdHashInt 16 mainEntries Abs.init = some mainBuckets := by decide
  obtain ⟨f, hf, hrep⟩ := addAll_sim stdHashInt 16 mainEntries (HashFile.new []).data Abs.init
    (HashFile.new []).pos new_nil_rep (by decide) (by decide) mainBuckets habs
  have hf' : addAll stdHashInt 16 mainEntries (HashFile.new []) = some f := hf
  have hm : mainFile = f := by
    unfold mainFile
    rw [hf']
    rfl
  rw [hm]
  exact ⟨hf', hrep⟩

theorem mainFour_reach :
    addAll stdHashInt 16 (mainEntries.take 4) (HashFile.new []) = some mainFour ∧
      Rep mainFour.data fourBuckets := by
  have habs : Abs.addAll stdHashInt 16 (mainEntries.take 4) Abs.init = some fourBuckets := by
    decide
  obtain ⟨f, hf, hrep⟩ := addAll_sim stdHashInt 16 (mainEntries.take 4) (HashFile.new []).data
    Abs.init (HashFile.new []).pos new_nil_rep (by decide) (by decide) fourBuckets habs
  have hf' : addAll stdHashInt 16 (mainEntries.take 4) (HashFile.new []) = some f := hf
  have hm : mainFour = f := by
    unfold mainFour
    rw [hf']
    rfl
  rw [hm]
  exact ⟨hf', hrep⟩

theorem mainFull_reach :
    addAll stdHashInt 20 fullEntries (HashFile.new []) = some mainFull ∧
      Rep mainFull.data fullBuckets := by
  have habs : Abs.addAll stdHashInt 20 fullEntries Abs.init = some fullBuckets := by decide
  obtain ⟨f, hf, hrep⟩ := addAll_sim stdHashInt 20 fullEntries (HashFile.new []).data Abs.init
    (HashFile.new []).pos new_nil_rep (by decide) (by decide) fullBuckets habs
  have hf' : addAll stdHashInt 20 fullEntries (HashFile.new []) = some f := hf
  have hm : mainFull = f := by
    unfold mainFull
    rw [hf']
    rfl
  rw [hm]
  exact ⟨hf', hrep⟩

end HashFile


/-! ## The tail bucket seen from the file -/

namespace HashFile

/-- What the hypotheses on the walk and on the flags of the tail bucket say in
the terms of the bucket array. -/
theorem tail_of_walk (hashInt : Int → Nat) (bs : List ABucket) (rs : List Entry) (f : FStream)
    (hrep : Rep f.data bs) (hinv : Inv hashInt bs rs) (hsz : bs.length * 228 < 2 ^ 64)
    (fuel : Nat) (hfuel : bs.length ≤ fuel) (e : Entry) (t : Nat) (file1 : FStream)
    (hwalk : addWalk fuel { bucket_offset := add_hash_pos hashInt e * Bucket.bucket_size } f =
      some ({ bucket_offset := t * Bucket.bucket_size }, file1))
    (ems : List Bool) (file2 : FStream)
    (hmask : BucketView.read_entries_mask { bucket_offset := t * Bucket.bucket_size } file1 =
      some (ems, file2)) :
    ∃ b, bs[t]? = some b ∧ b.next = Bucket.overflow_no_overflow ∧ b.recs.length ≤ 4 ∧
      ems = [decide (0 < b.recs.length), decide (1 < b.recs.length),
        decide (2 < b.recs.length), decide (3 < b.recs.length)] ∧
      (b.recs.length < 4 →
        add hashInt fuel e f =
          some { data := writeAt (writeAt f.data (t * 228 + b.recs.length) [boolByte true])
                   (t * 228 + 4 + b.recs.length * 54) e.bytes,
                 pos := t * 228 + 4 + b.recs.length * 54 + e.bytes.length }) ∧
      (¬ b.recs.length < 4 →
        add hashInt fuel e f =
          some { data := writeAt (writeAt (writeAt f.data (t * 228 + 220) (sizeBytes bs.length) ++
                   defaultBucketBytes) f.data.length [boolByte true]) (f.data.length + 4) e.bytes,
                 pos := f.data.length + 4 + e.bytes.length }) := by
  obtain ⟨t0, b, hb, hn, hbl, _, hwalk0, hfree, hfull⟩ :=
    add_reach hashInt bs rs f hrep hinv hsz fuel hfuel e
  rw [hwalk0] at hwalk
  simp only [Option.some.injEq, Prod.mk.injEq, BucketView.mk.injEq, bucket_size_eq] at hwalk
  obtain ⟨ht, hfile1⟩ := hwalk
  have ht' : t0 = t := by omega
  subst ht'
  subst hfile1
  have hm := hrep.read_mask hb (t0 * 228 + 228)
  rw [hm] at hmask
  simp only [Option.some.injEq, Prod.mk.injEq] at hmask
  exact ⟨b, hb, hn, hbl, hmask.1.symm, hfree, hfull⟩

/-- The chain walk of `add` on a file that consists of the buckets `bs`. -/
theorem addWalk_file (hashInt : Int → Nat) (f : FStream) (bs : List ABucket)
    (hrep : Rep f.data bs) (hsz : bs.length * 228 < 2 ^ 64) (e : Entry) (fuel t : Nat)
    (hw : Abs.walk fuel (add_hash_pos hashInt e) bs = some t) :
    addWalk fuel { bucket_offset := add_hash_pos hashInt e * Bucket.bucket_size } f =
      some ({ bucket_offset := t * Bucket.bucket_size },
        { data := f.data, pos := t * Bucket.bucket_size + Bucket.bucket_size }) := by
  obtain ⟨b, hb, _⟩ := Abs.walk_tail bs fuel _ t hw
  exact (add_run hashInt f.data bs hrep hsz e fuel f.pos t hw b hb).1

end HashFile

/-! ## Reads of a represented file, as facts about the bucket array -/

theorem Rep.index_lt {d : List Nat} {bs : List ABucket} (hrep : Rep d bs) {i k : Nat}
    (h : i * 228 + k + 1 ≤ d.length) : i < bs.length := by
  have := hrep.1
  by_contra hc
  have : bs.length * 228 ≤ i * 228 := Nat.mul_le_mul_right _ (by omega)
  omega

theorem Rep.next_iff {f : FStream} {bs : List ABucket} (hrep : Rep f.data bs) (i nx : Nat) :
    (HashFile.BucketView.read_overflow_pointer
        { bucket_offset := i * HashFile.Bucket.bucket_size } f).map Prod.fst = some nx ↔
      ∃ b, bs[i]? = some b ∧ b.next = nx := by
  rw [HashFile.BucketView.read_overflow_pointer_fst, HashFile.bucket_size_eq]
  simp only
  constructor
  · intro h
    have hr : i * 228 + 228 ≤ f.data.length := by
      by_contra hc
      simp [hc] at h
    simp only [hr, if_true, Option.some.injEq] at h
    have hlt : i < bs.length := hrep.index_lt (k := 0) (by omega)
    refine ⟨bs[i], List.getElem?_eq_getElem hlt, ?_⟩
    rw [← h]
    exact (hrep.2 i _ (List.getElem?_eq_getElem hlt)).2.2.2.symm
  · rintro ⟨b, hb, rfl⟩
    rw [if_pos (hrep.bucket_in_file hb), (hrep.2 i b hb).2.2.2]

theorem Rep.mask_iff {f : FStream} {bs : List ABucket} (hrep : Rep f.data bs) (i j : Nat)
    (hj : j < 4) (m : Bool) :
    (HashFile.BucketView.read_entry_mask
        { bucket_offset := i * HashFile.Bucket.bucket_size } j f).map Prod.fst = some m ↔
      ∃ b, bs[i]? = some b ∧ m = decide (j < b.recs.length) := by
  rw [HashFile.BucketView.read_entry_mask_fst, HashFile.bucket_size_eq]
  simp only
  constructor
  · intro h
    have hr : i * 228 + j + 1 ≤ f.data.length := by
      by_contra hc
      simp [hc] at h
    simp only [hr, if_true, Option.some.injEq] at h
    have hlt : i < bs.length := hrep.index_lt hr
    refine ⟨bs[i], List.getElem?_eq_getElem hlt, ?_⟩
    rw [← h]
    exact (hrep.2 i _ (List.getElem?_eq_getElem hlt)).2.1 j hj
  · rintro ⟨b, hb, rfl⟩
    have := hrep.bucket_in_file hb
    rw [if_pos (by omega), (hrep.2 i b hb).2.1 j hj]

theorem Rep.length_div {d : List Nat} {bs : List ABucket} (hrep : Rep d bs) :
    d.length / HashFile.Bucket.bucket_size = bs.length := by
  rw [hrep.1, HashFile.bucket_size_eq]
  exact Nat.mul_div_cancel _ (by decide)

/-- Every bucket of the array has no overflow or points to a later bucket of
the array, and is then full. -/
theorem Inv.next_facts {hashInt : Int → Nat} {bs : List ABucket} {rs : List Entry}
    (hinv : Inv hashInt bs rs) (x : Nat) (b : ABucket) (hb : bs[x]? = some b) :
    b.next = HashFile.Bucket.overflow_no_overflow ∨
      (x < b.next ∧ b.next < bs.length ∧ b.recs.length = 4) := by
  obtain ⟨ch, hch, _, hcov⟩ := hinv
  have hxlt : x < bs.length := by
    rcases List.getElem?_eq_some.mp hb with ⟨hj, _⟩
    exact hj
  obtain ⟨h, hh, hx⟩ := hcov x hxlt
  obtain ⟨b', hb', _, hcase⟩ := (hch h hh).bucket_facts x hx
  rw [hb] at hb'
  cases hb'
  rcases hcase with hc | ⟨_, h2, h3, h4⟩
  · exact Or.inl hc
  · exact Or.inr ⟨h2, (hch h hh).mem_lt_length _ (List.mem_cons_of_mem _ h3), h4⟩

/-- Every overflow bucket of the array is the target of the pointer of exactly
one bucket. -/
theorem Inv.overflow_pred {hashInt : Int → Nat} {bs : List ABucket} {rs : List Entry}
    (hinv : Inv hashInt bs rs) (x : Nat) (h5 : 5 ≤ x) (hx : x < bs.length)
    (hN : x ≠ HashFile.Bucket.overflow_no_overflow) :
    ∃ y : Nat, (∃ b : ABucket, bs[y]? = some b ∧ b.next = x) ∧
      ∀ y' : Nat, (∃ b : ABucket, bs[y']? = some b ∧ b.next = x) → y' = y := by
  obtain ⟨ch, hch, hdisj, hcov⟩ := hinv
  obtain ⟨h, hh, hxm⟩ := hcov x hx
  have hxjs : x ∈ ch h := by
    rcases List.mem_cons.mp hxm with rfl | hm
    · omega
    · exact hm
  obtain ⟨y, _, hyp, hyu⟩ := (hch h hh).pred_unique x hxjs
  refine ⟨y, hyp, ?_⟩
  rintro y' ⟨b', hb', hn'⟩
  have hy'lt : y' < bs.length := by
    rcases List.getElem?_eq_some.mp hb' with ⟨hj, _⟩
    exact hj
  obtain ⟨h', hh', hy'm⟩ := hcov y' hy'lt
  obtain ⟨b2, hb2, _, hcase⟩ := (hch h' hh').bucket_facts y' hy'm
  rw [hb'] at hb2
  cases hb2
  have hxin' : x ∈ ch h' := by
    rcases hcase with hc | ⟨_, _, h3, _⟩
    · rw [hn'] at hc; exact absurd hc hN
    · rw [hn'] at h3; exact h3
  have heq : h' = h := by
    by_contra hne
    exact hdisj h' h hh' hh hne x (List.mem_cons_of_mem _ hxin') hxm
  subst heq
  exact hyu y' hy'm ⟨b', hb', hn'⟩

theorem IsChain.full_before_last {bs : List ABucket} {i : Nat} {js : List Nat}
    {recs : List Entry} (h : IsChain bs i js recs) :
    ∀ x ∈ (i :: js).dropLast, ∃ b, bs[x]? = some b ∧ b.recs.length = 4 := by
  induction js generalizing i recs with
  | nil => intro x hx; simp at hx
  | cons j js ih =>
    obtain ⟨b, hb, _, hl, _, _, _, hrest⟩ := h
    intro x hx
    rw [List.dropLast_cons₂] at hx
    rcases List.mem_cons.mp hx with rfl | hx
    · exact ⟨b, hb, hl⟩
    · exact ih hrest x hx

/-! ## The bucket reached by `add` is the end of the pointer walk -/

theorem chainLast_getLast (i : Nat) (js : List Nat) :
    (i :: js).getLast? = some (chainLast i js) := by
  induction js generalizing i with
  | nil => rfl
  | cons j js ih =>
    rw [List.getLast?_cons_cons]
    exact ih j

namespace HashFile

/-- On a file that consists of the buckets `bs`, the pointer walk from the
home bucket of `e` returns, the walk of `add` stops at its last bucket `t`,
the pointer of `t` is `overflow_no_overflow`, and `add` has one of the two
explicit results. -/
theorem add_reach_trace (hashInt : Int → Nat) (bs : List ABucket) (rs : List Entry)
    (f : FStream) (hrep : Rep f.data bs) (hinv : Inv hashInt bs rs)
    (hsz : bs.length * 228 < 2 ^ 64) (fuel : Nat) (hfuel : bs.length ≤ fuel) (e : Entry) :
    ∃ t b l, chainTrace fuel (add_hash_pos hashInt e) f = some l ∧
      l.head? = some (add_hash_pos hashInt e) ∧ l.getLast? = some t ∧
      bs[t]? = some b ∧ b.next = Bucket.overflow_no_overflow ∧ b.recs.length ≤ 4 ∧
      (BucketView.read_overflow_pointer { bucket_offset := t * Bucket.bucket_size } f).map
        Prod.fst = some Bucket.overflow_no_overflow ∧
      addWalk fuel { bucket_offset := add_hash_pos hashInt e * Bucket.bucket_size } f =
        some ({ bucket_offset := t * Bucket.bucket_size },
          { data := f.data, pos := t * Bucket.bucket_size + Bucket.bucket_size }) ∧
      (b.recs.length < 4 →
        add hashInt fuel e f =
          some { data := writeAt (writeAt f.data (t * 228 + b.recs.length) [boolByte true])
                   (t * 228 + 4 + b.recs.length * 54) e.bytes,
                 pos := t * 228 + 4 + b.recs.length * 54 + e.bytes.length }) ∧
      (¬ b.recs.length < 4 →
        add hashInt fuel e f =
          some { data := writeAt (writeAt (writeAt f.data (t * 228 + 220) (sizeBytes bs.length) ++
                   defaultBucketBytes) f.data.length [boolByte true]) (f.data.length + 4) e.bytes,
                 pos := f.data.length + 4 + e.bytes.length }) := by
  obtain ⟨ch, hch, _, _⟩ := hinv
  have hh := add_hash_pos_lt hashInt e
  have hc := hch _ hh
  have hlen := hc.add_length_lt
  have hwalk := hc.walk fuel (by omega)
  obtain ⟨b, hb, hn⟩ := Abs.walk_tail bs fuel _ _ hwalk
  obtain ⟨h1, h2, h3⟩ := add_run hashInt f.data bs hrep hsz e fuel f.pos _ hwalk b hb
  refine ⟨_, b, add_hash_pos hashInt e :: ch (add_hash_pos hashInt e),
    hc.trace_eq f.data hrep hsz fuel (by omega) f.pos, rfl, chainLast_getLast _ _, hb, hn,
    (hrep.2 _ b hb).1, ?_, h1, h2, h3⟩
  have hr := hrep.read_next hb f.pos
  rw [hn] at hr
  exact congrArg (Option.map Prod.fst) hr

end HashFile

/-- The flags of bucket `i`, read from a file that consists of the buckets
`bs`. -/
theorem Rep.read_mask_file {f : FStream} {bs : List ABucket} (hrep : Rep f.data bs) {i : Nat}
    {b : ABucket} (hb : bs[i]? = some b) :
    (HashFile.BucketView.read_entries_mask
      { bucket_offset := i * HashFile.Bucket.bucket_size } f).map Prod.fst =
      some [decide (0 < b.recs.length), decide (1 < b.recs.length), decide (2 < b.recs.length),
        decide (3 < b.recs.length)] :=
  congrArg (Option.map Prod.fst) (hrep.read_mask hb f.pos)

/-! ## Five records with the same home bucket -/

theorem Abs.addAll_five (hashInt : Int → Nat) (r1 r2 r3 r4 r5 : Entry) (h : Nat) (hh : h < 5)
    (h1 : HashFile.add_hash_pos hashInt r1 = h) (h2 : HashFile.add_hash_pos hashInt r2 = h)
    (h3 : HashFile.add_hash_pos hashInt r3 = h) (h4 : HashFile.add_hash_pos hashInt r4 = h)
    (h5 : HashFile.add_hash_pos hashInt r5 = h) (fuel : Nat) :
    Abs.addAll hashInt (fuel + 1) [r1, r2, r3, r4, r5] Abs.init =
      some (Abs.init.set h { recs := [r1, r2, r3, r4], next := 5 } ++
        [{ recs := [r5], next := HashFile.Bucket.overflow_no_overflow }]) := by
  interval_cases h <;>
    simp [Abs.addAll, Abs.add, Abs.walk, Abs.init, h1, h2, h3, h4, h5, List.replicate]

/-! ## The claims -/

namespace HashFile

/-- C1 (conservation).  Starting from the file that the constructor writes
into an empty file, after the records `rs` have been passed to `add` in this
order, `find k` returns exactly the records of `rs` whose key is `k`, in the
order of `rs`.  The records are `Entry` values, the file of `n_buckets +
rs.length` buckets is addressable with `size_t` offsets, and the loops are
given more than `n_buckets + rs.length` iterations. -/
theorem C1_conservation (hashInt : Int → Nat) (rs : List Entry) (hwf : ∀ r ∈ rs, r.WF)
    (hsz : (n_buckets + rs.length) * Bucket.bucket_size < 2 ^ 64) (fuel : Nat)
    (hfuel : n_buckets + rs.length < fuel) (k : Int) :
    ∃ file, addAll hashInt fuel rs (HashFile.new []) = some file ∧
      (find hashInt fuel k file).map Prod.fst = some (rs.filter (fun r => r.key = k)) := by
  obtain ⟨f, bs, hf, hrep, hinv, _, hl⟩ := reach hashInt rs hwf hsz fuel (by omega)
  have hn : n_buckets = 5 := rfl
  rw [hn, bucket_size_eq] at hsz
  rw [hn] at hfuel
  have hsz' : bs.length * 228 < 2 ^ 64 :=
    Nat.lt_of_le_of_lt (Nat.mul_le_mul_right _ hl) hsz
  obtain ⟨p', hp'⟩ := find_reach hashInt rs f bs hrep hinv hsz' fuel (by omega) k
  exact ⟨f, hf, by rw [hp']; rfl⟩

theorem C1_conservation_witness :
    ∃ file, addAll stdHashInt 17 mainEntries (HashFile.new []) = some file ∧
      (find stdHashInt 17 6 file).map Prod.fst =
        some (mainEntries.filter (fun r => r.key = 6)) :=
  C1_conservation stdHashInt mainEntries (by decide) (by decide) 17 (by decide) 6

end HashFile

namespace HashFile

theorem find_of_abs (hashInt : Int → Nat) (k : Int) (f : FStream) (bs : List ABucket)
    (hrep : Rep f.data bs) (hsz : bs.length * 228 < 2 ^ 64) (fuel0 fuel : Nat)
    (hle : fuel0 ≤ fuel) (r : List Entry) (h : Abs.find hashInt fuel0 k bs = some r) :
    (find hashInt fuel k f).map Prod.fst = some r := by
  have h' : Abs.find hashInt fuel k bs = some r :=
    Abs.findLoop_mono k bs fuel0 _ [] r h fuel hle
  obtain ⟨p', hp'⟩ := find_sim hashInt k f.data bs hrep hsz fuel f.pos r h'
  have hf : (⟨f.data, f.pos⟩ : FStream) = f := rfl
  rw [hf] at hp'
  rw [hp']
  rfl

/-- C2 (driver scenario).  On the file that the constructor writes into an
empty file, after the eleven adds of `main`, `find 1` returns the five
records Alvaro, Alfredo, Alejandro, Alberto, Alex in this order, `find 2`
returns the record Brazil/B1 alone, `find 6` the record Federico/F1 alone,
`find 99` nothing; the file holds six buckets, so one overflow bucket, bucket
`5`; the overflow pointer of bucket `1`, the home of key `1`, is `5`, no other
bucket has an overflow pointer, and slot `0` of bucket `5` is active and
holds Alex/A5.  The hash is that of libstdc++ and the loops are given at
least three iterations. -/
theorem C2_driver_scenario (fuel : Nat) (hfuel : 3 ≤ fuel) :
    ∃ file, addAll stdHashInt fuel mainEntries (HashFile.new []) = some file ∧
      (find stdHashInt fuel 1 file).map Prod.fst =
        some [Entry.new 1 (str "Alvaro") (str "A1"), Entry.new 1 (str "Alfredo") (str "A2"),
          Entry.new 1 (str "Alejandro") (str "A3"), Entry.new 1 (str "Alberto") (str "A4"),
          Entry.new 1 (str "Alex") (str "A5")] ∧
      (find stdHashInt fuel 2 file).map Prod.fst = some [Entry.new 2 (str "Brazil") (str "B1")] ∧
      (find stdHashInt fuel 6 file).map Prod.fst =
        some [Entry.new 6 (str "Federico") (str "F1")] ∧
      (find stdHashInt fuel 99 file).map Prod.fst = some [] ∧
      file.data.length = (n_buckets + 1) * Bucket.bucket_size ∧
      find_index stdHashInt 1 = 1 ∧
      (BucketView.read_overflow_pointer { bucket_offset := 1 * Bucket.bucket_size } file).map
        Prod.fst = some 5 ∧
      ([0, 2, 3, 4, 5].map (fun i =>
        (BucketView.read_overflow_pointer { bucket_offset := i * Bucket.bucket_size } file).map
          Prod.fst)) = List.replicate 5 (some Bucket.overflow_no_overflow) ∧
      (BucketView.read_entry_mask { bucket_offset := 5 * Bucket.bucket_size } 0 file).map
        Prod.fst = some true ∧
      (BucketView.read_entry { bucket_offset := 5 * Bucket.bucket_size } 0 file).map
        Prod.fst = some (Entry.new 1 (str "Alex") (str "A5")) := by
  have habs3 : Abs.addAll stdHashInt 3 mainEntries Abs.init = some mainBuckets := by decide
  have habs := Abs.addAll_mono stdHashInt 3 fuel hfuel _ _ _ habs3
  obtain ⟨f, hf, hrep⟩ := addAll_sim stdHashInt fuel mainEntries (HashFile.new []).data Abs.init
    (HashFile.new []).pos new_nil_rep (by decide) (by decide) mainBuckets habs
  have hsz : mainBuckets.length * 228 < 2 ^ 64 := by decide
  refine ⟨f, hf, ?_, ?_, ?_, ?_, ?_, ?_, ?_, ?_, ?_, ?_⟩
  · exact find_of_abs stdHashInt 1 f mainBuckets hrep hsz 3 fuel hfuel _ (by decide)
  · exact find_of_abs stdHashInt 2 f mainBuckets hrep hsz 3 fuel hfuel _ (by decide)
  · exact find_of_abs stdHashInt 6 f mainBuckets hrep hsz 3 fuel hfuel _ (by decide)
  · exact find_of_abs stdHashInt 99 f mainBuckets hrep hsz 3 fuel hfuel _ (by decide)
  · rw [hrep.1]; rfl
  · decide
  · obtain ⟨d, p⟩ := f
    rw [hrep.read_next (i := 1) (by rfl) p]
    rfl
  · obtain ⟨d, p⟩ := f
    simp only [List.map]
    rw [hrep.read_next (i := 0) (by rfl) p, hrep.read_next (i := 2) (by rfl) p,
      hrep.read_next (i := 3) (by rfl) p, hrep.read_next (i := 4) (by rfl) p,
      hrep.read_next (i := 5) (by rfl) p]
    rfl
  · obtain ⟨d, p⟩ := f
    have hin := hrep.bucket_in_file (i := 5) (by rfl)
    have hm := (hrep.2 5 _ (by rfl)).2.1 0 (by decide)
    simp only at hin
    rw [BucketView.read_entry_mask_eq, bucket_size_eq]
    simp only [Nat.add_zero]
    rw [if_pos (by omega), hm]
    rfl
  · obtain ⟨d, p⟩ := f
    rw [hrep.read_slot (i := 5) (j := 0) (by rfl) (by rfl) p]
    rfl

theorem C2_driver_scenario_witness :
    3 ≤ 3 ∧
    ∃ file, addAll stdHashInt 3 mainEntries (HashFile.new []) = some file ∧
      (find stdHashInt 3 1 file).map Prod.fst =
        some [Entry.new 1 (str "Alvaro") (str "A1"), Entry.new 1 (str "Alfredo") (str "A2"),
          Entry.new 1 (str "Alejandro") (str "A3"), Entry.new 1 (str "Alberto") (str "A4"),
          Entry.new 1 (str "Alex") (str "A5")] ∧
      (find stdHashInt 3 2 file).map Prod.fst = some [Entry.new 2 (str "Brazil") (str "B1")] ∧
      (find stdHashInt 3 6 file).map Prod.fst =
        some [Entry.new 6 (str "Federico") (str "F1")] ∧
      (find stdHashInt 3 99 file).map Prod.fst = some [] ∧
      file.data.length = (n_buckets + 1) * Bucket.bucket_size ∧
      find_index stdHashInt 1 = 1 ∧
      (BucketView.read_overflow_pointer { bucket_offset := 1 * Bucket.bucket_size } file).map
        Prod.fst = some 5 ∧
      ([0, 2, 3, 4, 5].map (fun i =>
        (BucketView.read_overflow_pointer { bucket_offset := i * Bucket.bucket_size } file).map
          Prod.fst)) = List.replicate 5 (some Bucket.overflow_no_overflow) ∧
      (BucketView.read_entry_mask { bucket_offset := 5 * Bucket.bucket_size } 0 file).map
        Prod.fst = some true ∧
      (BucketView.read_entry { bucket_offset := 5 * Bucket.bucket_size } 0 file).map
        Prod.fst = some (Entry.new 1 (str "Alex") (str "A5")) :=
  ⟨by decide, C2_driver_scenario 3 (by decide)⟩

end HashFile

namespace HashFile

/-- C3 (record codec round trip).  For every `Entry` value `e` (32-bit signed
key, thirty name bytes, twenty field bytes) and every stream, `serialize`
writes 54 bytes at the stream position: the four bytes of the key, then the
thirty name bytes, then the twenty field bytes, and nothing else in the file;
and `deserialize`, run from the position where they were written, yields `e`
again. -/
theorem C3_codec_round_trip (e : Entry) (hwf : e.WF) (s : FStream) :
    (e.serialize s).pos = s.pos + 54 ∧
    (e.serialize s).data.length = max s.data.length (s.pos + 54) ∧
    slice (e.serialize s).data s.pos 4 = intBytes e.key ∧
    (intBytes e.key).length = 4 ∧
    slice (e.serialize s).data (s.pos + 4) 30 = e.nombre ∧
    slice (e.serialize s).data (s.pos + 34) 20 = e.carrera ∧
    Entry.entry_size = 54 ∧
    (s.pos ≤ s.data.length → ∀ off n, off + n ≤ s.pos ∨ s.pos + 54 ≤ off →
      slice (e.serialize s).data off n = slice s.data off n) ∧
    Entry.deserialize { data := (e.serialize s).data, pos := s.pos } =
      some (e, e.serialize s) := by
  have hbl := Entry.bytes_length e hwf
  have hsame := slice_writeAt_same s.data s.pos e.bytes
  rw [hbl] at hsame
  obtain ⟨_, ⟨hn, _⟩, ⟨hc, _⟩⟩ := id hwf
  rw [Entry.serialize_eq]
  simp only [FStream.write, hbl]
  refine ⟨trivial, ?_, ?_, intBytes_length _, ?_, ?_, rfl, ?_, ?_⟩
  · rw [writeAt_length, hbl]
  · have := slice_slice (writeAt s.data s.pos e.bytes) s.pos 54 0 4 (by omega)
    rw [hsame, Entry.slice_bytes_key] at this
    rw [this, Nat.add_zero]
  · have := slice_slice (writeAt s.data s.pos e.bytes) s.pos 54 4 30 (by omega)
    rw [hsame, Entry.slice_bytes_nombre e hn] at this
    rw [this]
  · have := slice_slice (writeAt s.data s.pos e.bytes) s.pos 54 34 20 (by omega)
    rw [hsame, Entry.slice_bytes_carrera e hn hc] at this
    rw [this]
  · intro hpos off n hdisj
    exact slice_writeAt_disj _ _ _ _ _ hpos (by rw [hbl]; exact hdisj)
  · rw [Entry.deserialize_eq]
    simp only
    rw [if_pos (by rw [writeAt_length, hbl]; omega), hsame, Entry.ofBytes_bytes e hwf]

theorem C3_codec_round_trip_witness :
    (Entry.new (-7) (str "Alvaro") (str "A1")).WF ∧
    Entry.deserialize
        { data := ((Entry.new (-7) (str "Alvaro") (str "A1")).serialize
            { data := [9, 9, 9], pos := 1 }).data, pos := 1 } =
      some (Entry.new (-7) (str "Alvaro") (str "A1"),
        (Entry.new (-7) (str "Alvaro") (str "A1")).serialize { data := [9, 9, 9], pos := 1 }) :=
  ⟨by decide,
    (C3_codec_round_trip (Entry.new (-7) (str "Alvaro") (str "A1")) (by decide)
      { data := [9, 9, 9], pos := 1 }).2.2.2.2.2.2.2.2⟩

/-- C4 (truncate-or-pad construction).  For every key and every pair of
strings, of any length, the constructor keeps the key, stores in the name
buffer the first `min (length name) 30` bytes of the name followed by zero
bytes up to thirty, and in the field buffer the first `min (length field) 20`
bytes of the field followed by zero bytes up to twenty; both buffers keep
their sizes. -/
theorem C4_truncate_or_pad (key : Int) (name field : List Nat) :
    (Entry.new key name field).key = key ∧
    (Entry.new key name field).nombre =
      name.take (min name.length 30) ++ List.replicate (30 - min name.length 30) 0 ∧
    (Entry.new key name field).carrera =
      field.take (min field.length 20) ++ List.replicate (20 - min field.length 20) 0 ∧
    (Entry.new key name field).nombre.length = 30 ∧
    (Entry.new key name field).carrera.length = 20 := by
  simp only [Entry.new, Entry.copyFill_eq]
  refine ⟨trivial, trivial, trivial, ?_, ?_⟩
  · simp only [List.length_append, List.length_take, List.length_replicate]; omega
  · simp only [List.length_append, List.length_take, List.length_replicate]; omega

/-- C5 (hash agreement).  For every key `k` and every record with key `k`,
whatever its name and field, the bucket index that `add` computes for the
record equals the bucket index that `find` computes for `k`, and it is below
`n_buckets = 5`. -/
theorem C5_hash_agreement (hashInt : Int → Nat) (k : Int) (nombre carrera : List Nat) :
    add_hash_pos hashInt { key := k, nombre := nombre, carrera := carrera } =
      find_index hashInt k ∧
    find_index hashInt k < n_buckets ∧ n_buckets = 5 :=
  ⟨rfl, Nat.mod_lt _ (by decide), rfl⟩

/-- C6 (chain monotonicity).  After the constructor on an empty file followed
by the adds `rs`, the walk that follows overflow pointers from any primary
bucket `h` ends at a bucket without overflow, and the bucket indices it
visits, starting with `h`, are pairwise distinct. -/
theorem C6_chains_acyclic (hashInt : Int → Nat) (rs : List Entry) (hwf : ∀ r ∈ rs, r.WF)
    (hsz : (n_buckets + rs.length) * Bucket.bucket_size < 2 ^ 64) (fuel : Nat)
    (hfuel : n_buckets + rs.length ≤ fuel) (h : Nat) (hh : h < n_buckets) :
    ∃ file, addAll hashInt fuel rs (HashFile.new []) = some file ∧
      ∃ l, chainTrace fuel h file = some l ∧ l.head? = some h ∧ l.Nodup := by
  obtain ⟨f, bs, hf, hrep, ⟨ch, hch, _, _⟩, _, hl⟩ := reach hashInt rs hwf hsz fuel hfuel
  have hn : n_buckets = 5 := rfl
  rw [hn, bucket_size_eq] at hsz
  rw [hn] at hfuel hh
  have hsz' : bs.length * 228 < 2 ^ 64 :=
    Nat.lt_of_le_of_lt (Nat.mul_le_mul_right _ hl) hsz
  have hc := hch h hh
  have hlen := hc.add_length_lt
  refine ⟨f, hf, h :: ch h, ?_, rfl, hc.nodup⟩
  exact hc.trace_eq f.data hrep hsz' fuel (by omega) f.pos

theorem C6_chains_acyclic_witness :
    ∃ file, addAll stdHashInt 16 mainEntries (HashFile.new []) = some file ∧
      ∃ l, chainTrace 16 1 file = some l ∧ l.head? = some 1 ∧ l.Nodup :=
  C6_chains_acyclic stdHashInt mainEntries (by decide) (by decide) 16 (by decide) 1 (by decide)

end HashFile

namespace HashFile

/-- C7 (capacity overflow).  On the file that the constructor writes into an
empty file, adding five records that all have the home bucket `h` leaves a
file of `n_buckets + 1 = 6` buckets: one overflow bucket, bucket `5`, was
created.  The overflow pointer of bucket `h` is `5`, the four slots of bucket
`h` are active and hold the first four records in order, slot `0` of bucket
`5` is active and holds the fifth, the other slots of bucket `5` are inactive
and bucket `5` has no overflow. -/
theorem C7_capacity_overflow (hashInt : Int → Nat) (r1 r2 r3 r4 r5 : Entry) (h : Nat)
    (hw1 : r1.WF) (hw2 : r2.WF) (hw3 : r3.WF) (hw4 : r4.WF) (hw5 : r5.WF)
    (h1 : add_hash_pos hashInt r1 = h) (h2 : add_hash_pos hashInt r2 = h)
    (h3 : add_hash_pos hashInt r3 = h) (h4 : add_hash_pos hashInt r4 = h)
    (h5 : add_hash_pos hashInt r5 = h) (fuel : Nat) (hfuel : 1 ≤ fuel) :
    ∃ file, addAll hashInt fuel [r1, r2, r3, r4, r5] (HashFile.new []) = some file ∧
      file.data.length = (n_buckets + 1) * Bucket.bucket_size ∧
      (BucketView.read_overflow_pointer { bucket_offset := h * Bucket.bucket_size } file).map
        Prod.fst = some 5 ∧
      (BucketView.read_entries_mask { bucket_offset := h * Bucket.bucket_size } file).map
        Prod.fst = some [true, true, true, true] ∧
      (BucketView.read_entries { bucket_offset := h * Bucket.bucket_size } file).map
        Prod.fst = some [r1, r2, r3, r4] ∧
      (BucketView.read_entries_mask { bucket_offset := 5 * Bucket.bucket_size } file).map
        Prod.fst = some [true, false, false, false] ∧
      (BucketView.read_entry { bucket_offset := 5 * Bucket.bucket_size } 0 file).map
        Prod.fst = some r5 ∧
      (BucketView.read_overflow_pointer { bucket_offset := 5 * Bucket.bucket_size } file).map
        Prod.fst = some Bucket.overflow_no_overflow := by
  have hh : h < 5 := by rw [← h1]; exact add_hash_pos_lt hashInt r1
  obtain ⟨n, rfl⟩ : ∃ n, fuel = n + 1 := ⟨fuel - 1, by omega⟩
  have habs := Abs.addAll_five hashInt r1 r2 r3 r4 r5 h hh h1 h2 h3 h4 h5 n
  have hwf : ∀ r ∈ [r1, r2, r3, r4, r5], r.WF := by
    intro r hr
    simp only [List.mem_cons, List.mem_singleton, List.not_mem_nil, or_false] at hr
    rcases hr with rfl | rfl | rfl | rfl | rfl <;> assumption
  obtain ⟨f, hf, hrep⟩ := addAll_sim hashInt (n + 1) [r1, r2, r3, r4, r5] (HashFile.new []).data
    Abs.init (HashFile.new []).pos new_nil_rep hwf
    (by simp only [List.length_cons, List.length_nil, Abs.init, List.length_replicate]
        decide) _ habs
  have hbh : (Abs.init.set h { recs := [r1, r2, r3, r4], next := 5 } ++
      [{ recs := [r5], next := Bucket.overflow_no_overflow }])[h]? =
      some { recs := [r1, r2, r3, r4], next := 5 } := by
    interval_cases h <;> rfl
  have hb5 : (Abs.init.set h { recs := [r1, r2, r3, r4], next := 5 } ++
      [{ recs := [r5], next := Bucket.overflow_no_overflow }])[5]? =
      some { recs := [r5], next := Bucket.overflow_no_overflow } := by
    interval_cases h <;> rfl
  obtain ⟨d, p⟩ := f
  refine ⟨_, hf, ?_, ?_, ?_, ?_, ?_, ?_, ?_⟩
  · rw [hrep.1]
    simp [Abs.init]
    rfl
  · rw [hrep.read_next hbh p]; rfl
  · rw [hrep.read_mask hbh p]; rfl
  · rw [hrep.read_slots hbh r1 r2 r3 r4 rfl p]; rfl
  · rw [hrep.read_mask hb5 p]; rfl
  · rw [hrep.read_slot hb5 (j := 0) (by rfl) p]; rfl
  · rw [hrep.read_next hb5 p]; rfl

theorem C7_capacity_overflow_witness :
    ∃ file, addAll stdHashInt 1 (mainEntries.take 5) (HashFile.new []) = some file ∧
      file.data.length = (n_buckets + 1) * Bucket.bucket_size ∧
      (BucketView.read_overflow_pointer { bucket_offset := 1 * Bucket.bucket_size } file).map
        Prod.fst = some 5 ∧
      (BucketView.read_entries_mask { bucket_offset := 1 * Bucket.bucket_size } file).map
        Prod.fst = some [true, true, true, true] ∧
      (BucketView.read_entries { bucket_offset := 1 * Bucket.bucket_size } file).map
        Prod.fst = some [Entry.new 1 (str "Alvaro") (str "A1"),
          Entry.new 1 (str "Alfredo") (str "A2"), Entry.new 1 (str "Alejandro") (str "A3"),
          Entry.new 1 (str "Alberto") (str "A4")] ∧
      (BucketView.read_entries_mask { bucket_offset := 5 * Bucket.bucket_size } file).map
        Prod.fst = some [true, false, false, false] ∧
      (BucketView.read_entry { bucket_offset := 5 * Bucket.bucket_size } 0 file).map
        Prod.fst = some (Entry.new 1 (str "Alex") (str "A5")) ∧
      (BucketView.read_overflow_pointer { bucket_offset := 5 * Bucket.bucket_size } file).map
        Prod.fst = some Bucket.overflow_no_overflow :=
  C7_capacity_overflow stdHashInt (Entry.new 1 (str "Alvaro") (str "A1"))
    (Entry.new 1 (str "Alfredo") (str "A2")) (Entry.new 1 (str "Alejandro") (str "A3"))
    (Entry.new 1 (str "Alberto") (str "A4")) (Entry.new 1 (str "Alex") (str "A5")) 1
    (by decide) (by decide) (by decide) (by decide) (by decide)
    (by decide) (by decide) (by decide) (by decide) (by decide) 1 (by decide)

/-- C8 (lookup of an absent key).  After the constructor on an empty file
followed by the adds `rs`, `find k` for a key `k` that none of the records of
`rs` carries terminates and returns the empty sequence; `k = 0`, the key
stored in the zero-initialised slots, is no exception. -/
theorem C8_absent_key (hashInt : Int → Nat) (rs : List Entry) (hwf : ∀ r ∈ rs, r.WF)
    (hsz : (n_buckets + rs.length) * Bucket.bucket_size < 2 ^ 64) (fuel : Nat)
    (hfuel : n_buckets + rs.length < fuel) (k : Int) (habsent : ∀ r ∈ rs, r.key ≠ k) :
    ∃ file, addAll hashInt fuel rs (HashFile.new []) = some file ∧
      (find hashInt fuel k file).map Prod.fst = some [] := by
  obtain ⟨f, bs, hf, hrep, hinv, _, hl⟩ := reach hashInt rs hwf hsz fuel (by omega)
  have hn : n_buckets = 5 := rfl
  rw [hn, bucket_size_eq] at hsz
  rw [hn] at hfuel
  have hsz' : bs.length * 228 < 2 ^ 64 :=
    Nat.lt_of_le_of_lt (Nat.mul_le_mul_right _ hl) hsz
  obtain ⟨p', hp'⟩ := find_reach hashInt rs f bs hrep hinv hsz' fuel (by omega) k
  have hnil : rs.filter (fun r => r.key = k) = [] := by
    rw [List.filter_eq_nil_iff]
    intro r hr
    simpa using habsent r hr
  rw [hnil] at hp'
  exact ⟨f, hf, by rw [hp']; rfl⟩

theorem C8_absent_key_witness :
    (∀ r ∈ mainEntries, r.key ≠ 0) ∧
    ∃ file, addAll stdHashInt 17 mainEntries (HashFile.new []) = some file ∧
      (find stdHashInt 17 0 file).map Prod.fst = some [] :=
  ⟨by decide, C8_absent_key stdHashInt mainEntries (by decide) (by decide) 17 (by decide) 0
    (by decide)⟩

end HashFile

namespace HashFile

/-- C9 (initialisation).  Run on an empty file, the constructor leaves a file
of `n_buckets * bucket_size = 5 * 228 = 1140` bytes, the five serialised
`Bucket{}` one after the other from offset `0`; each of the five buckets has
its four slot flags false and its overflow pointer equal to
`overflow_no_overflow`, the largest `size_t`. -/
theorem C9_initialisation :
    (HashFile.new []).data.length = n_buckets * Bucket.bucket_size ∧
    n_buckets * Bucket.bucket_size = 1140 ∧
    (HashFile.new []).data =
      (List.replicate n_buckets (Bucket.default.serialize { data := [], pos := 0 }).data).flatten ∧
    (Bucket.default.serialize { data := [], pos := 0 }).data.length = Bucket.bucket_size ∧
    (∀ i : Fin n_buckets,
      (BucketView.read_entries_mask { bucket_offset := i.val * Bucket.bucket_size }
        (HashFile.new [])).map Prod.fst = some [false, false, false, false] ∧
      (BucketView.read_overflow_pointer { bucket_offset := i.val * Bucket.bucket_size }
        (HashFile.new [])).map Prod.fst = some Bucket.overflow_no_overflow) ∧
    Bucket.overflow_no_overflow = 2 ^ 64 - 1 := by
  have hrep := new_nil_rep
  have hser := Bucket.default_serialize_at_end []
  simp only [List.length_nil, List.nil_append] at hser
  refine ⟨?_, rfl, ?_, ?_, ?_, rfl⟩
  · rw [hrep.1]; rfl
  · rw [hser, new_nil]
    simp [n_buckets, List.replicate]
  · rw [hser]
    show defaultBucketBytes.length = 228
    rfl
  · intro i
    have hb : Abs.init[i.val]? = some { recs := [], next := Bucket.overflow_no_overflow } := by
      simp only [Abs.init]
      exact List.getElem?_replicate_of_lt i.isLt
    generalize HashFile.new [] = f at hrep
    obtain ⟨d, p⟩ := f
    rw [hrep.read_mask hb p, hrep.read_next hb p]
    exact ⟨rfl, rfl⟩

/-- C10 (`find` is read-only).  Whenever `find k` returns on a file, the
contents of the file (so also its length) are the same afterwards as before,
and every later `find`, for any key and any number of iterations, gives on
the stream left behind exactly what it gives on the stream before. -/
theorem C10_find_read_only (hashInt : Int → Nat) (fuel : Nat) (k : Int) (file : FStream)
    (r : List Entry) (file' : FStream) (h : find hashInt fuel k file = some (r, file')) :
    file'.data = file.data ∧ file'.data.length = file.data.length ∧
      ∀ (fuel' : Nat) (k' : Int), find hashInt fuel' k' file' = find hashInt fuel' k' file := by
  have hd : file'.data = file.data := findLoop_data k fuel _ [] file r file' h
  refine ⟨hd, by rw [hd], ?_⟩
  intro fuel' k'
  obtain ⟨d, p⟩ := file
  obtain ⟨d', p'⟩ := file'
  simp only at hd
  subst hd
  exact find_pos hashInt fuel' k' d' p' p

set_option maxRecDepth 100000 in
theorem C10_find_read_only_witness :
    find stdHashInt 2 0 { data := defaultBucketBytes, pos := 7 } =
      some ([], { data := defaultBucketBytes, pos := 228 }) ∧
    ({ data := defaultBucketBytes, pos := 228 } : FStream).data = defaultBucketBytes ∧
    ({ data := defaultBucketBytes, pos := 228 } : FStream).data.length
      = defaultBucketBytes.length ∧
    ∀ (fuel' : Nat) (k' : Int),
      find stdHashInt fuel' k' { data := defaultBucketBytes, pos := 228 } =
        find stdHashInt fuel' k' { data := defaultBucketBytes, pos := 7 } :=
  ⟨by decide,
    C10_find_read_only stdHashInt 2 0 { data := defaultBucketBytes, pos := 7 } []
      { data := defaultBucketBytes, pos := 228 } (by decide)⟩

end HashFile

namespace HashFile

/-- C16 (no accessor write spans bucket boundaries).  For the view of the
bucket at offset `o` and a slot `i < fb`: `set_entry_mask i v` stores the byte
of `v` at `o + i`, `set_entry i r` stores the 54 bytes of `r` from
`o + fb + i * entry_size`, `set_overflow_pointer nx` stores the 8 bytes of
`nx` from `o + fb + fb * entry_size`.  Each range lies inside
`o .. o + bucket_size`, every byte of the file outside the range keeps its
value, and the file keeps its length when the range lies inside it. -/
theorem C16_writes_stay_in_bucket (o i : Nat) (hi : i < Bucket.fb) (v : Bool) (r : Entry)
    (hr : r.WF) (nx : Nat) (s : FStream) :
    (slice (BucketView.set_entry_mask { bucket_offset := o } i v s).data (o + i) 1
        = [boolByte v] ∧
      (∀ off n, (off + n ≤ o + i ∧ off + n ≤ s.data.length) ∨ o + i + 1 ≤ off →
        slice (BucketView.set_entry_mask { bucket_offset := o } i v s).data off n
          = slice s.data off n) ∧
      (BucketView.set_entry_mask { bucket_offset := o } i v s).data.length
        = max s.data.length (o + i + 1) ∧
      o ≤ o + i ∧ o + i + 1 ≤ o + Bucket.bucket_size) ∧
    (slice (BucketView.set_entry { bucket_offset := o } i r s).data
        (o + Bucket.fb + i * Entry.entry_size) 54 = r.bytes ∧
      (∀ off n, (off + n ≤ o + Bucket.fb + i * Entry.entry_size ∧ off + n ≤ s.data.length) ∨
          o + Bucket.fb + i * Entry.entry_size + 54 ≤ off →
        slice (BucketView.set_entry { bucket_offset := o } i r s).data off n
          = slice s.data off n) ∧
      (BucketView.set_entry { bucket_offset := o } i r s).data.length
        = max s.data.length (o + Bucket.fb + i * Entry.entry_size + 54) ∧
      o ≤ o + Bucket.fb + i * Entry.entry_size ∧
      o + Bucket.fb + i * Entry.entry_size + 54 ≤ o + Bucket.bucket_size) ∧
    (slice (BucketView.set_overflow_pointer { bucket_offset := o } nx s).data
        (o + Bucket.fb + Bucket.fb * Entry.entry_size) 8 = sizeBytes nx ∧
      (∀ off n, (off + n ≤ o + Bucket.fb + Bucket.fb * Entry.entry_size ∧
            off + n ≤ s.data.length) ∨
          o + Bucket.fb + Bucket.fb * Entry.entry_size + 8 ≤ off →
        slice (BucketView.set_overflow_pointer { bucket_offset := o } nx s).data off n
          = slice s.data off n) ∧
      (BucketView.set_overflow_pointer { bucket_offset := o } nx s).data.length
        = max s.data.length (o + Bucket.fb + Bucket.fb * Entry.entry_size + 8) ∧
      o ≤ o + Bucket.fb + Bucket.fb * Entry.entry_size ∧
      o + Bucket.fb + Bucket.fb * Entry.entry_size + 8 ≤ o + Bucket.bucket_size) := by
  have hbl := Entry.bytes_length r hr
  have hfb : Bucket.fb = 4 := rfl
  have hes : Entry.entry_size = 54 := rfl
  rw [hfb] at hi
  rw [BucketView.set_entry_mask_eq, BucketView.set_entry_eq, BucketView.set_overflow_pointer_eq,
    bucket_size_eq, hfb, hes]
  simp only
  refine ⟨⟨?_, ?_, ?_, by omega, by omega⟩, ⟨?_, ?_, ?_, by omega, by omega⟩,
    ⟨?_, ?_, ?_, by omega, by omega⟩⟩
  · exact slice_writeAt_same s.data (o + i) [boolByte v]
  · intro off n h
    exact slice_writeAt_outside _ _ _ _ _ (by simpa using h)
  · rw [writeAt_length]; rfl
  · have := slice_writeAt_same s.data (o + 4 + i * 54) r.bytes
    rw [hbl] at this
    exact this
  · intro off n h
    exact slice_writeAt_outside _ _ _ _ _ (by rw [hbl]; exact h)
  · rw [writeAt_length, hbl]
  · have := slice_writeAt_same s.data (o + 220) (sizeBytes nx)
    rw [sizeBytes_length] at this
    exact this
  · intro off n h
    exact slice_writeAt_outside _ _ _ _ _ (by rw [sizeBytes_length]; omega)
  · rw [writeAt_length, sizeBytes_length]

theorem C16_writes_stay_in_bucket_witness :
    2 < Bucket.fb ∧ (Entry.new 7 (str "Ana") (str "X")).WF ∧
    slice (BucketView.set_entry { bucket_offset := 228 } 2 (Entry.new 7 (str "Ana") (str "X"))
        (HashFile.new [])).data (228 + Bucket.fb + 2 * Entry.entry_size) 54
      = (Entry.new 7 (str "Ana") (str "X")).bytes :=
  ⟨by decide, by decide,
    (C16_writes_stay_in_bucket 228 2 (by decide) true (Entry.new 7 (str "Ana") (str "X"))
      (by decide) 5 (HashFile.new [])).2.1.1⟩

/-- C17 (cursor independence of the accessor).  Each of the eight `BucketView`
operations, run on the same file contents with the same view and arguments,
returns the same value and leaves the same stream behind whatever the
position of the stream was before the call. -/
theorem C17_cursor_independence (bv : BucketView) (d : List Nat) (p1 p2 : Nat) (i : Nat)
    (v : Bool) (e : Entry) (nx : Nat) :
    bv.read_entries_mask { data := d, pos := p1 } = bv.read_entries_mask { data := d, pos := p2 } ∧
    bv.read_entry_mask i { data := d, pos := p1 } = bv.read_entry_mask i { data := d, pos := p2 } ∧
    bv.set_entry_mask i v { data := d, pos := p1 } =
      bv.set_entry_mask i v { data := d, pos := p2 } ∧
    bv.read_entries { data := d, pos := p1 } = bv.read_entries { data := d, pos := p2 } ∧
    bv.read_entry i { data := d, pos := p1 } = bv.read_entry i { data := d, pos := p2 } ∧
    bv.set_entry i e { data := d, pos := p1 } = bv.set_entry i e { data := d, pos := p2 } ∧
    bv.read_overflow_pointer { data := d, pos := p1 } =
      bv.read_overflow_pointer { data := d, pos := p2 } ∧
    bv.set_overflow_pointer nx { data := d, pos := p1 } =
      bv.set_overflow_pointer nx { data := d, pos := p2 } :=
  ⟨rfl, rfl, rfl, rfl, rfl, rfl, rfl, rfl⟩

end HashFile

namespace HashFile

/-- C12 (layout agreement of the bucket codec and the accessor).  For every
`Bucket` value `b`, `serialize` writes `bucket_size = fb + fb * 54 + 8 = 228`
bytes at the stream position `o`: the `fb` flag bytes, the `fb` records of 54
bytes each from `o + fb`, the 8 bytes of the pointer from `o + fb + fb * 54`.
The view of the bucket at `o` then reads back the flags of `b` with
`read_entries_mask`, the record `i` of `b` with `read_entry i` for each
`i < fb`, all records with `read_entries`, and the pointer of `b` with
`read_overflow_pointer`. -/
theorem C12_layout_agreement (b : Bucket) (hb : b.WF) (s : FStream) :
    (b.serialize s).pos = s.pos + Bucket.bucket_size ∧
    Bucket.bucket_size = Bucket.fb + Bucket.fb * 54 + 8 ∧ Bucket.bucket_size = 228 ∧
    (b.serialize s).data.length = max s.data.length (s.pos + Bucket.bucket_size) ∧
    slice (b.serialize s).data s.pos Bucket.fb = b.entries_mask.map boolByte ∧
    (∀ i e, b.entries[i]? = some e →
      slice (b.serialize s).data (s.pos + Bucket.fb + i * 54) 54 = e.bytes ∧
      (BucketView.read_entry { bucket_offset := s.pos } i (b.serialize s)).map Prod.fst
        = some e) ∧
    slice (b.serialize s).data (s.pos + Bucket.fb + Bucket.fb * 54) 8
      = sizeBytes b.overflow_pointer ∧
    (BucketView.read_entries_mask { bucket_offset := s.pos } (b.serialize s)).map Prod.fst
      = some b.entries_mask ∧
    (BucketView.read_entries { bucket_offset := s.pos } (b.serialize s)).map Prod.fst
      = some b.entries ∧
    (BucketView.read_overflow_pointer { bucket_offset := s.pos } (b.serialize s)).map Prod.fst
      = some b.overflow_pointer := by
  have hlen := Bucket.bytes_size b hb
  rw [Bucket.serialize_write b hb s]
  obtain ⟨hm, ⟨he, hwf⟩, hnx⟩ := hb
  obtain ⟨ms, es, nx⟩ := b
  obtain ⟨m0, m1, m2, m3, rfl⟩ := list_length_four ms hm
  obtain ⟨e0, e1, e2, e3, rfl⟩ := list_length_four es he
  have h0 : e0.WF := hwf e0 (by simp)
  have h1 : e1.WF := hwf e1 (by simp)
  have h2 : e2.WF := hwf e2 (by simp)
  have h3 : e3.WF := hwf e3 (by simp)
  obtain ⟨s0, s1, s2, s3, t0, t1, t2, t3, tp⟩ := Bucket.slice_bytes m0 m1 m2 m3 e0 e1 e2 e3 nx
    h0 h1 h2 h3
  generalize hB : Bucket.bytes ⟨[m0, m1, m2, m3], [e0, e1, e2, e3], nx⟩ = B at *
  have hD : slice (writeAt s.data s.pos B) s.pos 228 = B := by
    have := slice_writeAt_same s.data s.pos B
    rw [hlen] at this
    exact this
  have hsub : ∀ k n, k + n ≤ 228 →
      slice (writeAt s.data s.pos B) (s.pos + k) n = slice B k n := by
    intro k n hk
    rw [← slice_slice _ _ 228 _ _ hk, hD]
  have hDl : (writeAt s.data s.pos B).length = max s.data.length (s.pos + 228) := by
    rw [writeAt_length, hlen]
  have hfb : Bucket.fb = 4 := rfl
  simp only [FStream.write, hlen, bucket_size_eq, hfb]
  refine ⟨trivial, trivial, trivial, hDl, ?_, ?_, ?_, ?_, ?_, ?_⟩
  · have := hsub 0 4 (by omega)
    rw [Nat.add_zero] at this
    rw [this, ← hB]
    simp only [Bucket.bytes, List.map, List.append_assoc]
    rfl
  · intro i e hie
    have hi : i < 4 := by
      rcases List.getElem?_eq_some.mp hie with ⟨hj, _⟩
      simpa using hj
    rw [BucketView.read_entry_eq]
    simp only [entryAt]
    rw [if_pos (by rw [hDl]; omega)]
    have hs := hsub (4 + i * 54) 54 (by omega)
    rw [← Nat.add_assoc] at hs
    rw [hs]
    interval_cases i
    · simp only [List.getElem?_cons_zero, Option.some.injEq] at hie
      subst hie
      exact ⟨t0, by rw [t0, Entry.ofBytes_bytes _ h0]; rfl⟩
    · simp only [List.getElem?_cons_succ, List.getElem?_cons_zero, Option.some.injEq] at hie
      subst hie
      exact ⟨t1, by rw [t1, Entry.ofBytes_bytes _ h1]; rfl⟩
    · simp only [List.getElem?_cons_succ, List.getElem?_cons_zero, Option.some.injEq] at hie
      subst hie
      exact ⟨t2, by rw [t2, Entry.ofBytes_bytes _ h2]; rfl⟩
    · simp only [List.getElem?_cons_succ, List.getElem?_cons_zero, Option.some.injEq] at hie
      subst hie
      exact ⟨t3, by rw [t3, Entry.ofBytes_bytes _ h3]; rfl⟩
  · have := hsub 220 8 (by omega)
    rw [Nat.add_assoc, this, tp]
  · rw [BucketView.read_entries_mask_eq]
    simp only [maskAt]
    rw [if_pos (by rw [hDl]; omega), hsub 0 1 (by omega), hsub 1 1 (by omega),
      hsub 2 1 (by omega), hsub 3 1 (by omega), s0, s1, s2, s3]
    simp only [boolOfBytes_boolByte, Option.map]
  · rw [BucketView.read_entries_eq]
    simp only [entryAt]
    rw [if_pos (by rw [hDl]; omega)]
    have q0 := hsub (4 + 0 * 54) 54 (by omega)
    have q1 := hsub (4 + 1 * 54) 54 (by omega)
    have q2 := hsub (4 + 2 * 54) 54 (by omega)
    have q3 := hsub (4 + 3 * 54) 54 (by omega)
    rw [← Nat.add_assoc] at q0 q1 q2 q3
    rw [q0, q1, q2, q3, t0, t1, t2, t3, Entry.ofBytes_bytes _ h0, Entry.ofBytes_bytes _ h1,
      Entry.ofBytes_bytes _ h2, Entry.ofBytes_bytes _ h3]
    rfl
  · rw [BucketView.read_overflow_pointer_eq]
    simp only [nextAt]
    rw [if_pos (by rw [hDl]; omega), hsub 220 8 (by omega), tp, leVal_sizeBytes,
      Nat.mod_eq_of_lt hnx]
    rfl

end HashFile

namespace HashFile

theorem C12_layout_agreement_witness :
    (BucketView.read_entries_mask { bucket_offset := 3 }
      (Bucket.serialize
        { entries_mask := [true, false, true, false]
          entries := [Entry.new (-1) (str "Ana") (str "X"), Entry.default,
            Entry.new 7 (str "Bo") (str "Y"), Entry.default]
          overflow_pointer := 9 }
        { data := [1, 2, 3, 4, 5], pos := 3 })).map Prod.fst
      = some [true, false, true, false] ∧
    (BucketView.read_entries { bucket_offset := 3 }
      (Bucket.serialize
        { entries_mask := [true, false, true, false]
          entries := [Entry.new (-1) (str "Ana") (str "X"), Entry.default,
            Entry.new 7 (str "Bo") (str "Y"), Entry.default]
          overflow_pointer := 9 }
        { data := [1, 2, 3, 4, 5], pos := 3 })).map Prod.fst
      = some [Entry.new (-1) (str "Ana") (str "X"), Entry.default,
            Entry.new 7 (str "Bo") (str "Y"), Entry.default] ∧
    (BucketView.read_overflow_pointer { bucket_offset := 3 }
      (Bucket.serialize
        { entries_mask := [true, false, true, false]
          entries := [Entry.new (-1) (str "Ana") (str "X"), Entry.default,
            Entry.new 7 (str "Bo") (str "Y"), Entry.default]
          overflow_pointer := 9 }
        { data := [1, 2, 3, 4, 5], pos := 3 })).map Prod.fst = some 9 :=
  (C12_layout_agreement
    { entries_mask := [true, false, true, false]
      entries := [Entry.new (-1) (str "Ana") (str "X"), Entry.default,
        Entry.new 7 (str "Bo") (str "Y"), Entry.default]
      overflow_pointer := 9 }
    (by decide) { data := [1, 2, 3, 4, 5], pos := 3 }).2.2.2.2.2.2.2

end HashFile

namespace HashFile

/-- C11 (bounded side effects of `add`).  On every file reached from the
constructor by adds, the walk that follows overflow pointers from the home
bucket of the record returns a list `l` that starts at the home bucket; let
`t` be its last element, the tail bucket of the home chain.  The pointer of
`t` reads `overflow_no_overflow`, the chain walk of `add` stops at `t` without
changing a byte, and `t` lies inside the file.  `add` of the record returns;
the file keeps its length or grows by `bucket_size = 228` bytes; and every
byte of the file as it was before the call that lies outside bucket `t` keeps
its value. -/
theorem C11_add_bounded_effects (hashInt : Int → Nat) (rs : List Entry) (hwf : ∀ r ∈ rs, r.WF)
    (hsz : (n_buckets + rs.length) * Bucket.bucket_size < 2 ^ 64) (fuel : Nat)
    (hfuel : n_buckets + rs.length ≤ fuel) (f : FStream)
    (hf : addAll hashInt fuel rs (HashFile.new []) = some f) (e : Entry) (he : e.WF) :
    ∃ l t file1 f',
      chainTrace fuel (add_hash_pos hashInt e) f = some l ∧
      l.head? = some (add_hash_pos hashInt e) ∧ l.getLast? = some t ∧
      (BucketView.read_overflow_pointer { bucket_offset := t * Bucket.bucket_size } f).map
        Prod.fst = some Bucket.overflow_no_overflow ∧
      addWalk fuel { bucket_offset := add_hash_pos hashInt e * Bucket.bucket_size } f =
        some ({ bucket_offset := t * Bucket.bucket_size }, file1) ∧
      file1.data = f.data ∧
      t * Bucket.bucket_size + Bucket.bucket_size ≤ f.data.length ∧
      add hashInt fuel e f = some f' ∧
      (f'.data.length = f.data.length ∨ f'.data.length = f.data.length + Bucket.bucket_size) ∧
      Bucket.bucket_size = 228 ∧
      ∀ off n, off + n ≤ t * Bucket.bucket_size ∨
          (t * Bucket.bucket_size + Bucket.bucket_size ≤ off ∧ off + n ≤ f.data.length) →
        slice f'.data off n = slice f.data off n := by
  obtain ⟨bs, hrep, hinv, _, _, hl, hsz'⟩ := reach_all hashInt rs hwf hsz fuel hfuel f hf
  have hn : n_buckets = 5 := rfl
  rw [hn] at hfuel
  obtain ⟨t, b, l, htr, hhead, hlast, hb, _, hbl, hptr, hwalk, hfree, hfull⟩ :=
    add_reach_trace hashInt bs rs f hrep hinv hsz' fuel (by omega) e
  have hin := hrep.bucket_in_file hb
  rw [bucket_size_eq] at hptr hwalk ⊢
  by_cases hlen : b.recs.length < 4
  · obtain ⟨h1, _, _, h4⟩ := free_data_slices f.data t b.recs.length e he hlen hin
    refine ⟨l, t, _, _, htr, hhead, hlast, hptr, hwalk, rfl, hin, hfree hlen, Or.inl h1, rfl, ?_⟩
    intro off n h
    exact h4 off n (by omega)
  · obtain ⟨h1, _, h3⟩ := full_data_slices f.data t bs.length e he hin
    refine ⟨l, t, _, _, htr, hhead, hlast, hptr, hwalk, rfl, hin, hfull hlen, Or.inr h1, rfl, ?_⟩
    intro off n h
    exact h3 off n (by omega) (by omega)

theorem C11_add_bounded_effects_witness :
    ∃ l f', chainTrace 16 1 mainFile = some l ∧ l.head? = some 1 ∧ l.getLast? = some 5 ∧
      (BucketView.read_overflow_pointer { bucket_offset := 5 * Bucket.bucket_size }
        mainFile).map Prod.fst = some Bucket.overflow_no_overflow ∧
      5 * Bucket.bucket_size + Bucket.bucket_size ≤ mainFile.data.length ∧
      add stdHashInt 16 (Entry.new 6 (str "Fabio") (str "F2")) mainFile = some f' ∧
      (f'.data.length = mainFile.data.length ∨
        f'.data.length = mainFile.data.length + Bucket.bucket_size) ∧
      ∀ off n, off + n ≤ 5 * Bucket.bucket_size ∨
          (5 * Bucket.bucket_size + Bucket.bucket_size ≤ off ∧
            off + n ≤ mainFile.data.length) →
        slice f'.data off n = slice mainFile.data off n := by
  have hw := addWalk_file stdHashInt mainFile mainBuckets mainFile_reach.2 (by decide)
    (Entry.new 6 (str "Fabio") (str "F2")) 16 5 (by decide)
  obtain ⟨l, t, file1, f', htr, hhead, hlast, hptr, hwalk, _, hin, hadd, hlen, _, hframe⟩ :=
    C11_add_bounded_effects stdHashInt mainEntries (by decide) (by decide) 16 (by decide)
      mainFile mainFile_reach.1 (Entry.new 6 (str "Fabio") (str "F2")) (by decide)
  rw [hw] at hwalk
  simp only [Option.some.injEq, Prod.mk.injEq, BucketView.mk.injEq, bucket_size_eq] at hwalk
  have ht : t = 5 := by omega
  subst ht
  exact ⟨l, f', htr, hhead, hlast, hptr, hin, hadd, hlen, hframe⟩

end HashFile

namespace HashFile

/-- C13 (`add`, free-slot case).  On a file reached from the constructor by
adds, the walk that follows overflow pointers from the home bucket of the
record returns a list `l` that starts at the home bucket; let `t` be its last
element, the tail bucket of the home chain.  The pointer of `t` reads
`overflow_no_overflow`, the chain walk of `add` stops at `t` without changing
a byte, and the flags `ems` of `t` are read.  If `j` is the position of the
first `false` in `ems`, then slot `j` is the inactive slot of `t` with the
lowest index, and `add` returns a file of the same length in which the flag of
slot `j` of `t` is true and slot `j` of `t` holds the record; every byte other
than that flag byte and the 54 bytes of that slot is as before, so every other
flag and record and every overflow pointer reads as before. -/
theorem C13_add_free_slot (hashInt : Int → Nat) (rs : List Entry) (hwf : ∀ r ∈ rs, r.WF)
    (hsz : (n_buckets + rs.length) * Bucket.bucket_size < 2 ^ 64) (fuel : Nat)
    (hfuel : n_buckets + rs.length ≤ fuel) (f : FStream)
    (hf : addAll hashInt fuel rs (HashFile.new []) = some f) (e : Entry) (he : e.WF) :
    ∃ l t file1 ems file2,
      chainTrace fuel (add_hash_pos hashInt e) f = some l ∧
      l.head? = some (add_hash_pos hashInt e) ∧ l.getLast? = some t ∧
      (BucketView.read_overflow_pointer { bucket_offset := t * Bucket.bucket_size } f).map
        Prod.fst = some Bucket.overflow_no_overflow ∧
      addWalk fuel { bucket_offset := add_hash_pos hashInt e * Bucket.bucket_size } f =
        some ({ bucket_offset := t * Bucket.bucket_size }, file1) ∧
      file1.data = f.data ∧
      BucketView.read_entries_mask { bucket_offset := t * Bucket.bucket_size } file1 =
        some (ems, file2) ∧
      (BucketView.read_entries_mask { bucket_offset := t * Bucket.bucket_size } f).map Prod.fst =
        some ems ∧
      ems.length = Bucket.fb ∧
      ∀ j, findFalse ems = some j →
        j < Bucket.fb ∧ ems[j]? = some false ∧ (∀ j', j' < j → ems[j']? = some true) ∧
        ∃ f', add hashInt fuel e f = some f' ∧ f'.data.length = f.data.length ∧
          (BucketView.read_entry_mask { bucket_offset := t * Bucket.bucket_size } j f').map
            Prod.fst = some true ∧
          (BucketView.read_entry { bucket_offset := t * Bucket.bucket_size } j f').map Prod.fst
            = some e ∧
          (∀ off n, off + n ≤ t * Bucket.bucket_size + j ∨
              (t * Bucket.bucket_size + j + 1 ≤ off ∧
                off + n ≤ t * Bucket.bucket_size + Bucket.fb + j * Entry.entry_size) ∨
              t * Bucket.bucket_size + Bucket.fb + j * Entry.entry_size + Entry.entry_size ≤ off →
            slice f'.data off n = slice f.data off n) ∧
          (∀ i j', i ≠ t ∨ j' ≠ j → j' < Bucket.fb →
            (BucketView.read_entry_mask { bucket_offset := i * Bucket.bucket_size } j' f').map
                Prod.fst =
              (BucketView.read_entry_mask { bucket_offset := i * Bucket.bucket_size } j' f).map
                Prod.fst ∧
            (BucketView.read_entry { bucket_offset := i * Bucket.bucket_size } j' f').map
                Prod.fst =
              (BucketView.read_entry { bucket_offset := i * Bucket.bucket_size } j' f).map
                Prod.fst) ∧
          (∀ i,
            (BucketView.read_overflow_pointer { bucket_offset := i * Bucket.bucket_size } f').map
                Prod.fst =
              (BucketView.read_overflow_pointer { bucket_offset := i * Bucket.bucket_size } f).map
                Prod.fst) := by
  obtain ⟨bs, hrep, hinv, _, _, hl, hsz'⟩ := reach_all hashInt rs hwf hsz fuel hfuel f hf
  have hn : n_buckets = 5 := rfl
  rw [hn] at hfuel
  obtain ⟨t, b, l, htr, hhead, hlast, hb, _, hbl, hptr, hwalk, hadd, _⟩ :=
    add_reach_trace hashInt bs rs f hrep hinv hsz' fuel (by omega) e
  have hin := hrep.bucket_in_file hb
  have hm1 := hrep.read_mask hb (t * Bucket.bucket_size + Bucket.bucket_size)
  have hm2 := Rep.read_mask_file hrep hb
  refine ⟨l, t, _, _, _, htr, hhead, hlast, hptr, hwalk, rfl, hm1, hm2, rfl, ?_⟩
  intro j hfree
  rw [findFalse_mask] at hfree
  have hlen : b.recs.length < 4 := by
    by_contra hc
    simp [hc] at hfree
  simp only [hlen, if_true, Option.some.injEq] at hfree
  subst hfree
  obtain ⟨h1, h2, h3, h4⟩ := free_data_slices f.data t b.recs.length e he hlen hin
  have hfb : Bucket.fb = 4 := rfl
  have hes : Entry.entry_size = 54 := rfl
  rw [bucket_size_eq, hfb, hes]
  refine ⟨hlen, ?_, ?_, _, hadd hlen, h1, ?_, ?_, ?_, ?_, ?_⟩
  · generalize b.recs.length = len at hlen
    interval_cases len <;> simp
  · intro j' hj'
    generalize b.recs.length = len at hlen hj'
    interval_cases len <;> interval_cases j' <;> simp
  · rw [BucketView.read_entry_mask_fst]
    simp only [maskAt]
    rw [if_pos (by rw [h1]; omega), h2, boolOfBytes_boolByte]
  · rw [BucketView.read_entry_fst]
    simp only [entryAt]
    rw [if_pos (by rw [h1]; omega), h3, Entry.ofBytes_bytes e he]
  · intro off n h
    exact h4 off n h
  · intro i j' hne hj'
    constructor
    · apply read_entry_mask_congr _ _ _ _ h1
      intro _
      apply h4
      rcases Nat.lt_trichotomy i t with h | h | h <;> omega
    · apply read_entry_congr _ _ _ _ h1
      intro _
      apply h4
      rcases Nat.lt_trichotomy i t with h | h | h <;> omega
  · intro i
    apply read_overflow_pointer_congr _ _ _ h1
    intro _
    apply h4
    rcases Nat.lt_trichotomy i t with h | h | h <;> omega

end HashFile

namespace HashFile

theorem C13_add_free_slot_witness :
    ∃ l, chainTrace 16 1 mainFile = some l ∧ l.head? = some 1 ∧ l.getLast? = some 5 ∧
      (BucketView.read_overflow_pointer { bucket_offset := 5 * Bucket.bucket_size }
        mainFile).map Prod.fst = some Bucket.overflow_no_overflow ∧
      (BucketView.read_entries_mask { bucket_offset := 5 * Bucket.bucket_size } mainFile).map
        Prod.fst = some [true, true, false, false] ∧
      ∃ f', add stdHashInt 16 (Entry.new 6 (str "Fabio") (str "F2")) mainFile = some f' ∧
        f'.data.length = mainFile.data.length ∧
        (BucketView.read_entry_mask { bucket_offset := 5 * Bucket.bucket_size } 2 f').map
          Prod.fst = some true ∧
        (BucketView.read_entry { bucket_offset := 5 * Bucket.bucket_size } 2 f').map Prod.fst
          = some (Entry.new 6 (str "Fabio") (str "F2")) := by
  have hb : mainBuckets[5]? = some { recs := [Entry.new 1 (str "Alex") (str "A5"),
      Entry.new 6 (str "Federico") (str "F1")], next := Bucket.overflow_no_overflow } := rfl
  have hw := addWalk_file stdHashInt mainFile mainBuckets mainFile_reach.2 (by decide)
    (Entry.new 6 (str "Fabio") (str "F2")) 16 5 (by decide)
  have hm := Rep.read_mask_file mainFile_reach.2 hb
  obtain ⟨l, t, file1, ems, file2, htr, hhead, hlast, hptr, hwalk, _, _, hmask, _, H⟩ :=
    C13_add_free_slot stdHashInt mainEntries (by decide) (by decide) 16 (by decide)
      mainFile mainFile_reach.1 (Entry.new 6 (str "Fabio") (str "F2")) (by decide)
  rw [hw] at hwalk
  simp only [Option.some.injEq, Prod.mk.injEq, BucketView.mk.injEq, bucket_size_eq] at hwalk
  have ht : t = 5 := by omega
  subst ht
  have hems : ems = [true, true, false, false] := by
    have h := hmask.symm.trans hm
    simpa using h
  subst hems
  obtain ⟨_, _, _, f', h1, h2, h3, h4, _⟩ := H 2 (by decide)
  exact ⟨l, htr, hhead, hlast, hptr, hmask, f', h1, h2, h3, h4⟩

/-- C14 (`add`, full-tail case).  On a file reached from the constructor by
adds, the walk that follows overflow pointers from the home bucket of the
record returns a list `l` that starts at the home bucket; let `t` be its last
element, the tail bucket of the home chain.  The pointer of `t` reads
`overflow_no_overflow`, the chain walk of `add` stops at `t` without changing
a byte, and the flags `ems` of `t` are read.  If the four flags are true, then
`add` returns a file that is one bucket longer; the bytes of the old file
other than the pointer of `t` are as before; the pointer of `t` is
`index = (old file length) / bucket_size`, the new bucket starts at
`index * bucket_size`, the old end of the file, and it has slot `0` active and
holding the record, the other slots inactive, and no overflow. -/
theorem C14_add_full_tail (hashInt : Int → Nat) (rs : List Entry) (hwf : ∀ r ∈ rs, r.WF)
    (hsz : (n_buckets + rs.length) * Bucket.bucket_size < 2 ^ 64) (fuel : Nat)
    (hfuel : n_buckets + rs.length ≤ fuel) (f : FStream)
    (hf : addAll hashInt fuel rs (HashFile.new []) = some f) (e : Entry) (he : e.WF) :
    ∃ l t file1 ems file2,
      chainTrace fuel (add_hash_pos hashInt e) f = some l ∧
      l.head? = some (add_hash_pos hashInt e) ∧ l.getLast? = some t ∧
      (BucketView.read_overflow_pointer { bucket_offset := t * Bucket.bucket_size } f).map
        Prod.fst = some Bucket.overflow_no_overflow ∧
      addWalk fuel { bucket_offset := add_hash_pos hashInt e * Bucket.bucket_size } f =
        some ({ bucket_offset := t * Bucket.bucket_size }, file1) ∧
      file1.data = f.data ∧
      BucketView.read_entries_mask { bucket_offset := t * Bucket.bucket_size } file1 =
        some (ems, file2) ∧
      (BucketView.read_entries_mask { bucket_offset := t * Bucket.bucket_size } f).map Prod.fst =
        some ems ∧
      ems.length = Bucket.fb ∧
      (ems = List.replicate Bucket.fb true →
        ∃ f', add hashInt fuel e f = some f' ∧
          f'.data.length = f.data.length + Bucket.bucket_size ∧
          (f.data.length / Bucket.bucket_size) * Bucket.bucket_size = f.data.length ∧
          (∀ off n, off + n ≤ f.data.length →
              off + n ≤ t * Bucket.bucket_size + Bucket.fb + Bucket.fb * Entry.entry_size ∨
                t * Bucket.bucket_size + Bucket.bucket_size ≤ off →
            slice f'.data off n = slice f.data off n) ∧
          (BucketView.read_overflow_pointer { bucket_offset := t * Bucket.bucket_size } f').map
            Prod.fst = some (f.data.length / Bucket.bucket_size) ∧
          (BucketView.read_entries_mask
              { bucket_offset := (f.data.length / Bucket.bucket_size) * Bucket.bucket_size }
              f').map Prod.fst = some [true, false, false, false] ∧
          (BucketView.read_entry
              { bucket_offset := (f.data.length / Bucket.bucket_size) * Bucket.bucket_size } 0
              f').map Prod.fst = some e ∧
          (BucketView.read_overflow_pointer
              { bucket_offset := (f.data.length / Bucket.bucket_size) * Bucket.bucket_size }
              f').map Prod.fst = some Bucket.overflow_no_overflow) := by
  have hn : n_buckets = 5 := rfl
  obtain ⟨bs, hrep, hinv, _, _, hl, hsz'⟩ := reach_all hashInt rs hwf hsz fuel hfuel f hf
  rw [hn] at hfuel
  obtain ⟨t, b, l, htr, hhead, hlast, hb, _, hbl, hptr, hwalk, _, hadd⟩ :=
    add_reach_trace hashInt bs rs f hrep hinv hsz' fuel (by omega) e
  have hin := hrep.bucket_in_file hb
  have hm1 := hrep.read_mask hb (t * Bucket.bucket_size + Bucket.bucket_size)
  have hm2 := Rep.read_mask_file hrep hb
  refine ⟨l, t, _, _, _, htr, hhead, hlast, hptr, hwalk, rfl, hm1, hm2, rfl, ?_⟩
  intro hems
  have hlen : ¬ b.recs.length < 4 := by
    intro hc
    have : decide (3 < b.recs.length) = true := by
      have := congrArg (fun l => l[3]?) hems
      simp [Bucket.fb, List.replicate] at this
      simpa using this
    simp at this
    omega
  obtain ⟨h1, h2, h3⟩ := full_data_slices f.data t bs.length e he hin
  have hrep' := Rep_add_full f.data bs hrep t b hb hlen e he (by omega)
  have hdiv : f.data.length / Bucket.bucket_size = bs.length := by
    rw [hrep.1, bucket_size_eq]
    exact Nat.mul_div_cancel _ (by decide)
  have hset : (bs.set t { b with next := bs.length }).length = bs.length := by simp
  have hbN : (bs.set t { b with next := bs.length } ++
      [{ recs := [e], next := Bucket.overflow_no_overflow }])[bs.length]? =
      some { recs := [e], next := Bucket.overflow_no_overflow } := by
    have := List.getElem?_concat_length (bs.set t { b with next := bs.length })
      { recs := [e], next := Bucket.overflow_no_overflow }
    rw [hset] at this
    exact this
  have htlt : t < bs.length := by
    rcases List.getElem?_eq_some.mp hb with ⟨hj, _⟩
    exact hj
  have hbt : (bs.set t { b with next := bs.length } ++
      [{ recs := [e], next := Bucket.overflow_no_overflow }])[t]? =
      some { b with next := bs.length } := by
    rw [List.getElem?_append_left (by rw [hset]; exact htlt), List.getElem?_set_self htlt]
  have hfb : Bucket.fb = 4 := rfl
  have hes : Entry.entry_size = 54 := rfl
  refine ⟨_, hadd hlen, ?_, ?_, ?_, ?_, ?_, ?_, ?_⟩
  · rw [bucket_size_eq]; exact h1
  · rw [hdiv, bucket_size_eq]; exact hrep.1.symm
  · intro off n hh1 hh2
    rw [bucket_size_eq, hfb, hes] at hh2
    exact h3 off n hh1 (by omega)
  · rw [hdiv, hrep'.read_next hbt]; rfl
  · rw [hdiv, hrep'.read_mask hbN]; rfl
  · rw [hdiv, hrep'.read_slot hbN (j := 0) (by rfl)]; rfl
  · rw [hdiv, hrep'.read_next hbN]; rfl

end HashFile

namespace HashFile

theorem C14_add_full_tail_witness :
    ∃ l, chainTrace 20 1 mainFull = some l ∧ l.head? = some 1 ∧ l.getLast? = some 5 ∧
      (BucketView.read_overflow_pointer { bucket_offset := 5 * Bucket.bucket_size }
        mainFull).map Prod.fst = some Bucket.overflow_no_overflow ∧
      (BucketView.read_entries_mask { bucket_offset := 5 * Bucket.bucket_size } mainFull).map
        Prod.fst = some [true, true, true, true] ∧
      ∃ f', add stdHashInt 20 (Entry.new 1 (str "Abel") (str "A7")) mainFull = some f' ∧
        f'.data.length = mainFull.data.length + Bucket.bucket_size ∧
        mainFull.data.length / Bucket.bucket_size = 6 ∧
        (BucketView.read_overflow_pointer { bucket_offset := 5 * Bucket.bucket_size } f').map
          Prod.fst = some 6 ∧
        (BucketView.read_entry { bucket_offset := 6 * Bucket.bucket_size } 0 f').map Prod.fst =
          some (Entry.new 1 (str "Abel") (str "A7")) := by
  have hb : fullBuckets[5]? = some { recs := [Entry.new 1 (str "Alex") (str "A5"),
      Entry.new 6 (str "Federico") (str "F1"), Entry.new 6 (str "Fabio") (str "F2"),
      Entry.new 1 (str "Ana") (str "A6")], next := Bucket.overflow_no_overflow } := rfl
  have hw := addWalk_file stdHashInt mainFull fullBuckets mainFull_reach.2 (by decide)
    (Entry.new 1 (str "Abel") (str "A7")) 20 5 (by decide)
  have hm := Rep.read_mask_file mainFull_reach.2 hb
  have hdiv : mainFull.data.length / Bucket.bucket_size = 6 := by
    rw [mainFull_reach.2.1, bucket_size_eq]
    rfl
  obtain ⟨l, t, file1, ems, file2, htr, hhead, hlast, hptr, hwalk, _, _, hmask, _, H⟩ :=
    C14_add_full_tail stdHashInt fullEntries (by decide) (by decide) 20 (by decide)
      mainFull mainFull_reach.1 (Entry.new 1 (str "Abel") (str "A7")) (by decide)
  rw [hw] at hwalk
  simp only [Option.some.injEq, Prod.mk.injEq, BucketView.mk.injEq, bucket_size_eq] at hwalk
  have ht : t = 5 := by omega
  subst ht
  have hems : ems = [true, true, true, true] := by
    have h := hmask.symm.trans hm
    simpa using h
  subst hems
  obtain ⟨f', h1, h2, _, _, h5, _, h7, _⟩ := H rfl
  rw [hdiv] at h5 h7
  exact ⟨l, htr, hhead, hlast, hptr, hmask, f', h1, h2, hdiv, h5, h7⟩

/-- C15 (insertion never relocates or removes).  On a file reached from the
constructor by adds, `add` returns a file with at least as many buckets, in
which every slot whose flag was true still has its flag true and holds the
same record at the same bucket and slot, and every overflow pointer that was
not `overflow_no_overflow` has kept its value. -/
theorem C15_add_never_relocates (hashInt : Int → Nat) (rs : List Entry) (hwf : ∀ r ∈ rs, r.WF)
    (hsz : (n_buckets + rs.length) * Bucket.bucket_size < 2 ^ 64) (fuel : Nat)
    (hfuel : n_buckets + rs.length ≤ fuel) (f : FStream)
    (hf : addAll hashInt fuel rs (HashFile.new []) = some f) (e : Entry) (he : e.WF) :
    ∃ f', add hashInt fuel e f = some f' ∧
      f.data.length / Bucket.bucket_size ≤ f'.data.length / Bucket.bucket_size ∧
      (∀ i j, j < Bucket.fb →
        (BucketView.read_entry_mask { bucket_offset := i * Bucket.bucket_size } j f).map
          Prod.fst = some true →
        (BucketView.read_entry_mask { bucket_offset := i * Bucket.bucket_size } j f').map
          Prod.fst = some true ∧
        (BucketView.read_entry { bucket_offset := i * Bucket.bucket_size } j f).map
          Prod.fst ≠ none ∧
        (BucketView.read_entry { bucket_offset := i * Bucket.bucket_size } j f').map Prod.fst =
          (BucketView.read_entry { bucket_offset := i * Bucket.bucket_size } j f).map
            Prod.fst) ∧
      (∀ i nx,
        (BucketView.read_overflow_pointer { bucket_offset := i * Bucket.bucket_size } f).map
          Prod.fst = some nx →
        nx ≠ Bucket.overflow_no_overflow →
        (BucketView.read_overflow_pointer { bucket_offset := i * Bucket.bucket_size } f').map
          Prod.fst = some nx) := by
  obtain ⟨bs, hrep, hinv, _, _, hl, hsz'⟩ := reach_all hashInt rs hwf hsz fuel hfuel f hf
  have hn : n_buckets = 5 := rfl
  rw [hn] at hfuel
  obtain ⟨t, b, hb, hbn, hbl, _, hwalk, hfree, hfull⟩ :=
    add_reach hashInt bs rs f hrep hinv hsz' fuel (by omega) e
  have hin := hrep.bucket_in_file hb
  obtain ⟨_, hm, _, hnext⟩ := hrep.2 t b hb
  have hfb : Bucket.fb = 4 := rfl
  rw [bucket_size_eq, hfb]
  by_cases hlen : b.recs.length < 4
  · obtain ⟨h1, _, _, h4⟩ := free_data_slices f.data t b.recs.length e he hlen hin
    refine ⟨_, hfree hlen, by simp only [h1]; exact Nat.le_refl _, ?_, ?_⟩
    · intro i j hj hact
      rw [BucketView.read_entry_mask_fst] at hact
      simp only at hact
      have hr : i * 228 + j + 1 ≤ f.data.length := by
        by_contra hc
        simp [hc] at hact
      simp only [hr, if_true, Option.some.injEq] at hact
      have hne : i ≠ t ∨ j ≠ b.recs.length := by
        by_contra hc
        have hc' : i = t ∧ j = b.recs.length := by omega
        obtain ⟨rfl, rfl⟩ := hc'
        rw [hm _ hj] at hact
        simp at hact
      have hlen' := hrep.1
      have hr2 : i * 228 + 4 + j * 54 + 54 ≤ f.data.length := by omega
      simp only [BucketView.read_entry_mask_fst, BucketView.read_entry_fst, h1, hr, hr2, if_true,
        maskAt, entryAt]
      have e1 : slice (writeAt (writeAt f.data (t * 228 + b.recs.length) [boolByte true])
          (t * 228 + 4 + b.recs.length * 54) e.bytes) (i * 228 + j) 1
          = slice f.data (i * 228 + j) 1 := by
        apply h4
        rcases Nat.lt_trichotomy i t with h | h | h <;> omega
      have e2 : slice (writeAt (writeAt f.data (t * 228 + b.recs.length) [boolByte true])
          (t * 228 + 4 + b.recs.length * 54) e.bytes) (i * 228 + 4 + j * 54) 54
          = slice f.data (i * 228 + 4 + j * 54) 54 := by
        apply h4
        rcases Nat.lt_trichotomy i t with h | h | h <;> omega
      rw [e1, e2]
      unfold maskAt at hact
      exact ⟨by rw [hact], by simp, rfl⟩
    · intro i nx hnx _
      rw [← hnx]
      apply read_overflow_pointer_congr _ _ _ h1
      intro _
      apply h4
      rcases Nat.lt_trichotomy i t with h | h | h <;> omega
  · obtain ⟨h1, _, h3⟩ := full_data_slices f.data t bs.length e he hin
    refine ⟨_, hfull hlen, ?_, ?_, ?_⟩
    · simp only [h1]
      exact Nat.div_le_div_right (by omega)
    · intro i j hj hact
      rw [BucketView.read_entry_mask_fst] at hact
      simp only at hact
      have hr : i * 228 + j + 1 ≤ f.data.length := by
        by_contra hc
        simp [hc] at hact
      simp only [hr, if_true, Option.some.injEq] at hact
      have hlen' := hrep.1
      have hr2 : i * 228 + 4 + j * 54 + 54 ≤ f.data.length := by omega
      have hr' : i * 228 + j + 1 ≤ f.data.length + 228 := by omega
      have hr2' : i * 228 + 4 + j * 54 + 54 ≤ f.data.length + 228 := by omega
      simp only [BucketView.read_entry_mask_fst, BucketView.read_entry_fst, h1, hr, hr2, hr',
        hr2', if_true, maskAt, entryAt]
      rw [h3 _ _ (by omega) (by rcases Nat.lt_trichotomy i t with h | h | h <;> omega),
        h3 _ _ (by omega) (by rcases Nat.lt_trichotomy i t with h | h | h <;> omega)]
      unfold maskAt at hact
      exact ⟨by rw [hact], by simp, rfl⟩
    · intro i nx hnx hne
      rw [BucketView.read_overflow_pointer_fst] at hnx ⊢
      simp only at hnx ⊢
      have hr : i * 228 + 228 ≤ f.data.length := by
        by_contra hc
        simp [hc] at hnx
      simp only [hr, if_true, Option.some.injEq] at hnx
      have hit : i ≠ t := by
        rintro rfl
        rw [hnext, hbn] at hnx
        exact hne hnx.symm
      rw [h1, if_pos (by omega)]
      simp only [nextAt]
      rw [h3 _ _ (by omega) (by rcases Nat.lt_trichotomy i t with h | h | h <;> omega)]
      unfold nextAt at hnx
      rw [hnx]

theorem C15_add_never_relocates_witness :
    ∃ f', add stdHashInt 16 (Entry.new 1 (str "Alda") (str "A6")) mainFile = some f' ∧
      mainFile.data.length / Bucket.bucket_size ≤ f'.data.length / Bucket.bucket_size := by
  obtain ⟨f', h1, h2, _⟩ :=
    C15_add_never_relocates stdHashInt mainEntries (by decide) (by decide) 16 (by decide)
      mainFile mainFile_reach.1 (Entry.new 1 (str "Alda") (str "A6")) (by decide)
  exact ⟨f', h1, h2⟩

end HashFile

namespace HashFile

/-- C18 (termination of the chain walks).  On every file reached from the
constructor by adds, each overflow pointer other than `overflow_no_overflow`
is greater than the index of the bucket that holds it and smaller than the
number of buckets of the file; and the chain walk of `add`, for every record,
and the loop of `find`, for every key, return as soon as they are allowed
more iterations than the file has buckets. -/
theorem C18_walks_terminate (hashInt : Int → Nat) (rs : List Entry) (hwf : ∀ r ∈ rs, r.WF)
    (hsz : (n_buckets + rs.length) * Bucket.bucket_size < 2 ^ 64) (fuel : Nat)
    (hfuel : n_buckets + rs.length ≤ fuel) (f : FStream)
    (hf : addAll hashInt fuel rs (HashFile.new []) = some f) :
    (∀ i nx,
      (BucketView.read_overflow_pointer { bucket_offset := i * Bucket.bucket_size } f).map
        Prod.fst = some nx →
      nx ≠ Bucket.overflow_no_overflow →
      i < nx ∧ nx < f.data.length / Bucket.bucket_size) ∧
    (∀ (e : Entry) (fuel' : Nat), f.data.length / Bucket.bucket_size < fuel' →
      ∃ bv file1,
        addWalk fuel' { bucket_offset := add_hash_pos hashInt e * Bucket.bucket_size } f =
          some (bv, file1)) ∧
    (∀ (k : Int) (fuel' : Nat), f.data.length / Bucket.bucket_size < fuel' →
      ∃ r file1, find hashInt fuel' k f = some (r, file1)) := by
  obtain ⟨bs, hrep, hinv, _, _, hl, hsz'⟩ := reach_all hashInt rs hwf hsz fuel hfuel f hf
  rw [hrep.length_div]
  refine ⟨?_, ?_, ?_⟩
  · intro i nx hnx hne
    obtain ⟨b, hb, rfl⟩ := (hrep.next_iff i nx).mp hnx
    rcases hinv.next_facts i b hb with hc | ⟨h1, h2, _⟩
    · exact absurd hc hne
    · exact ⟨h1, h2⟩
  · intro e fuel' hfuel'
    obtain ⟨_, _, _, _, _, _, hwalk, _, _⟩ :=
      add_reach hashInt bs rs f hrep hinv hsz' fuel' (by omega) e
    exact ⟨_, _, hwalk⟩
  · intro k fuel' hfuel'
    obtain ⟨p', hp'⟩ := find_reach hashInt rs f bs hrep hinv hsz' fuel' hfuel' k
    exact ⟨_, _, hp'⟩

theorem C18_walks_terminate_witness :
    (∀ (e : Entry) (fuel' : Nat), mainFile.data.length / Bucket.bucket_size < fuel' →
      ∃ bv file1,
        addWalk fuel' { bucket_offset := add_hash_pos stdHashInt e * Bucket.bucket_size }
          mainFile = some (bv, file1)) ∧
    (∀ (k : Int) (fuel' : Nat), mainFile.data.length / Bucket.bucket_size < fuel' →
      ∃ r file1, find stdHashInt fuel' k mainFile = some (r, file1)) :=
  (C18_walks_terminate stdHashInt mainEntries (by decide) (by decide) 16 (by decide)
    mainFile mainFile_reach.1).2

/-- C19 (in-bounds access).  On every file reached from the constructor by
adds, the length is a multiple of `bucket_size = 228`; the home indices that
`add` and `find` compute are below `n_buckets`; the walk along the overflow
pointers from any home index visits only bucket indices below
`length / bucket_size`, so each bucket visited lies entirely inside the file;
and `add`, for every record, and `find`, for every key and with more
iterations allowed than the file has buckets, return, so that none of their
reads runs past the end of the file. -/
theorem C19_in_bounds (hashInt : Int → Nat) (rs : List Entry) (hwf : ∀ r ∈ rs, r.WF)
    (hsz : (n_buckets + rs.length) * Bucket.bucket_size < 2 ^ 64) (fuel : Nat)
    (hfuel : n_buckets + rs.length ≤ fuel) (f : FStream)
    (hf : addAll hashInt fuel rs (HashFile.new []) = some f) :
    f.data.length % Bucket.bucket_size = 0 ∧ Bucket.bucket_size = 228 ∧
    n_buckets ≤ f.data.length / Bucket.bucket_size ∧
    (∀ e : Entry, add_hash_pos hashInt e < n_buckets) ∧
    (∀ k : Int, find_index hashInt k < n_buckets) ∧
    (∀ h, h < n_buckets → ∃ l, chainTrace fuel h f = some l ∧
      ∀ x ∈ l, x < f.data.length / Bucket.bucket_size ∧
        x * Bucket.bucket_size + Bucket.bucket_size ≤ f.data.length) ∧
    (∀ e : Entry, ∃ f', add hashInt fuel e f = some f') ∧
    (∀ (k : Int) (fuel' : Nat), f.data.length / Bucket.bucket_size < fuel' →
      ∃ r file1, find hashInt fuel' k f = some (r, file1)) := by
  obtain ⟨bs, hrep, hinv, _, h5, hl, hsz'⟩ :=
    reach_all hashInt rs hwf hsz fuel hfuel f hf
  have hn : n_buckets = 5 := rfl
  rw [hn] at hfuel
  rw [hrep.length_div, hn]
  refine ⟨?_, rfl, h5, fun e => add_hash_pos_lt hashInt e,
    fun k => Nat.mod_lt _ (by decide), ?_, ?_, ?_⟩
  · rw [hrep.1, bucket_size_eq]
    exact Nat.mul_mod_left _ _
  · intro h hh
    obtain ⟨ch, hch, _, _⟩ := hinv
    have hc := hch h hh
    have hlen := hc.add_length_lt
    refine ⟨h :: ch h, hc.trace_eq f.data hrep hsz' fuel (by omega) f.pos, ?_⟩
    intro x hx
    have hxlt := hc.mem_lt_length x hx
    refine ⟨hxlt, ?_⟩
    rw [bucket_size_eq]
    exact hrep.bucket_in_file (List.getElem?_eq_getElem hxlt)
  · intro e
    obtain ⟨_, b, _, _, _, _, _, hfree, hfull⟩ :=
      add_reach hashInt bs rs f hrep hinv hsz' fuel (by omega) e
    by_cases hlen : b.recs.length < 4
    · exact ⟨_, hfree hlen⟩
    · exact ⟨_, hfull hlen⟩
  · intro k fuel' hfuel'
    obtain ⟨p', hp'⟩ := find_reach hashInt rs f bs hrep hinv hsz' fuel' hfuel' k
    exact ⟨_, _, hp'⟩

theorem C19_in_bounds_witness :
    mainFile.data.length % Bucket.bucket_size = 0 ∧ Bucket.bucket_size = 228 ∧
    n_buckets ≤ mainFile.data.length / Bucket.bucket_size ∧
    (∀ e : Entry, add_hash_pos stdHashInt e < n_buckets) ∧
    (∀ k : Int, find_index stdHashInt k < n_buckets) ∧
    (∀ h, h < n_buckets → ∃ l, chainTrace 16 h mainFile = some l ∧
      ∀ x ∈ l, x < mainFile.data.length / Bucket.bucket_size ∧
        x * Bucket.bucket_size + Bucket.bucket_size ≤ mainFile.data.length) ∧
    (∀ e : Entry, ∃ f', add stdHashInt 16 e mainFile = some f') ∧
    (∀ (k : Int) (fuel' : Nat), mainFile.data.length / Bucket.bucket_size < fuel' →
      ∃ r file1, find stdHashInt fuel' k mainFile = some (r, file1)) :=
  C19_in_bounds stdHashInt mainEntries (by decide) (by decide) 16 (by decide)
    mainFile mainFile_reach.1

end HashFile

namespace HashFile

/-- C20 (fill invariant).  On every file reached from the constructor by adds:
in every bucket the active slots form an initial segment of the slots; every
bucket whose overflow pointer is not `overflow_no_overflow` has its four
slots active; every overflow bucket, that is every bucket with index at least
`n_buckets`, has slot `0` active and is the target of the overflow pointer of
exactly one bucket; and on the walk along the overflow pointers from a
primary bucket every bucket before the last one has its four slots active, so
that the last bucket, where `add` inserts, is the only one of the chain that
can have a free slot. -/
theorem C20_fill_invariant (hashInt : Int → Nat) (rs : List Entry) (hwf : ∀ r ∈ rs, r.WF)
    (hsz : (n_buckets + rs.length) * Bucket.bucket_size < 2 ^ 64) (fuel : Nat)
    (hfuel : n_buckets + rs.length ≤ fuel) (f : FStream)
    (hf : addAll hashInt fuel rs (HashFile.new []) = some f) :
    (∀ i j, j < Bucket.fb →
      (BucketView.read_entry_mask { bucket_offset := i * Bucket.bucket_size } j f).map
        Prod.fst = some true →
      ∀ j', j' < j →
        (BucketView.read_entry_mask { bucket_offset := i * Bucket.bucket_size } j' f).map
          Prod.fst = some true) ∧
    (∀ i nx,
      (BucketView.read_overflow_pointer { bucket_offset := i * Bucket.bucket_size } f).map
        Prod.fst = some nx →
      nx ≠ Bucket.overflow_no_overflow →
      (BucketView.read_entries_mask { bucket_offset := i * Bucket.bucket_size } f).map
        Prod.fst = some [true, true, true, true]) ∧
    (∀ i, n_buckets ≤ i → i < f.data.length / Bucket.bucket_size →
      (BucketView.read_entry_mask { bucket_offset := i * Bucket.bucket_size } 0 f).map
        Prod.fst = some true ∧
      ∃ y : Nat,
        (BucketView.read_overflow_pointer { bucket_offset := y * Bucket.bucket_size } f).map
          Prod.fst = some i ∧
        ∀ y' : Nat,
          (BucketView.read_overflow_pointer { bucket_offset := y' * Bucket.bucket_size } f).map
            Prod.fst = some i → y' = y) ∧
    (∀ h, h < n_buckets → ∃ l, chainTrace fuel h f = some l ∧
      ∀ x ∈ l.dropLast,
        (BucketView.read_entries_mask { bucket_offset := x * Bucket.bucket_size } f).map
          Prod.fst = some [true, true, true, true]) := by
  obtain ⟨bs, hrep, hinv, hof, _, hl, hsz'⟩ := reach_all hashInt rs hwf hsz fuel hfuel f hf
  have hn : n_buckets = 5 := rfl
  have hfb : Bucket.fb = 4 := rfl
  have hfull : ∀ x b, bs[x]? = some b → b.recs.length = 4 →
      (BucketView.read_entries_mask { bucket_offset := x * Bucket.bucket_size } f).map
        Prod.fst = some [true, true, true, true] := by
    intro x b hb h4
    have := hrep.read_mask hb f.pos
    have hf' : (⟨f.data, f.pos⟩ : FStream) = f := rfl
    rw [hf'] at this
    rw [this, h4]
    rfl
  rw [hrep.length_div, hn, hfb]
  refine ⟨?_, ?_, ?_, ?_⟩
  · intro i j hj hact j' hj'
    obtain ⟨b, hb, hdec⟩ := (hrep.mask_iff i j hj true).mp hact
    refine (hrep.mask_iff i j' (by omega) true).mpr ⟨b, hb, ?_⟩
    have : j < b.recs.length := by simpa using hdec.symm
    simp
    omega
  · intro i nx hnx hne
    obtain ⟨b, hb, rfl⟩ := (hrep.next_iff i nx).mp hnx
    rcases hinv.next_facts i b hb with hc | ⟨_, _, h4⟩
    · exact absurd hc hne
    · exact hfull i b hb h4
  · intro i h5 hi
    have hb : bs[i]? = some bs[i] := List.getElem?_eq_getElem hi
    have hne := hof i _ hb h5
    refine ⟨(hrep.mask_iff i 0 (by omega) true).mpr ⟨_, hb, ?_⟩, ?_⟩
    · have : 0 < bs[i].recs.length := List.length_pos.mpr hne
      simp [this]
    · obtain ⟨y, hyp, hyu⟩ := hinv.overflow_pred i h5 hi
        (by rw [overflow_no_overflow_eq]; omega)
      refine ⟨y, (hrep.next_iff y i).mpr hyp, ?_⟩
      intro y' hy'
      exact hyu y' ((hrep.next_iff y' i).mp hy')
  · intro h hh
    obtain ⟨ch, hch, _, _⟩ := hinv
    have hc := hch h hh
    have hlen := hc.add_length_lt
    refine ⟨h :: ch h, hc.trace_eq f.data hrep hsz' fuel (by omega) f.pos, ?_⟩
    intro x hx
    obtain ⟨b, hb, h4⟩ := hc.full_before_last x hx
    exact hfull x b hb h4

theorem C20_fill_invariant_witness :
    (∀ i nx,
      (BucketView.read_overflow_pointer { bucket_offset := i * Bucket.bucket_size }
        mainFile).map Prod.fst = some nx →
      nx ≠ Bucket.overflow_no_overflow →
      (BucketView.read_entries_mask { bucket_offset := i * Bucket.bucket_size } mainFile).map
        Prod.fst = some [true, true, true, true]) ∧
    (∀ i, n_buckets ≤ i → i < mainFile.data.length / Bucket.bucket_size →
      (BucketView.read_entry_mask { bucket_offset := i * Bucket.bucket_size } 0 mainFile).map
        Prod.fst = some true ∧
      ∃ y : Nat,
        (BucketView.read_overflow_pointer { bucket_offset := y * Bucket.bucket_size }
          mainFile).map Prod.fst = some i ∧
        ∀ y' : Nat,
          (BucketView.read_overflow_pointer { bucket_offset := y' * Bucket.bucket_size }
            mainFile).map Prod.fst = some i → y' = y) :=
  ⟨(C20_fill_invariant stdHashInt mainEntries (by decide) (by decide) 16 (by decide)
      mainFile mainFile_reach.1).2.1,
    (C20_fill_invariant stdHashInt mainEntries (by decide) (by decide) 16 (by decide)
      mainFile mainFile_reach.1).2.2.1⟩

end HashFile

end P2
